import Mathlib

/-!
# The per-frame simulation core of `general.cpp`

A shallow embedding of the update pass, the two collision passes, the tick
driver and the two-phase renderer of `src/cs174projectCleanup/general.cpp`,
together with `GrenadeEntity::onCollide` of `GrenadeEntity.h`.

Conventions of the embedding.

* A `GameEntity*` is an `EntityId`; a `GameEntityList` is a `List EntityId`.
* The virtual methods of `GameEntity` (`update`, `didCollide`, `onCollide`,
  the destructor) and of the scene are not in the source files at hand; they
  are the fields of a `Behaviour`, a parameter of every function that calls
  them. The delete flag (`setDelete`, `toDelete`) is a field of the world.
* Every call the C++ code makes to such a method, every `delete` and every
  `erase` is logged as an `Event`; the functions return the log next to the
  state, so that "was called exactly once" is a statement about the log.
* The passes are embedded twice. In `updateEntities`, `checkCollisionsSelf`,
  `checkCollisions` and `animate` an iterator into a registry is the split of the
  registry at that position: the registries scanned by a pass are held by the
  pass itself while it runs and stored back when it returns. That is the pass
  for methods that neither read nor write a registry under scan (`Ignores`);
  what such a method inserts into a registry under scan would be lost.
  In `updateEntitiesLive`, `checkCollisionsSelfLive`, `checkCollisionsLive` and
  `animateLive` the registries are those of the world, each a `std::list` (the
  container type `GameEntityList` is not declared in the source files at hand):
  an iterator is a position, and an entity that a method inserts at the back of
  a registry under scan, as `GrenadeEntity::onCollide` does, is scanned and
  stays in the registry. These functions take a bound on the rounds of the
  loops and return nothing when it is used up. For methods that neither read
  nor write a registry under scan the two embeddings return the same
  (`updateEntitiesLive_eq_updateEntities`,
  `checkCollisionsSelfLive_eq_checkCollisionsSelf`,
  `checkCollisionsLive_eq_checkCollisions`, `animateLive_eq_animate`).
* `vec3` coordinates are exact integers.
-/

namespace Game

/-! ## Data model -/

/-- A `GameEntity*`: the identity of one simulated object. -/
abbrev EntityId := Nat

/-- The `vec3` of the maths library, with exact coordinates. -/
structure Vec3 where
  x : Int
  y : Int
  z : Int
deriving DecidableEq, Repr

/-- Component-wise difference, `operator-` on `vec3`. -/
def Vec3.sub (a b : Vec3) : Vec3 := ⟨a.x - b.x, a.y - b.y, a.z - b.z⟩

/-- The scalar product `dot(a, b)`. -/
def dot (a b : Vec3) : Int := a.x * b.x + a.y * b.y + a.z * b.z

/-- A `DrawableEntity`: what the renderer reads of a model, its translation
(`getTranslate`) and its alpha flag (`isAlphaRequired`); `mesh` stands for the
rest of the object (mesh reference, material). -/
structure DrawableEntity where
  mesh : Nat
  translate : Vec3
  alphaRequired : Bool
deriving DecidableEq, Repr

/-- One logged action of the simulation core. -/
inductive Event where
  /-- The call `(*i)->update()`. -/
  | update (e : EntityId)
  /-- The call `(*i)->toDelete()`, which returned `r`. -/
  | toDelete (e : EntityId) (r : Bool)
  /-- The evaluation of `a->didCollide(*b)`, which returned `r`. -/
  | didCollide (a b : EntityId) (r : Bool)
  /-- The call `a->onCollide(*b)`. -/
  | onCollide (a b : EntityId)
  /-- The statement `delete e`. -/
  | delete (e : EntityId)
  /-- The call `list.erase(it)` with `*it == e`. -/
  | erase (e : EntityId)
  /-- The call `model.draw()`. -/
  | draw (m : DrawableEntity)
  /-- The call `wScenes[currentLevel]->update()`. -/
  | sceneUpdate
  /-- The call `wScenes[currentLevel]->levelEnd()`. -/
  | levelEnd
deriving DecidableEq, Repr

/-- The log of one run. -/
abbrev Trace := List Event

/-! ## Depth ordering of transparent models (`general.cpp` lines 18-41) -/

/-- Squared distance of a model from the camera: `dot(aToCam, aToCam)` with
`aToCam = camPos - a->getTranslate()`. -/
def sqDist (camPos : Vec3) (a : DrawableEntity) : Int :=
  dot (camPos.sub a.translate) (camPos.sub a.translate)

/-- The functor `DepthComparator::operator()`: true iff
`dot(aToCam, aToCam) > dot(bToCam, bToCam)`. -/
def DepthComparator (camPos : Vec3) (a b : DrawableEntity) : Bool :=
  let aToCam := camPos.sub a.translate
  let bToCam := camPos.sub b.translate
  decide (dot aToCam aToCam > dot bToCam bToCam)

/-- The content of a `std::priority_queue<const DrawableEntity*, ...,
DepthComparator>`. The C++ standard library fixes the queue by its contract:
`Compare` is the "less than" of the queue, `comp(a, b)` says that `a` is
ordered before `b`, and `top()` is a greatest element, one that `comp` orders
before no other element. The pending elements are kept as a list. -/
abbrev TransparencyQueue := List DrawableEntity

/-- The method `priority_queue::push`. -/
def TransparencyQueue.push (q : TransparencyQueue) (m : DrawableEntity) :
    TransparencyQueue :=
  q ++ [m]

/-- The greatest element of `m :: q` for the "less than" `comp`: the
candidate is replaced whenever `comp` orders it before the next element. -/
def greatest (comp : DrawableEntity → DrawableEntity → Bool) :
    DrawableEntity → List DrawableEntity → DrawableEntity
  | m, [] => m
  | m, x :: q => if comp m x then greatest comp x q else greatest comp m q

/-- The method `priority_queue::top` of a queue ordered by `DepthComparator`. -/
def TransparencyQueue.top (camPos : Vec3) : TransparencyQueue → Option DrawableEntity
  | [] => none
  | m :: q => some (greatest (DepthComparator camPos) m q)

/-- The method `priority_queue::pop`: removes the element `top()` returns. -/
def TransparencyQueue.pop (camPos : Vec3) (q : TransparencyQueue) : TransparencyQueue :=
  match TransparencyQueue.top camPos q with
  | none => q
  | some m => q.erase m

/-! ## Rendering (`general.cpp` lines 169-222) -/

/-- The body of the slot loop of `drawOpaqueEntities` for the slots listed in
`cs` of one entity: a null slot is skipped, an alpha model is pushed, any
other model is drawn. -/
def drawSlots (getModelConst : EntityId → Nat → Option DrawableEntity) (e : EntityId) :
    List Nat → TransparencyQueue → Trace × TransparencyQueue
  | [], q => ([], q)
  | c :: cs, q =>
    match getModelConst e c with
    | none => drawSlots getModelConst e cs q
    | some model =>
      if model.alphaRequired then
        drawSlots getModelConst e cs (q.push model)
      else
        let r := drawSlots getModelConst e cs q
        (Event.draw model :: r.1, r.2)

/-- The function `drawOpaqueEntities(list, transparencyQueue)`: for every entity of the
list, for `c = 0 .. MAX_MODELS - 1`. `MAX_MODELS` is a parameter (its
declaration is in `GameEntity.h`). -/
def drawOpaqueEntities (MAX_MODELS : Nat)
    (getModelConst : EntityId → Nat → Option DrawableEntity) :
    List EntityId → TransparencyQueue → Trace × TransparencyQueue
  | [], q => ([], q)
  | e :: list, q =>
    let r1 := drawSlots getModelConst e (List.range MAX_MODELS) q
    let r2 := drawOpaqueEntities MAX_MODELS getModelConst list r1.2
    (r1.1 ++ r2.1, r2.2)

/-- The loop `while(!transparencyQueue.empty()) { top()->draw(); pop(); }`,
run for at most `fuel` rounds. -/
def drawTransparent (camPos : Vec3) : Nat → TransparencyQueue → Trace × TransparencyQueue
  | 0, q => ([], q)
  | fuel + 1, q =>
    match TransparencyQueue.top camPos q with
    | none => ([], q)
    | some m =>
      let r := drawTransparent camPos fuel (TransparencyQueue.pop camPos q)
      (Event.draw m :: r.1, r.2)

/-- The drawing part of `callbackDisplay`: phase 1 over the three registries,
then phase 2 on the queue. Returns the draws of phase 1, the draws of phase 2
and the queue left at the end of the frame. Every round of the phase 2 loop
removes one element, so the size of the queue is enough fuel. -/
def callbackDisplay (MAX_MODELS : Nat)
    (getModelConst : EntityId → Nat → Option DrawableEntity) (camPos : Vec3)
    (wEntities wWalls wSoftEntities : List EntityId) :
    Trace × Trace × TransparencyQueue :=
  let transparencyQueue : TransparencyQueue := []
  let r1 := drawOpaqueEntities MAX_MODELS getModelConst wEntities transparencyQueue
  let r2 := drawOpaqueEntities MAX_MODELS getModelConst wWalls r1.2
  let r3 := drawOpaqueEntities MAX_MODELS getModelConst wSoftEntities r2.2
  let r4 := drawTransparent camPos r3.2.length r3.2
  (r1.1 ++ r2.1 ++ r3.1, r4.1, r4.2)

/-- The squared distances, in drawing order, of the models a log draws. -/
def drawnSqDists (camPos : Vec3) : Trace → List Int
  | [] => []
  | Event.draw m :: t => sqDist camPos m :: drawnSqDists camPos t
  | _ :: t => drawnSqDists camPos t

/-- All non-null model slots of the entities of a list, in entity and slot
order. -/
def allModels (MAX_MODELS : Nat) (getModelConst : EntityId → Nat → Option DrawableEntity) :
    List EntityId → List DrawableEntity
  | [] => []
  | e :: list =>
    (List.range MAX_MODELS).filterMap (getModelConst e) ++
      allModels MAX_MODELS getModelConst list

/-- The scenario of the depth-order test: the camera at the origin, one
registry with three entities, each with one alpha model in slot 0, at squared
distances 4, 1 and 9. -/
def depthScenarioModel (e : EntityId) (c : Nat) : Option DrawableEntity :=
  if c = 0 then
    if e = 0 then some ⟨0, ⟨2, 0, 0⟩, true⟩
    else if e = 1 then some ⟨1, ⟨0, 1, 0⟩, true⟩
    else if e = 2 then some ⟨2, ⟨0, 0, 3⟩, true⟩
    else none
  else none

/-! ## World state -/

/-- The address of one of the three process-wide registries of `Globals`. -/
inductive Registry where
  | wEntities
  | wWalls
  | wSoftEntities
deriving DecidableEq, Repr

/-- The process-wide state of `namespace Globals` that the core touches,
with the two `GameEntity` members the source files at hand use (`translate`,
the delete flag) kept per entity. `nextEntity` is the address the next `new`
returns; `ext` is everything else an entity or a scene may read or write.
The frame counter is an unbounded number. -/
structure World (H : Type) where
  frameCount : Nat
  wEntities : List EntityId
  wWalls : List EntityId
  wSoftEntities : List EntityId
  MOUSE_LEFT : Bool
  MOUSE_RIGHT : Bool
  MOUSE_EDGE_LEFT : Bool
  MOUSE_EDGE_RIGHT : Bool
  KEY_A : Bool
  KEY_W : Bool
  KEY_S : Bool
  KEY_D : Bool
  KEY_Q : Bool
  KEY_E : Bool
  KEY_SPACE : Bool
  mouseX : Int
  mouseY : Int
  translate : EntityId → Vec3
  deleteFlag : EntityId → Bool
  nextEntity : EntityId
  ext : H

/-- The content of the registry at an address. -/
def World.list {H : Type} (w : World H) : Registry → List EntityId
  | Registry.wEntities => w.wEntities
  | Registry.wWalls => w.wWalls
  | Registry.wSoftEntities => w.wSoftEntities

/-- Stores a new content in the registry at an address. -/
def World.setList {H : Type} (w : World H) : Registry → List EntityId → World H
  | Registry.wEntities, l => { w with wEntities := l }
  | Registry.wWalls, l => { w with wWalls := l }
  | Registry.wSoftEntities, l => { w with wSoftEntities := l }

/-- Modelled from the spec: `GameEntity::toDelete` (declared in
`GameEntity.h`, not at hand) reads the delete flag of the entity. -/
def toDelete {H : Type} (e : EntityId) (w : World H) : Bool := w.deleteFlag e

/-- Modelled from the spec: `GameEntity::setDelete` (declared in
`GameEntity.h`, not at hand) flags the entity as deleted. -/
def setDelete {H : Type} (e : EntityId) (w : World H) : World H :=
  { w with deleteFlag := fun x => if x = e then true else w.deleteFlag x }

/-- Modelled from the spec: `setTranslate` of the entity transform (not at
hand) stores the position `getTranslate` reads. -/
def setTranslate {H : Type} (e : EntityId) (v : Vec3) (w : World H) : World H :=
  { w with translate := fun x => if x = e then v else w.translate x }

/-- Modelled from the spec: `Globals::addSoftEntity` (not at hand) inserts the
entity into the soft-entity registry. -/
def addSoftEntity {H : Type} (e : EntityId) (w : World H) : World H :=
  { w with wSoftEntities := w.wSoftEntities ++ [e] }

/-- Modelled from the spec: `new Explosion()` (class not at hand) yields a
fresh entity, not flagged as deleted. -/
def newExplosion {H : Type} (w : World H) : EntityId × World H :=
  (w.nextEntity,
   { w with nextEntity := w.nextEntity + 1,
            deleteFlag := fun x => if x = w.nextEntity then false else w.deleteFlag x })

/-- The methods of the objects the core calls back: the virtual methods of
`GameEntity` and of the current scene. Their code is not at hand; they are
parameters. `didCollide` is a side-effect-free predicate. -/
structure Behaviour (H : Type) where
  update : EntityId → World H → World H
  didCollide : EntityId → EntityId → World H → Bool
  onCollide : EntityId → EntityId → World H → World H
  destructor : EntityId → World H → World H
  sceneUpdate : World H → World H
  levelEnd : World H → Bool × World H

/-- The method `GrenadeEntity::onCollide(const GameEntity& g)` of `GrenadeEntity.h`,
with `self` for `this`. -/
def GrenadeEntity.onCollide {H : Type} (self : EntityId) (_g : EntityId) (w : World H) :
    World H :=
  let r := newExplosion w
  let e := r.1
  let w1 := setTranslate e (r.2.translate self) r.2
  let w2 := addSoftEntity e w1
  setDelete self w2

/-- What a loop over one registry returns: the registry content, the world
and the log. -/
structure Scan (H : Type) where
  list : List EntityId
  world : World H
  log : Trace

/-- Puts events in front of the log of a scan. -/
def Scan.after {H : Type} (t : Trace) (r : Scan H) : Scan H :=
  { r with log := t ++ r.log }

/-! ## The update pass (`general.cpp` lines 73-86) -/

/-- The `while` loop of `updateEntities` from the position `i` on, given as
the part of the registry from `i` to the end; returns what is left of that
part. -/
def updateLoop {H : Type} (B : Behaviour H) : List EntityId → World H → Scan H
  | [], w => ⟨[], w, []⟩
  | e :: list, w =>
    let w1 := B.update e w
    if toDelete e w1 then
      Scan.after [Event.update e, Event.toDelete e true, Event.delete e, Event.erase e]
        (updateLoop B list (B.destructor e w1))
    else
      let r := updateLoop B list w1
      ⟨e :: r.list, r.world, [Event.update e, Event.toDelete e false] ++ r.log⟩

/-- The function `updateEntities(list)` on the registry at address `list`. The pass
holds the registry while it runs: for methods that write it the function is
`updateEntitiesLive`. -/
def updateEntities {H : Type} (B : Behaviour H) (list : Registry) (w : World H) :
    World H × Trace :=
  let r := updateLoop B (w.list list) w
  (r.world.setList list r.list, r.log)

/-! ## The collision passes (`general.cpp` lines 87-146) -/

/-- How the inner loop of a collision pass is left. -/
inductive Exit where
  /-- The inner `for` ended, by its condition or by `break`: `++i` follows -/
  | next
  /-- The entity `*i` was erased and `i` is on its successor: `return` when that is
  `end()`, `goto NEXT_I` otherwise -/
  | restart
deriving DecidableEq, Repr

/-- What the inner loop returns: how it was left, the part of the registry
it ran over, the world and the log. -/
structure Inner (H : Type) where
  exit : Exit
  list : List EntityId
  world : World H
  log : Trace

/-- Puts events in front of the log of an inner loop. -/
def Inner.after {H : Type} (t : Trace) (r : Inner H) : Inner H :=
  { r with log := t ++ r.log }

/-- The events of one collision of `*i = x` with `*j = y`, up to the erase
of `*j`. -/
def collisionEvents (x y : EntityId) (deleteI deleteJ : Bool) : Trace :=
  [Event.didCollide x y true, Event.onCollide x y, Event.onCollide y x,
   Event.toDelete x deleteI, Event.toDelete y deleteJ] ++
  (if deleteJ then [Event.delete y, Event.erase y] else [])

/-- The inner loop of both passes, at `NEXT_J`, for `*i = x`. The range the
inner loop runs over is `mid ++ rest`: `mid` are the elements before `j` and
`rest` the elements from `j` on (empty when `j == end()`). In the self pass
the range is the part of the registry after `i`, in the cross pass it is
`listB`. The returned list is the range after the erasures. -/
def loopJ {H : Type} (B : Behaviour H) (x : EntityId) :
    List EntityId → List EntityId → World H → Inner H
  | mid, [], w => ⟨Exit.next, mid, w, []⟩
  | mid, y :: rest, w =>
    if B.didCollide x y w then
      let w1 := B.onCollide x y w
      let w2 := B.onCollide y x w1
      let deleteI := toDelete x w2
      let deleteJ := toDelete y w2
      let w3 := if deleteJ then B.destructor y w2 else w2
      if deleteI then
        ⟨Exit.restart, mid ++ (if deleteJ then rest else y :: rest), B.destructor x w3,
          collisionEvents x y deleteI deleteJ ++ [Event.delete x, Event.erase x]⟩
      else if deleteJ then
        Inner.after (collisionEvents x y deleteI deleteJ) (loopJ B x mid rest w3)
      else
        Inner.after (collisionEvents x y deleteI deleteJ) (loopJ B x (mid ++ [y]) rest w2)
    else
      Inner.after [Event.didCollide x y false] (loopJ B x (mid ++ [y]) rest w)

/-- The outer loop of `checkCollisionsSelf` from the position `i` on, given
as the part of the registry from `i` to the end, for at most `fuel` outer
rounds; returns what is left of that part. -/
def selfLoopI {H : Type} (B : Behaviour H) : Nat → List EntityId → World H → Scan H
  | 0, list, w => ⟨list, w, []⟩
  | _ + 1, [], w => ⟨[], w, []⟩
  | fuel + 1, x :: list, w =>
    let r := loopJ B x [] list w
    match r.exit with
    | Exit.next =>
      let r2 := selfLoopI B fuel r.list r.world
      ⟨x :: r2.list, r2.world, r.log ++ r2.log⟩
    | Exit.restart =>
      Scan.after r.log (selfLoopI B fuel r.list r.world)

/-- The function `checkCollisionsSelf(list)` on the registry at address `list`. Every outer
round ends with a shorter part from `i` on, so the length of the registry is
enough fuel. The pass holds the registry while it runs: for methods that write
it the function is `checkCollisionsSelfLive`. -/
def checkCollisionsSelf {H : Type} (B : Behaviour H) (list : Registry) (w : World H) :
    World H × Trace :=
  let r := selfLoopI B (w.list list).length (w.list list) w
  (r.world.setList list r.list, r.log)

/-- What the outer loop of the cross pass returns. -/
structure Scan2 (H : Type) where
  listA : List EntityId
  listB : List EntityId
  world : World H
  log : Trace

/-- The outer loop of `checkCollisions` from the position `i` on: the part of
`listA` from `i` to the end, and the whole of `listB`. -/
def crossLoopI {H : Type} (B : Behaviour H) :
    List EntityId → List EntityId → World H → Scan2 H
  | [], listB, w => ⟨[], listB, w, []⟩
  | x :: listA, listB, w =>
    let r := loopJ B x [] listB w
    let r2 := crossLoopI B listA r.list r.world
    match r.exit with
    | Exit.next => ⟨x :: r2.listA, r2.listB, r2.world, r.log ++ r2.log⟩
    | Exit.restart => ⟨r2.listA, r2.listB, r2.world, r.log ++ r2.log⟩

/-- A fatal failure of the process. -/
inductive Fatal where
  /-- The assertion `assert(&listA != &listB)` failed. -/
  | assertion
deriving DecidableEq, Repr

/-- The end of a call that does not return: the failure, and the world and
the log of the call at that moment. -/
structure Abort (H : Type) where
  cause : Fatal
  world : World H
  log : Trace

/-- The function `checkCollisions(listA, listB)` on the registries at the two addresses;
the assertion is taken as enabled. The pass holds the two registries while it
runs: for methods that write one of them the function is `checkCollisionsLive`. -/
def checkCollisions {H : Type} (B : Behaviour H) (listA listB : Registry) (w : World H) :
    Except (Abort H) (World H × Trace) :=
  if listA = listB then Except.error ⟨Fatal.assertion, w, []⟩
  else
    let r := crossLoopI B (w.list listA) (w.list listB) w
    Except.ok ((r.world.setList listA r.listA).setList listB r.listB, r.log)

/-! ## The tick (`general.cpp` lines 148-167) -/

/-- The function `animate()`. A call that aborts ends the tick with its own `Abort`.
For methods that write a registry the function is `animateLive`. -/
def animate {H : Type} (B : Behaviour H) (w : World H) :
    Except (Abort H) (World H × Trace) := do
  let w0 := { w with frameCount := w.frameCount + 1 }
  let u1 := updateEntities B Registry.wEntities w0
  let u2 := updateEntities B Registry.wWalls u1.1
  let u3 := updateEntities B Registry.wSoftEntities u2.1
  let c1 := checkCollisionsSelf B Registry.wEntities u3.1
  let c2 ← checkCollisions B Registry.wEntities Registry.wWalls c1.1
  let c3 ← checkCollisions B Registry.wEntities Registry.wSoftEntities c2.1
  let c4 ← checkCollisions B Registry.wWalls Registry.wSoftEntities c3.1
  let w5 := B.sceneUpdate c4.1
  let w6 := (B.levelEnd w5).2
  let w7 := { w6 with MOUSE_EDGE_LEFT := false, MOUSE_EDGE_RIGHT := false }
  return (w7, u1.2 ++ u2.2 ++ u3.2 ++ c1.2 ++ c2.2 ++ c3.2 ++ c4.2 ++
    [Event.sceneUpdate, Event.levelEnd])

/-- The events an update pass can log. -/
def Event.isUpdatePass : Event → Bool
  | Event.update _ => true
  | Event.toDelete _ _ => true
  | Event.delete _ => true
  | Event.erase _ => true
  | _ => false

/-- The events a collision pass can log. -/
def Event.isCollisionPass : Event → Bool
  | Event.didCollide _ _ _ => true
  | Event.onCollide _ _ => true
  | Event.toDelete _ _ => true
  | Event.delete _ => true
  | Event.erase _ => true
  | _ => false

/-- What one tick reads of the process-wide input and counter state: the
frame counter and the two mouse edge flags. -/
def tickInputs {H : Type} (w : World H) : Nat × Bool × Bool :=
  (w.frameCount, w.MOUSE_EDGE_LEFT, w.MOUSE_EDGE_RIGHT)

/-! ## Reading a log of the update pass -/

/-- The entities on which a log invokes `update()`, in order. -/
def updatesOf : Trace → List EntityId
  | [] => []
  | Event.update e :: t => e :: updatesOf t
  | _ :: t => updatesOf t

/-- The entities whose delete flag a log reads as false, in order. -/
def keptOf : Trace → List EntityId
  | [] => []
  | Event.toDelete e false :: t => e :: keptOf t
  | _ :: t => keptOf t

/-- The shape of the log of an update pass: per member, its `update()`, the
read of its flag and, when the flag is set, its `delete` and `erase`. -/
inductive UpdateLog : Trace → Prop where
  | nil : UpdateLog []
  | keep (e : EntityId) (t : Trace) :
      UpdateLog t → UpdateLog (Event.update e :: Event.toDelete e false :: t)
  | drop (e : EntityId) (t : Trace) :
      UpdateLog t →
      UpdateLog (Event.update e :: Event.toDelete e true :: Event.delete e ::
        Event.erase e :: t)


/-! ## Reading a log of a collision pass -/

/-- Whether an event is an evaluation of `a->didCollide(*b)`. -/
def Event.isEval (a b : EntityId) : Event → Bool
  | Event.didCollide x y _ => decide (x = a ∧ y = b)
  | _ => false

/-- How often a log evaluates `a->didCollide(*b)`. -/
def evals (a b : EntityId) (t : Trace) : Nat := t.countP (Event.isEval a b)

/-- The shape of the log of a collision pass, block by block: an evaluation
of `didCollide` that returned false; an evaluation that returned true,
directly followed by the `onCollide` of the first entity, the `onCollide` of
the second and the reads of the two delete flags, in this order; a `delete`;
an `erase`. -/
inductive CollisionLog : Trace → Prop where
  | nil : CollisionLog []
  | miss (a b : EntityId) (t : Trace) :
      CollisionLog t → CollisionLog (Event.didCollide a b false :: t)
  | hit (a b : EntityId) (deleteI deleteJ : Bool) (t : Trace) :
      CollisionLog t →
      CollisionLog (Event.didCollide a b true :: Event.onCollide a b :: Event.onCollide b a ::
        Event.toDelete a deleteI :: Event.toDelete b deleteJ :: t)
  | delete (e : EntityId) (t : Trace) : CollisionLog t → CollisionLog (Event.delete e :: t)
  | erase (e : EntityId) (t : Trace) : CollisionLog t → CollisionLog (Event.erase e :: t)

/-- A world with empty registries, nothing flagged, no input. -/
def World.empty : World Unit :=
  { frameCount := 0, wEntities := [], wWalls := [], wSoftEntities := [],
    MOUSE_LEFT := false, MOUSE_RIGHT := false, MOUSE_EDGE_LEFT := false,
    MOUSE_EDGE_RIGHT := false, KEY_A := false, KEY_W := false, KEY_S := false,
    KEY_D := false, KEY_Q := false, KEY_E := false, KEY_SPACE := false,
    mouseX := 0, mouseY := 0, translate := fun _ => ⟨0, 0, 0⟩,
    deleteFlag := fun _ => false, nextEntity := 100, ext := () }

/-- Three entities and two walls, the left mouse edge pending. -/
def scenarioWorld : World Unit :=
  { World.empty with wEntities := [1, 2, 3], wWalls := [10, 11], MOUSE_EDGE_LEFT := true }

/-- Entities of which every two collide; the entities listed in `fragile`
flag themselves in `update()` and in `onCollide`, the others do nothing. -/
def scenarioBehaviour (fragile : List EntityId) : Behaviour Unit :=
  { update := fun e w => if e ∈ fragile then setDelete e w else w,
    didCollide := fun _ _ _ => true,
    onCollide := fun a _ w => if a ∈ fragile then setDelete a w else w,
    destructor := fun _ w => w,
    sceneUpdate := fun w => w,
    levelEnd := fun w => (false, w) }

/-- One grenade, entity 1, and one wall, entity 10. -/
def grenadeWorld : World Unit :=
  setTranslate 1 ⟨5, 6, 7⟩ { World.empty with wEntities := [1], wWalls := [10] }

/-- Entity 1 is a `GrenadeEntity`, all others do nothing on a collision;
every two entities collide. -/
def grenadeBehaviour : Behaviour Unit :=
  { update := fun _ w => w,
    didCollide := fun _ _ _ => true,
    onCollide := fun a b w => if a = 1 then GrenadeEntity.onCollide a b w else w,
    destructor := fun _ w => w,
    sceneUpdate := fun w => w,
    levelEnd := fun w => (false, w) }

/-- The value of `GLUT_LEFT_BUTTON` in the GLUT header. -/
def GLUT_LEFT_BUTTON : Int := 0

/-- The value of `GLUT_RIGHT_BUTTON` in the GLUT header. -/
def GLUT_RIGHT_BUTTON : Int := 2

/-- The value of `GLUT_DOWN` in the GLUT header. -/
def GLUT_DOWN : Int := 0

/-- The function `callbackMouse(button, state, x, y)`. -/
def callbackMouse {H : Type} (button state _x _y : Int) (w : World H) : World H :=
  let down : Bool := decide (state = GLUT_DOWN)
  if button = GLUT_LEFT_BUTTON then
    let w1 := { w with MOUSE_EDGE_LEFT := down && !w.MOUSE_LEFT }
    { w1 with MOUSE_LEFT := down }
  else if button = GLUT_RIGHT_BUTTON then
    let w1 := { w with MOUSE_EDGE_RIGHT := down && !w.MOUSE_RIGHT }
    { w1 with MOUSE_RIGHT := down }
  else w

/-- The function `setKey(key, val)`; `key` is the code of the `unsigned char`.
The code of `viewFullscreen` is not in the source files at hand; it is a
parameter. -/
def setKey {H : Type} (viewFullscreen : World H → World H) (key : Nat) (val : Bool)
    (w : World H) : World H :=
  if key = 'A'.toNat ∨ key = 'a'.toNat then { w with KEY_A := val }
  else if key = 'W'.toNat ∨ key = 'w'.toNat then { w with KEY_W := val }
  else if key = 'S'.toNat ∨ key = 's'.toNat then { w with KEY_S := val }
  else if key = 'D'.toNat ∨ key = 'd'.toNat then { w with KEY_D := val }
  else if key = 'Q'.toNat ∨ key = 'q'.toNat then { w with KEY_Q := val }
  else if key = 'E'.toNat ∨ key = 'e'.toNat then { w with KEY_E := val }
  else if key = ' '.toNat then { w with KEY_SPACE := val }
  else if key = ';'.toNat then viewFullscreen w
  else w

/-- The function `callbackKeyboard(key, x, y)`: `none` when the process ends
with `exit(0)`. -/
def callbackKeyboard {H : Type} (viewFullscreen : World H → World H) (key : Nat)
    (_x _y : Int) (w : World H) : Option (World H) :=
  if key = 27 then none
  else some (setKey viewFullscreen key true w)

/-- The function `callbackKeyboardUp(key, x, y)`. -/
def callbackKeyboardUp {H : Type} (viewFullscreen : World H → World H) (key : Nat)
    (_x _y : Int) (w : World H) : World H :=
  setKey viewFullscreen key false w

/-- The seven key latches. -/
inductive Key where
  | A
  | W
  | S
  | D
  | Q
  | E
  | SPACE
deriving DecidableEq, Repr

/-- The latch of a key in the world. -/
def World.latch {H : Type} (w : World H) : Key → Bool
  | Key.A => w.KEY_A
  | Key.W => w.KEY_W
  | Key.S => w.KEY_S
  | Key.D => w.KEY_D
  | Key.Q => w.KEY_Q
  | Key.E => w.KEY_E
  | Key.SPACE => w.KEY_SPACE

/-- The key codes that have a latch, each with its latch: the letters a, w,
s, d, q, e in either case, and the space. -/
def keyTable : List (Nat × Key) :=
  [('A'.toNat, Key.A), ('a'.toNat, Key.A), ('W'.toNat, Key.W), ('w'.toNat, Key.W),
   ('S'.toNat, Key.S), ('s'.toNat, Key.S), ('D'.toNat, Key.D), ('d'.toNat, Key.D),
   ('Q'.toNat, Key.Q), ('q'.toNat, Key.Q), ('E'.toNat, Key.E), ('e'.toNat, Key.E),
   (' '.toNat, Key.SPACE)]

/-- The four mouse flags of the world: left, right, left edge, right edge. -/
def mouseFlags {H : Type} (w : World H) : Bool × Bool × Bool × Bool :=
  (w.MOUSE_LEFT, w.MOUSE_RIGHT, w.MOUSE_EDGE_LEFT, w.MOUSE_EDGE_RIGHT)

/-! ## Reading a log of a collision pass: counts and entities -/

/-- Whether an event is an evaluation of `didCollide`. -/
def Event.isDidCollide : Event → Bool
  | Event.didCollide _ _ _ => true
  | _ => false

/-- Whether an event is an `erase`. -/
def Event.isErase : Event → Bool
  | Event.erase _ => true
  | _ => false

/-- How many evaluations of `didCollide` a log has. -/
def evalCount (t : Trace) : Nat := t.countP Event.isDidCollide

/-- How many `erase` calls a log has. -/
def eraseCount (t : Trace) : Nat := t.countP Event.isErase

/-- Whether an event involves the entity `e`, as the receiver of a call, as
its argument, or as the object of a `delete` or an `erase`. -/
def Event.mentions (e : EntityId) : Event → Bool
  | Event.update a => decide (a = e)
  | Event.toDelete a _ => decide (a = e)
  | Event.didCollide a b _ => decide (a = e) || decide (b = e)
  | Event.onCollide a b => decide (a = e) || decide (b = e)
  | Event.delete a => decide (a = e)
  | Event.erase a => decide (a = e)
  | _ => false

/-- Whether an event is a call of `onCollide` on the entity `g`. -/
def Event.isCallBy (g : EntityId) : Event → Bool
  | Event.onCollide a _ => decide (a = g)
  | _ => false

/-- How often a log calls `onCollide` on the entity `g`. -/
def callsBy (g : EntityId) (t : Trace) : Nat := t.countP (Event.isCallBy g)

/-- Every read of a delete flag in the log follows directly on the two
`onCollide` calls of a collision the entity took part in: as the first
entity of the pair, or as the second one, after the read of the first
entity's flag. -/
def FlagReadsFollowCollisions (t : Trace) : Prop :=
  ∀ t1 t2 e d, t = t1 ++ Event.toDelete e d :: t2 →
    (∃ t0 b, t1 = t0 ++ [Event.didCollide e b true, Event.onCollide e b,
      Event.onCollide b e]) ∨
    (∃ t0 a deleteI, t1 = t0 ++ [Event.didCollide a e true, Event.onCollide a e,
      Event.onCollide e a, Event.toDelete a deleteI])

/-- The registry `after` is what a pass with the log `t` leaves of the
registry `before` when it only removes: `after` is a subsequence of `before`,
an entity is missing only if its delete flag was read true, and an entity
that took part in no collision is still there. -/
def OnlyRemoves (before after : List EntityId) (t : Trace) : Prop :=
  after.Sublist before ∧
  (∀ e ∈ before, e ∉ after → Event.toDelete e true ∈ t) ∧
  (∀ e ∈ before, Event.toDelete e true ∉ t → e ∈ after) ∧
  (∀ e ∈ before,
    (∀ b, Event.didCollide e b true ∉ t ∧ Event.didCollide b e true ∉ t) → e ∈ after)

/-- No member of any of the three registries is flagged as deleted. -/
def AllClean {H : Type} (w : World H) : Prop :=
  ∀ r, ∀ e ∈ w.list r, toDelete e w = false

/-- Every registry holds pairwise distinct entities and no two registries
share an entity. -/
def WellFormed {H : Type} (w : World H) : Prop :=
  (∀ r, (w.list r).Nodup) ∧ ∀ r1 r2, r1 ≠ r2 → (w.list r1).Disjoint (w.list r2)

/-- Every member of a registry is an address that `new` has returned already:
it is below the address the next `new` returns. -/
def Allocated {H : Type} (w : World H) : Prop :=
  ∀ r, ∀ e ∈ w.list r, e < w.nextEntity

/-- The registries hold pairwise distinct entities, share none, and every
member is allocated. -/
def Sound {H : Type} (w : World H) : Prop := WellFormed w ∧ Allocated w

/-- What a method that takes the world from `v` to `v2` does when it changes
the registries by insertions at the back only (`push_back`, as
`Globals::addSoftEntity`): every registry of `v` is the front part of the same
registry of `v2`. -/
def AppendsOnly {H : Type} (v v2 : World H) : Prop :=
  ∀ r, v.list r <+: v2.list r

/-- What a method called on the entity `a` does when it takes the world from
`v` to `v2` and sets no delete flag but that of `a`: no other entity becomes
flagged; the registries change by insertions at the back only (nothing is
removed outside the passes); the members gained, `a` apart, are not flagged;
and sound registries stay sound (what is inserted is newly allocated). -/
def Tame {H : Type} (a : EntityId) (v v2 : World H) : Prop :=
  (∀ e, e ≠ a → v.deleteFlag e = false → v2.deleteFlag e = false) ∧
  AppendsOnly v v2 ∧
  (∀ r, ∀ e ∈ v2.list r, e ∉ v.list r → e ≠ a → v2.deleteFlag e = false) ∧
  (Sound v → Sound v2)

/-- Every member of a registry that is not in the set `D` is unflagged. -/
def CleanOutside {H : Type} (D : EntityId → Prop) (w : World H) : Prop :=
  ∀ r, ∀ e ∈ w.list r, ¬ D e → w.deleteFlag e = false

/-- One grenade, entity 1, one wall, entity 11, that enters the tick flagged,
and one soft entity, 50. -/
def flaggedGrenadeWorld : World Unit :=
  setDelete 11
    (setTranslate 1 ⟨5, 6, 7⟩
      { World.empty with wEntities := [1], wWalls := [11], wSoftEntities := [50] })

/-! ## Reading a log: an entity that flags itself in `onCollide` -/

/-- Every call of `onCollide` on the entity `g` in the log is followed by the
`erase` of `g` before `didCollide` is evaluated again. -/
def ErasedAtOnce (g : EntityId) (t : Trace) : Prop :=
  ∀ t1 t2 b, t = t1 ++ Event.onCollide g b :: t2 →
    ∃ t3 t4, t2 = t3 ++ Event.erase g :: t4 ∧ ∀ ev ∈ t3, ev.isDidCollide = false

/-- The shape of a log in which `onCollide` on the entity `g` is followed by
the `erase` of `g` before the next `didCollide`, event by event: an event
that is no `onCollide` on `g`; an `onCollide` on `g`, then events without a
`didCollide`, then the `erase` of `g`. -/
inductive CallThenErase (g : EntityId) : Trace → Prop where
  | nil : CallThenErase g []
  | other (ev : Event) (t : Trace) :
      ev.isCallBy g = false → CallThenErase g t → CallThenErase g (ev :: t)
  | call (b : EntityId) (t3 t4 : Trace) :
      (∀ ev ∈ t3, ev.isDidCollide = false) → CallThenErase g (t3 ++ Event.erase g :: t4) →
      CallThenErase g (Event.onCollide g b :: (t3 ++ Event.erase g :: t4))

/-- How often the entity `g` is in the three registries. -/
def occurrences {H : Type} (g : EntityId) (w : World H) : Nat :=
  w.wEntities.count g + w.wWalls.count g + w.wSoftEntities.count g

/-- What a method that takes the world from `v` to `v2` does when it never
inserts the entity `g`, once allocated, into a registry: `g` stays allocated
(the addresses `new` returns later are others) and is in no registry more
often than before. -/
def NeverInserts {H : Type} (g : EntityId) (v v2 : World H) : Prop :=
  g < v.nextEntity →
    g < v2.nextEntity ∧ ∀ r, (v2.list r).count g ≤ (v.list r).count g

/-- What a pass that takes the world from `v` to `u` with the log `t` does
with an entity `g` that always leaves its own `onCollide` flagged: `g` stays
allocated and is in the registries no more often than before; `onCollide` is
called on `g` at most once, and followed by the `erase` of `g` before the next
`didCollide`; after a call `g` is in no registry; and there is no call when
`g` is in no registry. -/
def OncePass {H : Type} (g : EntityId) (v u : World H) (t : Trace) : Prop :=
  g < u.nextEntity ∧ occurrences g u ≤ occurrences g v ∧ callsBy g t ≤ 1 ∧
  CallThenErase g t ∧ (1 ≤ callsBy g t → occurrences g u = 0) ∧
  (occurrences g v = 0 → callsBy g t = 0)

/-- Two grenades, entities 1 and 2, and one soft entity, 50. -/
def twoGrenadeWorld : World Unit :=
  { World.empty with wEntities := [1, 2], wSoftEntities := [50] }

/-- Entities 1 and 2 are `GrenadeEntity` objects, all others do nothing on a
collision; grenade 1 collides with entity 50 only and grenade 2 with entity
100 only, the first explosion spawned. -/
def twoGrenadeBehaviour : Behaviour Unit :=
  { update := fun _ w => w,
    didCollide := fun a b _ => decide ((a = 1 ∧ b = 50) ∨ (a = 2 ∧ b = 100)),
    onCollide := fun a b w => if a = 1 ∨ a = 2 then GrenadeEntity.onCollide a b w else w,
    destructor := fun _ w => w,
    sceneUpdate := fun w => w,
    levelEnd := fun w => (false, w) }

/-- One grenade, entity 1, and one soft entity, 50. -/
def grenadeSoftWorld : World Unit :=
  { World.empty with wEntities := [1], wSoftEntities := [50] }

/-! ## The passes on the registries of the world (`general.cpp` lines 73-157)

The passes again, for methods that insert into a registry while a pass runs
over it, as `GrenadeEntity::onCollide` does with `Globals::addSoftEntity` while
`wSoftEntities` is `listB`. Here a registry is a `std::list`: an iterator is a
position in the registry of the world, an insertion at the back moves no
position, and `erase(it)` removes the element at the position and returns
the same position. A scan can now go on for ever (when every collision inserts
an entity that collides again), so the loops take a number of steps they may
make at most and return nothing when that is not enough. -/

/-- The call `list.erase(it)` with `it` at position `k` of the registry at address
`r`. -/
def World.eraseAt {H : Type} (w : World H) (r : Registry) (k : Nat) : World H :=
  w.setList r ((w.list r).eraseIdx k)

/-- Puts events in front of the log of a pass that returned. -/
def logAfter {H : Type} (t : Trace) (r : Option (World H × Trace)) :
    Option (World H × Trace) :=
  r.map (fun p => (p.1, t ++ p.2))

/-- The `while` loop of `updateEntities` with `i` at position `i` of the registry at
address `list`, for at most `fuel` rounds. -/
def updateLoopLive {H : Type} (B : Behaviour H) (list : Registry) :
    Nat → Nat → World H → Option (World H × Trace)
  | 0, _, _ => none
  | fuel + 1, i, w =>
    match (w.list list)[i]? with
    | none => some (w, [])
    | some e =>
      let w1 := B.update e w
      if toDelete e w1 then
        logAfter [Event.update e, Event.toDelete e true, Event.delete e, Event.erase e]
          (updateLoopLive B list fuel i ((B.destructor e w1).eraseAt list i))
      else
        logAfter [Event.update e, Event.toDelete e false]
          (updateLoopLive B list fuel (i + 1) w1)

/-- The function `updateEntities(list)` on the registry of the world at address
`list`. -/
def updateEntitiesLive {H : Type} (B : Behaviour H) (list : Registry) (fuel : Nat)
    (w : World H) : Option (World H × Trace) :=
  updateLoopLive B list fuel 0 w

/-- What the inner loop on a registry of the world returns: how it was left,
the world and the log. -/
structure InnerLive (H : Type) where
  exit : Exit
  world : World H
  log : Trace

/-- Puts events in front of the log of an inner loop that returned. -/
def innerAfter {H : Type} (t : Trace) (r : Option (InnerLive H)) : Option (InnerLive H) :=
  r.map (fun p => { p with log := t ++ p.log })

/-- The inner loop of both passes, at `NEXT_J`, for `*i = x` and `j` at position
`j` of the registry at address `listB` (in the self pass the registry of `i`),
for at most `fuel` rounds. When `*i` is to be erased the loop is left after
`delete *i`; the erase of `i` is the next step of the outer loop. -/
def loopJLive {H : Type} (B : Behaviour H) (x : EntityId) (listB : Registry) :
    Nat → Nat → World H → Option (InnerLive H)
  | 0, _, _ => none
  | fuel + 1, j, w =>
    match (w.list listB)[j]? with
    | none => some ⟨Exit.next, w, []⟩
    | some y =>
      if B.didCollide x y w then
        let w1 := B.onCollide x y w
        let w2 := B.onCollide y x w1
        let deleteI := toDelete x w2
        let deleteJ := toDelete y w2
        let w3 := if deleteJ then (B.destructor y w2).eraseAt listB j else w2
        if deleteI then
          some ⟨Exit.restart, B.destructor x w3,
            collisionEvents x y deleteI deleteJ ++ [Event.delete x, Event.erase x]⟩
        else if deleteJ then
          innerAfter (collisionEvents x y deleteI deleteJ) (loopJLive B x listB fuel j w3)
        else
          innerAfter (collisionEvents x y deleteI deleteJ)
            (loopJLive B x listB fuel (j + 1) w2)
      else
        innerAfter [Event.didCollide x y false] (loopJLive B x listB fuel (j + 1) w)

/-- The outer loop of `checkCollisionsSelf` with `i` at position `i` of the registry
at address `list`, for at most `fuel` rounds. -/
def selfLoopILive {H : Type} (B : Behaviour H) (list : Registry) :
    Nat → Nat → World H → Option (World H × Trace)
  | 0, _, _ => none
  | fuel + 1, i, w =>
    match (w.list list)[i]? with
    | none => some (w, [])
    | some x =>
      match loopJLive B x list fuel (i + 1) w with
      | none => none
      | some r =>
        match r.exit with
        | Exit.next => logAfter r.log (selfLoopILive B list fuel (i + 1) r.world)
        | Exit.restart => logAfter r.log (selfLoopILive B list fuel i (r.world.eraseAt list i))

/-- The function `checkCollisionsSelf(list)` on the registry of the world at
address `list`. -/
def checkCollisionsSelfLive {H : Type} (B : Behaviour H) (list : Registry) (fuel : Nat)
    (w : World H) : Option (World H × Trace) :=
  selfLoopILive B list fuel 0 w

/-- The outer loop of `checkCollisions` with `i` at position `i` of the registry at
address `listA`, for at most `fuel` rounds. -/
def crossLoopILive {H : Type} (B : Behaviour H) (listA listB : Registry) :
    Nat → Nat → World H → Option (World H × Trace)
  | 0, _, _ => none
  | fuel + 1, i, w =>
    match (w.list listA)[i]? with
    | none => some (w, [])
    | some x =>
      match loopJLive B x listB fuel 0 w with
      | none => none
      | some r =>
        match r.exit with
        | Exit.next => logAfter r.log (crossLoopILive B listA listB fuel (i + 1) r.world)
        | Exit.restart =>
          logAfter r.log (crossLoopILive B listA listB fuel i (r.world.eraseAt listA i))

/-- The function `checkCollisions(listA, listB)` on the registries of the world at
the two addresses; the assertion is taken as enabled. -/
def checkCollisionsLive {H : Type} (B : Behaviour H) (listA listB : Registry) (fuel : Nat)
    (w : World H) : Option (Except (Abort H) (World H × Trace)) :=
  if listA = listB then some (Except.error ⟨Fatal.assertion, w, []⟩)
  else (crossLoopILive B listA listB fuel 0 w).map Except.ok

/-- The first four statements of `animate()`: the increment of the frame
counter and the three `updateEntities` calls. -/
def updatePhaseLive {H : Type} (B : Behaviour H) (fuel : Nat) (w : World H) :
    Option (World H × Trace) :=
  (updateEntitiesLive B Registry.wEntities fuel
    { w with frameCount := w.frameCount + 1 }).bind fun u1 =>
  (updateEntitiesLive B Registry.wWalls fuel u1.1).bind fun u2 =>
  (updateEntitiesLive B Registry.wSoftEntities fuel u2.1).bind fun u3 =>
  some (u3.1, u1.2 ++ u2.2 ++ u3.2)

/-- Goes on with the next statement after a call of `checkCollisions`, unless the
call did not return or aborted. -/
def afterPass {H : Type} (p : Option (Except (Abort H) (World H × Trace)))
    (f : World H × Trace → Option (Except (Abort H) (World H × Trace))) :
    Option (Except (Abort H) (World H × Trace)) :=
  match p with
  | none => none
  | some (Except.error a) => some (Except.error a)
  | some (Except.ok r) => f r

/-- The next four statements of `animate()`: the self pass and the three
cross passes. -/
def collisionPhaseLive {H : Type} (B : Behaviour H) (fuel : Nat) (w : World H) :
    Option (Except (Abort H) (World H × Trace)) :=
  (checkCollisionsSelfLive B Registry.wEntities fuel w).bind fun c1 =>
  afterPass (checkCollisionsLive B Registry.wEntities Registry.wWalls fuel c1.1) fun c2 =>
  afterPass (checkCollisionsLive B Registry.wEntities Registry.wSoftEntities fuel c2.1)
    fun c3 =>
  afterPass (checkCollisionsLive B Registry.wWalls Registry.wSoftEntities fuel c3.1) fun c4 =>
  some (Except.ok (c4.1, c1.2 ++ c2.2 ++ c3.2 ++ c4.2))

/-- The function `animate()` on the registries of the world. -/
def animateLive {H : Type} (B : Behaviour H) (fuel : Nat) (w : World H) :
    Option (Except (Abort H) (World H × Trace)) :=
  (updatePhaseLive B fuel w).bind fun u =>
  afterPass (collisionPhaseLive B fuel u.1) fun c =>
  let w5 := B.sceneUpdate c.1
  let w6 := (B.levelEnd w5).2
  let w7 := { w6 with MOUSE_EDGE_LEFT := false, MOUSE_EDGE_RIGHT := false }
  some (Except.ok (w7, u.2 ++ c.2 ++ [Event.sceneUpdate, Event.levelEnd]))

/-- The methods of the entities neither read nor write the registry at `r`:
a call on the world with another content of that registry gives the same
world, but for that content, and the same answer. -/
def Ignores {H : Type} (B : Behaviour H) (r : Registry) : Prop :=
  (∀ a v l, B.update a (v.setList r l) = (B.update a v).setList r l) ∧
  (∀ a b v l, B.didCollide a b (v.setList r l) = B.didCollide a b v) ∧
  (∀ a b v l, B.onCollide a b (v.setList r l) = (B.onCollide a b v).setList r l) ∧
  (∀ a v l, B.destructor a (v.setList r l) = (B.destructor a v).setList r l)

/-! ## Theorems: rendering -/

theorem allModels_append (n : Nat) (gm : EntityId → Nat → Option DrawableEntity)
    (l1 l2 : List EntityId) :
    allModels n gm (l1 ++ l2) = allModels n gm l1 ++ allModels n gm l2 := by
  induction l1 with
  | nil => rfl
  | cons e l ih => simp [allModels, ih]

theorem drawSlots_spec (gm : EntityId → Nat → Option DrawableEntity) (e : EntityId)
    (cs : List Nat) (q : TransparencyQueue) :
    drawSlots gm e cs q =
      (((cs.filterMap (gm e)).filter (fun m => !m.alphaRequired)).map Event.draw,
        q ++ (cs.filterMap (gm e)).filter (fun m => m.alphaRequired)) := by
  induction cs generalizing q with
  | nil => simp [drawSlots]
  | cons c cs ih =>
    unfold drawSlots
    cases hc : gm e c with
    | none => simp [ih, hc]
    | some m =>
      cases hm : m.alphaRequired <;>
        simp [ih, hc, hm, TransparencyQueue.push, List.filterMap_cons]

theorem drawOpaqueEntities_spec (n : Nat) (gm : EntityId → Nat → Option DrawableEntity)
    (l : List EntityId) (q : TransparencyQueue) :
    drawOpaqueEntities n gm l q =
      (((allModels n gm l).filter (fun m => !m.alphaRequired)).map Event.draw,
        q ++ (allModels n gm l).filter (fun m => m.alphaRequired)) := by
  induction l generalizing q with
  | nil => simp [drawOpaqueEntities, allModels]
  | cons e l ih => simp [drawOpaqueEntities, allModels, ih, drawSlots_spec]

theorem greatest_mem (comp : DrawableEntity → DrawableEntity → Bool) (m : DrawableEntity)
    (q : List DrawableEntity) : greatest comp m q ∈ m :: q := by
  induction q generalizing m with
  | nil => simp [greatest]
  | cons x q ih =>
    unfold greatest
    split
    · exact List.mem_cons_of_mem _ (ih x)
    · have := ih m
      simp only [List.mem_cons] at this ⊢
      tauto

theorem top_mem (cam : Vec3) (q : TransparencyQueue) (m : DrawableEntity)
    (h : TransparencyQueue.top cam q = some m) : m ∈ q := by
  cases q with
  | nil => simp [TransparencyQueue.top] at h
  | cons x q =>
    simp only [TransparencyQueue.top, Option.some.injEq] at h
    exact h ▸ greatest_mem _ x q

theorem drawTransparent_spec (cam : Vec3) (fuel : Nat) (q : TransparencyQueue)
    (h : q.length ≤ fuel) :
    (drawTransparent cam fuel q).2 = [] ∧
      ∃ ts : List DrawableEntity,
        (drawTransparent cam fuel q).1 = ts.map Event.draw ∧ ts.Perm q := by
  induction fuel generalizing q with
  | zero =>
    have hq : q = [] := List.length_eq_zero.mp (Nat.le_zero.mp h)
    subst hq
    exact ⟨rfl, [], rfl, List.Perm.refl _⟩
  | succ n ih =>
    unfold drawTransparent
    cases ht : TransparencyQueue.top cam q with
    | none =>
      cases q with
      | nil => exact ⟨rfl, [], rfl, List.Perm.refl _⟩
      | cons x q => simp [TransparencyQueue.top] at ht
    | some m =>
      have hm : m ∈ q := top_mem cam q m ht
      have hpop : TransparencyQueue.pop cam q = q.erase m := by
        simp [TransparencyQueue.pop, ht]
      have hlen : (TransparencyQueue.pop cam q).length ≤ n := by
        rw [hpop, List.length_erase_of_mem hm]
        omega
      obtain ⟨h1, ts, h2, h3⟩ := ih (TransparencyQueue.pop cam q) hlen
      refine ⟨h1, m :: ts, ?_, ?_⟩
      · simp [h2]
      · rw [hpop] at h3
        exact (List.Perm.cons m h3).trans (List.perm_cons_erase hm).symm

/-- C1 (evaluation at the failing input): with the camera at the origin and
three alpha models pushed in the order of squared distances 4, 1, 9, the
transparent phase of `callbackDisplay` draws them in the order 1, 4, 9,
nearest first, and not in the order 9, 4, 1. -/
theorem callbackDisplay_depth_scenario :
    (allModels 1 depthScenarioModel [0, 1, 2]).map (sqDist ⟨0, 0, 0⟩) = [4, 1, 9] ∧
    drawnSqDists ⟨0, 0, 0⟩
      (callbackDisplay 1 depthScenarioModel ⟨0, 0, 0⟩ [0, 1, 2] [] []).2.1 = [1, 4, 9] := by
  decide

/-- C9: one `callbackDisplay` draws, in phase 1, exactly the non-null slots
without the alpha flag, in registry, entity and slot order; in phase 2 it
draws the non-null slots with the alpha flag, each once (a permutation of
them); the queue is empty at the end. So every non-null slot is drawn exactly
once, no null slot is drawn and every opaque draw precedes every transparent
draw. -/
theorem callbackDisplay_draws_each_slot_once (MAX_MODELS : Nat)
    (getModelConst : EntityId → Nat → Option DrawableEntity) (camPos : Vec3)
    (wEntities wWalls wSoftEntities : List EntityId) :
    (callbackDisplay MAX_MODELS getModelConst camPos wEntities wWalls wSoftEntities).1 =
      ((allModels MAX_MODELS getModelConst (wEntities ++ wWalls ++ wSoftEntities)).filter
        (fun m => !m.alphaRequired)).map Event.draw ∧
    (∃ ts : List DrawableEntity,
      (callbackDisplay MAX_MODELS getModelConst camPos wEntities wWalls wSoftEntities).2.1 =
        ts.map Event.draw ∧
      ts.Perm ((allModels MAX_MODELS getModelConst
        (wEntities ++ wWalls ++ wSoftEntities)).filter (fun m => m.alphaRequired))) ∧
    (callbackDisplay MAX_MODELS getModelConst camPos wEntities wWalls wSoftEntities).2.2 =
      [] := by
  simp only [callbackDisplay, drawOpaqueEntities_spec, allModels_append, List.filter_append,
    List.map_append, List.nil_append, List.append_assoc]
  obtain ⟨h1, ts, h2, h3⟩ := drawTransparent_spec camPos _ _ (le_refl _)
  exact ⟨trivial, ⟨ts, h2, h3⟩, h1⟩

/-! ## Theorems: the update pass -/

theorem updateLoop_log (H : Type) (B : Behaviour H) (l : List EntityId) (w : World H) :
    UpdateLog (updateLoop B l w).log ∧
    updatesOf (updateLoop B l w).log = l ∧
    (updateLoop B l w).list = keptOf (updateLoop B l w).log ∧
    (updateLoop B l w).list.Sublist l := by
  induction l generalizing w with
  | nil => exact ⟨UpdateLog.nil, rfl, rfl, List.Sublist.refl _⟩
  | cons e l ih =>
    unfold updateLoop
    by_cases hd : toDelete e (B.update e w) = true
    · obtain ⟨h1, h2, h3, h4⟩ := ih (B.destructor e (B.update e w))
      simp only [hd, if_true, Scan.after]
      exact ⟨UpdateLog.drop e _ h1, by simp [updatesOf, h2], by simpa [keptOf] using h3,
        h4.trans (List.sublist_cons_self e l)⟩
    · obtain ⟨h1, h2, h3, h4⟩ := ih (B.update e w)
      simp only [hd]
      exact ⟨UpdateLog.keep e _ h1, by simp [updatesOf, h2], by simp [keptOf, ← h3],
        h4.cons₂ e⟩

theorem UpdateLog.after_update {t : Trace} (h : UpdateLog t) (t1 t2 : Trace) (e : EntityId)
    (ht : t = t1 ++ Event.update e :: t2) : ∃ d t3, t2 = Event.toDelete e d :: t3 := by
  induction h generalizing t1 with
  | nil => simp at ht
  | keep a t _ ih =>
    cases t1 with
    | nil =>
      simp only [List.nil_append, List.cons.injEq, Event.update.injEq] at ht
      exact ⟨false, t, by rw [← ht.2, ht.1]⟩
    | cons x t1 =>
      cases t1 with
      | nil => simp at ht
      | cons y t1 =>
        simp only [List.cons_append, List.cons.injEq] at ht
        exact ih t1 ht.2.2
  | drop a t _ ih =>
    cases t1 with
    | nil =>
      simp only [List.nil_append, List.cons.injEq, Event.update.injEq] at ht
      exact ⟨true, _, by rw [← ht.2, ht.1]⟩
    | cons x t1 =>
      cases t1 with
      | nil => simp at ht
      | cons y t1 =>
        cases t1 with
        | nil => simp at ht
        | cons z t1 =>
          cases t1 with
          | nil => simp at ht
          | cons u t1 =>
            simp only [List.cons_append, List.cons.injEq] at ht
            exact ih t1 ht.2.2.2.2

theorem UpdateLog.before_toDelete {t : Trace} (h : UpdateLog t) (t1 t2 : Trace)
    (e : EntityId) (d : Bool) (ht : t = t1 ++ Event.toDelete e d :: t2) :
    ∃ t0, t1 = t0 ++ [Event.update e] := by
  induction h generalizing t1 with
  | nil => simp at ht
  | keep a t _ ih =>
    cases t1 with
    | nil => simp at ht
    | cons x t1 =>
      cases t1 with
      | nil =>
        simp only [List.cons_append, List.nil_append, List.cons.injEq,
          Event.toDelete.injEq] at ht
        exact ⟨[], by rw [← ht.1, ht.2.1.1]; rfl⟩
      | cons y t1 =>
        simp only [List.cons_append, List.cons.injEq] at ht
        obtain ⟨t0, h0⟩ := ih t1 ht.2.2
        exact ⟨x :: y :: t0, by rw [h0]; rfl⟩
  | drop a t _ ih =>
    cases t1 with
    | nil => simp at ht
    | cons x t1 =>
      cases t1 with
      | nil =>
        simp only [List.cons_append, List.nil_append, List.cons.injEq,
          Event.toDelete.injEq] at ht
        exact ⟨[], by rw [← ht.1, ht.2.1.1]; rfl⟩
      | cons y t1 =>
        cases t1 with
        | nil => simp at ht
        | cons z t1 =>
          cases t1 with
          | nil => simp at ht
          | cons u t1 =>
            simp only [List.cons_append, List.cons.injEq] at ht
            obtain ⟨t0, h0⟩ := ih t1 ht.2.2.2.2
            exact ⟨x :: y :: z :: u :: t0, by rw [h0]; rfl⟩


theorem World.list_setList {H : Type} (w : World H) (r : Registry) (l : List EntityId) :
    (w.setList r l).list r = l := by
  cases r <;> rfl

theorem World.list_setList_of_ne {H : Type} (w : World H) (r r2 : Registry)
    (l : List EntityId) (h : r2 ≠ r) : (w.setList r l).list r2 = w.list r2 := by
  cases r <;> cases r2 <;> first | rfl | exact absurd rfl h

theorem updatesOf_append (t1 t2 : Trace) :
    updatesOf (t1 ++ t2) = updatesOf t1 ++ updatesOf t2 := by
  induction t1 with
  | nil => rfl
  | cons x t1 ih => cases x <;> simp [updatesOf, ih]

theorem mem_updatesOf (t : Trace) (e : EntityId) (h : Event.update e ∈ t) :
    e ∈ updatesOf t := by
  induction t with
  | nil => simp at h
  | cons x t ih =>
    cases x <;> simp [updatesOf] at h ⊢ <;> tauto

theorem UpdateLog.update_before_erase {t : Trace} (h : UpdateLog t) (t1 t2 : Trace)
    (e : EntityId) (ht : t = t1 ++ Event.erase e :: t2) : e ∈ updatesOf t1 := by
  induction h generalizing t1 with
  | nil => simp at ht
  | keep a t _ ih =>
    cases t1 with
    | nil => simp at ht
    | cons x t1 =>
      cases t1 with
      | nil => simp at ht
      | cons y t1 =>
        simp only [List.cons_append, List.cons.injEq] at ht
        rw [← ht.1, ← ht.2.1]
        simp [updatesOf, ih t1 ht.2.2]
  | drop a t _ ih =>
    cases t1 with
    | nil => simp at ht
    | cons x t1 =>
      cases t1 with
      | nil => simp at ht
      | cons y t1 =>
        cases t1 with
        | nil => simp at ht
        | cons z t1 =>
          cases t1 with
          | nil =>
            simp only [List.cons_append, List.nil_append, List.cons.injEq,
              Event.erase.injEq] at ht
            rw [← ht.1, ht.2.2.2.1]
            simp [updatesOf]
          | cons u t1 =>
            simp only [List.cons_append, List.cons.injEq] at ht
            rw [← ht.1, ← ht.2.1, ← ht.2.2.1, ← ht.2.2.2.1]
            simp [updatesOf, ih t1 ht.2.2.2.2]

theorem updateLoop_self_flag (H : Type) (B : Behaviour H) (l : List EntityId) (w : World H)
    (e : EntityId) :
    ((∀ v, toDelete e (B.update e v) = true) → e ∉ (updateLoop B l w).list) ∧
    ((∀ v, toDelete e (B.update e v) = false) → e ∈ l → e ∈ (updateLoop B l w).list) := by
  induction l generalizing w with
  | nil => simp [updateLoop]
  | cons a l ih =>
    unfold updateLoop
    by_cases hd : toDelete a (B.update a w) = true
    · simp only [hd, if_true, Scan.after]
      refine ⟨fun h => (ih _).1 h, fun h hm => ?_⟩
      rcases List.mem_cons.mp hm with rfl | hm
      · rw [h] at hd; cases hd
      · exact (ih _).2 h hm
    · simp only [hd]
      refine ⟨fun h => ?_, fun h hm => ?_⟩
      · intro hm
        rcases List.mem_cons.mp hm with rfl | hm
        · exact hd (h w)
        · exact (ih _).1 h hm
      · rcases List.mem_cons.mp hm with rfl | hm
        · exact List.mem_cons_self _ _
        · exact List.mem_cons_of_mem _ ((ih _).2 h hm)

/-- C4: `updateEntities` on a registry invokes `update()` exactly once on each
member, in list order; each `update()` is directly followed by the read of
that member's flag and each read is directly preceded by that member's
`update()`; the registry left is the list of the members whose flag was read
as false, in their original order; a member that always leaves its own
`update()` flagged is removed, one that never does stays; and in a registry
of distinct entities no `update()` is invoked on a member after its erase. -/
theorem updateEntities_contract (H : Type) (B : Behaviour H) (list : Registry)
    (w : World H) :
    updatesOf (updateEntities B list w).2 = w.list list ∧
    (∀ t1 t2 e, (updateEntities B list w).2 = t1 ++ Event.update e :: t2 →
      ∃ d t3, t2 = Event.toDelete e d :: t3) ∧
    (∀ t1 t2 e d, (updateEntities B list w).2 = t1 ++ Event.toDelete e d :: t2 →
      ∃ t0, t1 = t0 ++ [Event.update e]) ∧
    (updateEntities B list w).1.list list = keptOf (updateEntities B list w).2 ∧
    ((updateEntities B list w).1.list list).Sublist (w.list list) ∧
    (∀ e, (∀ v, toDelete e (B.update e v) = true) →
      e ∉ (updateEntities B list w).1.list list) ∧
    (∀ e, (∀ v, toDelete e (B.update e v) = false) → e ∈ w.list list →
      e ∈ (updateEntities B list w).1.list list) ∧
    ((w.list list).Nodup → ∀ t1 t2 e,
      (updateEntities B list w).2 = t1 ++ Event.erase e :: t2 → Event.update e ∉ t2) := by
  obtain ⟨h1, h2, h3, h4⟩ := updateLoop_log H B (w.list list) w
  simp only [updateEntities, World.list_setList]
  refine ⟨h2, fun t1 t2 e ht => h1.after_update t1 t2 e ht,
    fun t1 t2 e d ht => h1.before_toDelete t1 t2 e d ht, h3, h4,
    fun e h => (updateLoop_self_flag H B _ w e).1 h,
    fun e h hm => (updateLoop_self_flag H B _ w e).2 h hm, ?_⟩
  intro hnd t1 t2 e ht hmem
  have hb := h1.update_before_erase t1 t2 e ht
  have ha : e ∈ updatesOf (Event.erase e :: t2) := by
    simpa [updatesOf] using mem_updatesOf t2 e hmem
  rw [ht, updatesOf_append] at h2
  rw [← h2] at hnd
  exact (List.nodup_append.mp hnd).2.2 hb ha


/-! ## Theorems: case analysis of the loops -/

/-- Induction along the run of the inner loop: the end of the range, a pair
that does not collide, a collision that erases `*i`, one that erases only
`*j`, one that erases neither. -/
theorem loopJ_induction {H : Type} (B : Behaviour H) (x : EntityId)
    (P : List EntityId → List EntityId → World H → Inner H → Prop)
    (hend : ∀ mid w, P mid [] w ⟨Exit.next, mid, w, []⟩)
    (hmiss : ∀ mid y rest w r, B.didCollide x y w = false →
      P (mid ++ [y]) rest w r →
      P mid (y :: rest) w (Inner.after [Event.didCollide x y false] r))
    (hI : ∀ mid y rest w, B.didCollide x y w = true →
      toDelete x (B.onCollide y x (B.onCollide x y w)) = true →
      P mid (y :: rest) w
        ⟨Exit.restart,
          mid ++ (if toDelete y (B.onCollide y x (B.onCollide x y w)) = true then rest
            else y :: rest),
          B.destructor x
            (if toDelete y (B.onCollide y x (B.onCollide x y w)) = true then
              B.destructor y (B.onCollide y x (B.onCollide x y w))
            else B.onCollide y x (B.onCollide x y w)),
          collisionEvents x y true (toDelete y (B.onCollide y x (B.onCollide x y w))) ++
            [Event.delete x, Event.erase x]⟩)
    (hJ : ∀ mid y rest w r, B.didCollide x y w = true →
      toDelete x (B.onCollide y x (B.onCollide x y w)) = false →
      toDelete y (B.onCollide y x (B.onCollide x y w)) = true →
      P mid rest (B.destructor y (B.onCollide y x (B.onCollide x y w))) r →
      P mid (y :: rest) w (Inner.after (collisionEvents x y false true) r))
    (hN : ∀ mid y rest w r, B.didCollide x y w = true →
      toDelete x (B.onCollide y x (B.onCollide x y w)) = false →
      toDelete y (B.onCollide y x (B.onCollide x y w)) = false →
      P (mid ++ [y]) rest (B.onCollide y x (B.onCollide x y w)) r →
      P mid (y :: rest) w (Inner.after (collisionEvents x y false false) r))
    (mid rest : List EntityId) (w : World H) : P mid rest w (loopJ B x mid rest w) := by
  induction rest generalizing mid w with
  | nil => exact hend mid w
  | cons y rest ih =>
    by_cases hc : B.didCollide x y w = true
    · by_cases hi : toDelete x (B.onCollide y x (B.onCollide x y w)) = true
      · have := hI mid y rest w hc hi
        simpa only [loopJ, hc, hi, if_true] using this
      · by_cases hj : toDelete y (B.onCollide y x (B.onCollide x y w)) = true
        · have := hJ mid y rest w _ hc (by simpa using hi) hj (ih mid _)
          simpa only [loopJ, hc, hi, hj, if_true, if_false] using this
        · have := hN mid y rest w _ hc (by simpa using hi) (by simpa using hj) (ih _ _)
          simp only [Bool.not_eq_true] at hi hj
          simpa [loopJ, hc, hi, hj] using this
    · have := hmiss mid y rest w _ (by simpa using hc) (ih _ _)
      simpa only [loopJ, hc, if_false] using this

theorem selfLoopI_zero {H : Type} (B : Behaviour H) (l : List EntityId) (w : World H) :
    selfLoopI B 0 l w = ⟨l, w, []⟩ := by
  cases l <;> rfl

theorem selfLoopI_nil {H : Type} (B : Behaviour H) (fuel : Nat) (w : World H) :
    selfLoopI B fuel [] w = ⟨[], w, []⟩ := by
  cases fuel <;> rfl

theorem selfLoopI_next {H : Type} (B : Behaviour H) (fuel : Nat) (x : EntityId)
    (l : List EntityId) (w : World H) (h : (loopJ B x [] l w).exit = Exit.next) :
    selfLoopI B (fuel + 1) (x :: l) w =
      ⟨x :: (selfLoopI B fuel (loopJ B x [] l w).list (loopJ B x [] l w).world).list,
        (selfLoopI B fuel (loopJ B x [] l w).list (loopJ B x [] l w).world).world,
        (loopJ B x [] l w).log ++
          (selfLoopI B fuel (loopJ B x [] l w).list (loopJ B x [] l w).world).log⟩ := by
  simp only [selfLoopI, h]

theorem selfLoopI_restart {H : Type} (B : Behaviour H) (fuel : Nat) (x : EntityId)
    (l : List EntityId) (w : World H) (h : (loopJ B x [] l w).exit = Exit.restart) :
    selfLoopI B (fuel + 1) (x :: l) w =
      ⟨(selfLoopI B fuel (loopJ B x [] l w).list (loopJ B x [] l w).world).list,
        (selfLoopI B fuel (loopJ B x [] l w).list (loopJ B x [] l w).world).world,
        (loopJ B x [] l w).log ++
          (selfLoopI B fuel (loopJ B x [] l w).list (loopJ B x [] l w).world).log⟩ := by
  simp only [selfLoopI, h, Scan.after]

theorem crossLoopI_next {H : Type} (B : Behaviour H) (x : EntityId)
    (la lb : List EntityId) (w : World H) (h : (loopJ B x [] lb w).exit = Exit.next) :
    crossLoopI B (x :: la) lb w =
      ⟨x :: (crossLoopI B la (loopJ B x [] lb w).list (loopJ B x [] lb w).world).listA,
        (crossLoopI B la (loopJ B x [] lb w).list (loopJ B x [] lb w).world).listB,
        (crossLoopI B la (loopJ B x [] lb w).list (loopJ B x [] lb w).world).world,
        (loopJ B x [] lb w).log ++
          (crossLoopI B la (loopJ B x [] lb w).list (loopJ B x [] lb w).world).log⟩ := by
  simp only [crossLoopI, h]

theorem crossLoopI_restart {H : Type} (B : Behaviour H) (x : EntityId)
    (la lb : List EntityId) (w : World H) (h : (loopJ B x [] lb w).exit = Exit.restart) :
    crossLoopI B (x :: la) lb w =
      ⟨(crossLoopI B la (loopJ B x [] lb w).list (loopJ B x [] lb w).world).listA,
        (crossLoopI B la (loopJ B x [] lb w).list (loopJ B x [] lb w).world).listB,
        (crossLoopI B la (loopJ B x [] lb w).list (loopJ B x [] lb w).world).world,
        (loopJ B x [] lb w).log ++
          (crossLoopI B la (loopJ B x [] lb w).list (loopJ B x [] lb w).world).log⟩ := by
  simp only [crossLoopI, h]

theorem Exit.next_or_restart (e : Exit) : e = Exit.next ∨ e = Exit.restart := by
  cases e
  · exact Or.inl rfl
  · exact Or.inr rfl


/-! ## Theorems: what the passes log and what they leave alone -/

theorem updateLoop_log_class (H : Type) (B : Behaviour H) (l : List EntityId) (w : World H) :
    ∀ ev ∈ (updateLoop B l w).log, ev.isUpdatePass = true := by
  induction l generalizing w with
  | nil => simp [updateLoop]
  | cons e l ih =>
    unfold updateLoop
    by_cases hd : toDelete e (B.update e w) = true
    · simp only [hd, if_true, Scan.after]
      intro ev hev
      rcases List.mem_append.mp hev with h | h
      · simp at h
        rcases h with rfl | rfl | rfl | rfl <;> rfl
      · exact ih _ ev h
    · simp only [hd]
      intro ev hev
      rcases List.mem_append.mp hev with h | h
      · simp at h
        rcases h with rfl | rfl <;> rfl
      · exact ih _ ev h

theorem collisionEvents_class (x y : EntityId) (dI dJ : Bool) :
    ∀ ev ∈ collisionEvents x y dI dJ, ev.isCollisionPass = true := by
  intro ev hev
  cases dJ <;> simp [collisionEvents] at hev <;>
    rcases hev with rfl | rfl | rfl | rfl | rfl | rfl | rfl <;> rfl

theorem after_log_class {H : Type} (t : Trace) (r : Inner H)
    (ht : ∀ ev ∈ t, ev.isCollisionPass = true)
    (hr : ∀ ev ∈ r.log, ev.isCollisionPass = true) :
    ∀ ev ∈ (Inner.after t r).log, ev.isCollisionPass = true := by
  intro ev hev
  rcases List.mem_append.mp hev with h | h
  · exact ht ev h
  · exact hr ev h

theorem loopJ_log_class (H : Type) (B : Behaviour H) (x : EntityId) (mid rest : List EntityId)
    (w : World H) : ∀ ev ∈ (loopJ B x mid rest w).log, ev.isCollisionPass = true := by
  refine loopJ_induction B x (fun _ _ _ r => ∀ ev ∈ r.log, ev.isCollisionPass = true)
    ?_ ?_ ?_ ?_ ?_ mid rest w
  · intro mid w ev hev
    simp at hev
  · intro mid y rest w r _ ih
    exact after_log_class _ r (by intro ev hev; simp at hev; subst hev; rfl) ih
  · intro mid y rest w _ _ ev hev
    rcases List.mem_append.mp hev with h | h
    · exact collisionEvents_class _ _ _ _ ev h
    · simp at h
      rcases h with rfl | rfl <;> rfl
  · intro mid y rest w r _ _ _ ih
    exact after_log_class _ r (collisionEvents_class _ _ _ _) ih
  · intro mid y rest w r _ _ _ ih
    exact after_log_class _ r (collisionEvents_class _ _ _ _) ih

theorem selfLoopI_log_class (H : Type) (B : Behaviour H) (fuel : Nat) (l : List EntityId)
    (w : World H) : ∀ ev ∈ (selfLoopI B fuel l w).log, ev.isCollisionPass = true := by
  induction fuel generalizing l w with
  | zero => simp [selfLoopI_zero]
  | succ n ih =>
    cases l with
    | nil => simp [selfLoopI_nil]
    | cons x l =>
      intro ev hev
      rcases Exit.next_or_restart (loopJ B x [] l w).exit with h | h
      · rw [selfLoopI_next B n x l w h] at hev
        rcases List.mem_append.mp hev with h | h
        · exact loopJ_log_class H B _ _ _ _ ev h
        · exact ih _ _ ev h
      · rw [selfLoopI_restart B n x l w h] at hev
        rcases List.mem_append.mp hev with h | h
        · exact loopJ_log_class H B _ _ _ _ ev h
        · exact ih _ _ ev h

theorem crossLoopI_log_class (H : Type) (B : Behaviour H) (la lb : List EntityId)
    (w : World H) : ∀ ev ∈ (crossLoopI B la lb w).log, ev.isCollisionPass = true := by
  induction la generalizing lb w with
  | nil => simp [crossLoopI]
  | cons x la ih =>
    intro ev hev
    rcases Exit.next_or_restart (loopJ B x [] lb w).exit with h | h
    · rw [crossLoopI_next B x la lb w h] at hev
      rcases List.mem_append.mp hev with h | h
      · exact loopJ_log_class H B _ _ _ _ ev h
      · exact ih _ _ ev h
    · rw [crossLoopI_restart B x la lb w h] at hev
      rcases List.mem_append.mp hev with h | h
      · exact loopJ_log_class H B _ _ _ _ ev h
      · exact ih _ _ ev h

theorem updateLoop_preserves {H α : Type} (B : Behaviour H) (f : World H → α)
    (hU : ∀ e v, f (B.update e v) = f v) (hD : ∀ e v, f (B.destructor e v) = f v)
    (l : List EntityId) (w : World H) : f (updateLoop B l w).world = f w := by
  induction l generalizing w with
  | nil => rfl
  | cons e l ih =>
    unfold updateLoop
    by_cases hd : toDelete e (B.update e w) = true
    · simp only [hd, if_true, Scan.after]
      rw [ih, hD, hU]
    · simp only [hd, Bool.false_eq_true, if_false]
      rw [ih, hU]

theorem loopJ_preserves {H α : Type} (B : Behaviour H) (f : World H → α)
    (hC : ∀ a b v, f (B.onCollide a b v) = f v) (hD : ∀ e v, f (B.destructor e v) = f v)
    (x : EntityId) (mid rest : List EntityId) (w : World H) :
    f (loopJ B x mid rest w).world = f w := by
  refine loopJ_induction B x (fun _ _ w r => f r.world = f w) ?_ ?_ ?_ ?_ ?_ mid rest w
  · intro mid w
    rfl
  · intro mid y rest w r _ ih
    exact ih
  · intro mid y rest w _ _
    split <;> simp only [hD, hC]
  · intro mid y rest w r _ _ _ ih
    simp only [Inner.after, ih, hD, hC]
  · intro mid y rest w r _ _ _ ih
    simp only [Inner.after, ih, hC]

theorem selfLoopI_preserves {H α : Type} (B : Behaviour H) (f : World H → α)
    (hC : ∀ a b v, f (B.onCollide a b v) = f v) (hD : ∀ e v, f (B.destructor e v) = f v)
    (fuel : Nat) (l : List EntityId) (w : World H) :
    f (selfLoopI B fuel l w).world = f w := by
  induction fuel generalizing l w with
  | zero => rw [selfLoopI_zero]
  | succ n ih =>
    cases l with
    | nil => rw [selfLoopI_nil]
    | cons x l =>
      rcases Exit.next_or_restart (loopJ B x [] l w).exit with h | h
      · rw [selfLoopI_next B n x l w h]
        simp only [ih, loopJ_preserves B f hC hD]
      · rw [selfLoopI_restart B n x l w h]
        simp only [ih, loopJ_preserves B f hC hD]

theorem crossLoopI_preserves {H α : Type} (B : Behaviour H) (f : World H → α)
    (hC : ∀ a b v, f (B.onCollide a b v) = f v) (hD : ∀ e v, f (B.destructor e v) = f v)
    (la lb : List EntityId) (w : World H) :
    f (crossLoopI B la lb w).world = f w := by
  induction la generalizing lb w with
  | nil => rfl
  | cons x la ih =>
    rcases Exit.next_or_restart (loopJ B x [] lb w).exit with h | h
    · rw [crossLoopI_next B x la lb w h]
      simp only [ih, loopJ_preserves B f hC hD]
    · rw [crossLoopI_restart B x la lb w h]
      simp only [ih, loopJ_preserves B f hC hD]

theorem tickInputs_setList {H : Type} (w : World H) (r : Registry) (l : List EntityId) :
    tickInputs (w.setList r l) = tickInputs w := by
  cases r <;> rfl

/-! ## Theorems: the assertion of the cross pass -/

/-- C8: `checkCollisions(listA, listB)` aborts if and only if the two
arguments are the same registry; it then aborts on the assertion, with the
world unchanged and an empty log (no `didCollide`, no `onCollide`, no erase);
with two different registries it returns. -/
theorem checkCollisions_abort_iff_aliased (H : Type) (B : Behaviour H)
    (listA listB : Registry) (w : World H) :
    ((∃ a, checkCollisions B listA listB w = Except.error a) ↔ listA = listB) ∧
    (listA = listB →
      checkCollisions B listA listB w = Except.error ⟨Fatal.assertion, w, []⟩) ∧
    (listA ≠ listB → ∃ r, checkCollisions B listA listB w = Except.ok r) := by
  by_cases h : listA = listB
  · simp [checkCollisions, h]
  · simp [checkCollisions, h]


/-! ## Theorems: the tick -/

theorem updateEntities_log_class (H : Type) (B : Behaviour H) (r : Registry) (w : World H) :
    ∀ ev ∈ (updateEntities B r w).2, ev.isUpdatePass = true :=
  updateLoop_log_class H B _ w

theorem updateEntities_tickInputs {H : Type} (B : Behaviour H)
    (hU : ∀ e v, tickInputs (B.update e v) = tickInputs v)
    (hD : ∀ e v, tickInputs (B.destructor e v) = tickInputs v)
    (r : Registry) (w : World H) : tickInputs (updateEntities B r w).1 = tickInputs w := by
  simp only [updateEntities, tickInputs_setList]
  exact updateLoop_preserves B tickInputs hU hD _ w

theorem checkCollisionsSelf_log_class (H : Type) (B : Behaviour H) (r : Registry)
    (w : World H) : ∀ ev ∈ (checkCollisionsSelf B r w).2, ev.isCollisionPass = true :=
  selfLoopI_log_class H B _ _ w

theorem checkCollisionsSelf_tickInputs {H : Type} (B : Behaviour H)
    (hC : ∀ a b v, tickInputs (B.onCollide a b v) = tickInputs v)
    (hD : ∀ e v, tickInputs (B.destructor e v) = tickInputs v)
    (r : Registry) (w : World H) :
    tickInputs (checkCollisionsSelf B r w).1 = tickInputs w := by
  simp only [checkCollisionsSelf, tickInputs_setList]
  exact selfLoopI_preserves B tickInputs hC hD _ _ w

theorem checkCollisions_ok {H : Type} (B : Behaviour H) (ra rb : Registry) (h : ra ≠ rb)
    (w : World H) :
    checkCollisions B ra rb w =
      Except.ok
        (((crossLoopI B (w.list ra) (w.list rb) w).world.setList ra
            (crossLoopI B (w.list ra) (w.list rb) w).listA).setList rb
            (crossLoopI B (w.list ra) (w.list rb) w).listB,
          (crossLoopI B (w.list ra) (w.list rb) w).log) := by
  simp [checkCollisions, h]

/-- C10: one `animate()` tick is, in this order, the increment of the frame
counter, `updateEntities` on entities, walls and soft entities, the self pass
on entities, the cross passes entities x walls, entities x soft entities and
walls x soft entities (none of which aborts), the scene update, `levelEnd`,
and the clearing of both mouse edge flags. Its log is the events of the
update passes, followed by the events of the collision passes, followed by
the scene update and `levelEnd`; and when no entity callback writes the frame
counter or the edge flags, the scene update runs on a world with the
incremented counter and the edge flags of before the tick. -/
theorem animate_order (H : Type) (B : Behaviour H) (w : World H) :
    let w0 : World H := { w with frameCount := w.frameCount + 1 }
    let u1 := updateEntities B Registry.wEntities w0
    let u2 := updateEntities B Registry.wWalls u1.1
    let u3 := updateEntities B Registry.wSoftEntities u2.1
    let c1 := checkCollisionsSelf B Registry.wEntities u3.1
    ∃ c2 c3 c4 : World H × Trace,
      checkCollisions B Registry.wEntities Registry.wWalls c1.1 = Except.ok c2 ∧
      checkCollisions B Registry.wEntities Registry.wSoftEntities c2.1 = Except.ok c3 ∧
      checkCollisions B Registry.wWalls Registry.wSoftEntities c3.1 = Except.ok c4 ∧
      animate B w = Except.ok
        ({ (B.levelEnd (B.sceneUpdate c4.1)).2 with
            MOUSE_EDGE_LEFT := false, MOUSE_EDGE_RIGHT := false },
          (u1.2 ++ u2.2 ++ u3.2) ++ (c1.2 ++ c2.2 ++ c3.2 ++ c4.2) ++
            [Event.sceneUpdate, Event.levelEnd]) ∧
      (∀ ev ∈ u1.2 ++ u2.2 ++ u3.2, ev.isUpdatePass = true) ∧
      (∀ ev ∈ c1.2 ++ c2.2 ++ c3.2 ++ c4.2, ev.isCollisionPass = true) ∧
      ((∀ e v, tickInputs (B.update e v) = tickInputs v) →
        (∀ a b v, tickInputs (B.onCollide a b v) = tickInputs v) →
        (∀ e v, tickInputs (B.destructor e v) = tickInputs v) →
        tickInputs c4.1 = (w.frameCount + 1, w.MOUSE_EDGE_LEFT, w.MOUSE_EDGE_RIGHT)) := by
  intro w0 u1 u2 u3 c1
  have h2 := checkCollisions_ok B Registry.wEntities Registry.wWalls (by decide) c1.1
  have h3 := checkCollisions_ok B Registry.wEntities Registry.wSoftEntities (by decide)
  have h4 := checkCollisions_ok B Registry.wWalls Registry.wSoftEntities (by decide)
  refine ⟨_, _, _, h2, h3 _, h4 _, ?_, ?_, ?_, ?_⟩
  · simp only [animate, bind, Except.bind, h2, h3, h4, pure, Except.pure, List.append_assoc]
  · intro ev hev
    simp only [List.mem_append] at hev
    rcases hev with (h | h) | h
    · exact updateEntities_log_class H B _ _ ev h
    · exact updateEntities_log_class H B _ _ ev h
    · exact updateEntities_log_class H B _ _ ev h
  · intro ev hev
    simp only [List.mem_append] at hev
    rcases hev with ((h | h) | h) | h
    · exact checkCollisionsSelf_log_class H B _ _ ev h
    · exact crossLoopI_log_class H B _ _ _ ev h
    · exact crossLoopI_log_class H B _ _ _ ev h
    · exact crossLoopI_log_class H B _ _ _ ev h
  · intro hU hC hD
    simp only [tickInputs_setList, crossLoopI_preserves B tickInputs hC hD]
    rw [checkCollisionsSelf_tickInputs B hC hD, updateEntities_tickInputs B hU hD,
      updateEntities_tickInputs B hU hD, updateEntities_tickInputs B hU hD]
    rfl


/-! ## Theorems: a grenade hits a wall -/

theorem GrenadeEntity.onCollide_spec {H : Type} (g b : EntityId) (w : World H) :
    (GrenadeEntity.onCollide g b w).wSoftEntities = w.wSoftEntities ++ [w.nextEntity] ∧
    (GrenadeEntity.onCollide g b w).translate w.nextEntity = w.translate g ∧
    toDelete g (GrenadeEntity.onCollide g b w) = true ∧
    (∀ e, e ≠ g → w.deleteFlag e = false →
      toDelete e (GrenadeEntity.onCollide g b w) = false) := by
  refine ⟨rfl, ?_, ?_, ?_⟩
  · simp [GrenadeEntity.onCollide, setDelete, addSoftEntity, setTranslate, newExplosion]
  · simp [GrenadeEntity.onCollide, setDelete, toDelete]
  · intro e he hf
    simp [GrenadeEntity.onCollide, setDelete, addSoftEntity, setTranslate, newExplosion,
      toDelete, he, hf]

/-- C7: a cross pass `checkCollisions(wEntities, wWalls)` where `wEntities`
holds one grenade `g`, `wWalls` holds one unflagged wall, the two collide, and
the wall's `onCollide` changes neither its own delete flag nor the grenade's
nor the soft-entity registry (and the grenade's destructor leaves that
registry alone): the pass returns, the grenade is erased from `wEntities`,
the wall is still in `wWalls`, and `wSoftEntities` has gained exactly one
member, the entity `GrenadeEntity::onCollide` created, which it placed at the
grenade's position. -/
theorem grenade_wall_collision (H : Type) (B : Behaviour H) (w : World H)
    (g wall : EntityId) (hne : wall ≠ g)
    (hE : w.wEntities = [g]) (hW : w.wWalls = [wall])
    (hflag : w.deleteFlag wall = false)
    (hcol : B.didCollide g wall w = true)
    (hG : ∀ b v, B.onCollide g b v = GrenadeEntity.onCollide g b v)
    (hwall1 : ∀ v, toDelete wall (B.onCollide wall g v) = toDelete wall v)
    (hwall2 : ∀ v, toDelete g (B.onCollide wall g v) = toDelete g v)
    (hwall3 : ∀ v, (B.onCollide wall g v).wSoftEntities = v.wSoftEntities)
    (hD : ∀ v, (B.destructor g v).wSoftEntities = v.wSoftEntities) :
    ∃ r : World H × Trace,
      checkCollisions B Registry.wEntities Registry.wWalls w = Except.ok r ∧
      r.1.wEntities = [] ∧
      r.1.wWalls = [wall] ∧
      r.1.wSoftEntities = w.wSoftEntities ++ [w.nextEntity] ∧
      r.1.wSoftEntities.length = w.wSoftEntities.length + 1 ∧
      (B.onCollide g wall w).translate w.nextEntity = w.translate g ∧
      r.2 = [Event.didCollide g wall true, Event.onCollide g wall, Event.onCollide wall g,
        Event.toDelete g true, Event.toDelete wall false, Event.delete g, Event.erase g] := by
  obtain ⟨s1, s2, s3, s4⟩ := GrenadeEntity.onCollide_spec g wall w
  have hi : toDelete g (B.onCollide wall g (B.onCollide g wall w)) = true := by
    rw [hwall2, hG]
    exact s3
  have hj : toDelete wall (B.onCollide wall g (B.onCollide g wall w)) = false := by
    rw [hwall1, hG]
    exact s4 wall hne hflag
  have hloop : loopJ B g [] [wall] w =
      ⟨Exit.restart, [wall], B.destructor g (B.onCollide wall g (B.onCollide g wall w)),
        [Event.didCollide g wall true, Event.onCollide g wall, Event.onCollide wall g,
          Event.toDelete g true, Event.toDelete wall false, Event.delete g,
          Event.erase g]⟩ := by
    simp [loopJ, hcol, hi, hj, collisionEvents]
  refine ⟨_, checkCollisions_ok B _ _ (by decide) w, ?_⟩
  simp only [World.list, hE, hW]
  rw [crossLoopI_restart B g [] [wall] w (by rw [hloop])]
  simp only [hloop, crossLoopI, List.append_nil]
  refine ⟨rfl, rfl, ?_, ?_, ?_, trivial⟩
  · show (B.destructor g _).wSoftEntities = _
    rw [hD, hwall3, hG, s1]
  · show (B.destructor g _).wSoftEntities.length = _
    rw [hD, hwall3, hG, s1]
    simp
  · rw [hG]
    exact s2


/-! ## Theorems: pairs of a list -/

theorem pair_sublist_cons (a b x : EntityId) (l : List EntityId) :
    [a, b].Sublist (x :: l) ↔ (a = x ∧ b ∈ l) ∨ [a, b].Sublist l := by
  constructor
  · intro h
    rcases List.sublist_cons_iff.mp h with h | ⟨r, hr, hs⟩
    · exact Or.inr h
    · simp only [List.cons.injEq] at hr
      obtain ⟨rfl, rfl⟩ := hr
      exact Or.inl ⟨rfl, List.singleton_sublist.mp hs⟩
  · rintro (⟨rfl, hb⟩ | h)
    · exact List.cons_sublist_cons.mpr (List.singleton_sublist.mpr hb)
    · exact h.trans (List.sublist_cons_self x l)

theorem pair_sublist_mem {a b : EntityId} {l : List EntityId} (h : [a, b].Sublist l) :
    a ∈ l ∧ b ∈ l :=
  ⟨h.subset (by simp), h.subset (by simp)⟩

theorem pair_sublist_ne {a b : EntityId} {l : List EntityId} (hnd : l.Nodup)
    (h : [a, b].Sublist l) : a ≠ b :=
  List.pairwise_iff_forall_sublist.mp hnd h

theorem pair_sublist_asymm {a b : EntityId} {l : List EntityId} (hnd : l.Nodup)
    (h1 : [a, b].Sublist l) (h2 : [b, a].Sublist l) : False := by
  induction l with
  | nil => simp at h1
  | cons x l ih =>
    have hx : x ∉ l := (List.nodup_cons.mp hnd).1
    have hl : l.Nodup := (List.nodup_cons.mp hnd).2
    rcases (pair_sublist_cons a b x l).mp h1 with ⟨hax, hb⟩ | h3
    · rcases (pair_sublist_cons b a x l).mp h2 with ⟨hbx, _⟩ | h4
      · exact hx (hbx ▸ hb)
      · exact hx (hax ▸ (pair_sublist_mem h4).2)
    · rcases (pair_sublist_cons b a x l).mp h2 with ⟨hbx, _⟩ | h4
      · exact hx (hbx ▸ (pair_sublist_mem h3).2)
      · exact ih hl h3 h4

theorem pair_sublist_total {a b : EntityId} {l : List EntityId} (ha : a ∈ l) (hb : b ∈ l)
    (hne : a ≠ b) : [a, b].Sublist l ∨ [b, a].Sublist l := by
  induction l with
  | nil => simp at ha
  | cons x l ih =>
    rcases List.mem_cons.mp ha with hax | ha2
    · rcases List.mem_cons.mp hb with hbx | hb2
      · exact absurd (hax.trans hbx.symm) hne
      · exact Or.inl ((pair_sublist_cons _ _ _ _).mpr (Or.inl ⟨hax, hb2⟩))
    · rcases List.mem_cons.mp hb with hbx | hb2
      · exact Or.inr ((pair_sublist_cons _ _ _ _).mpr (Or.inl ⟨hbx, ha2⟩))
      · rcases ih ha2 hb2 with h | h
        · exact Or.inl ((pair_sublist_cons _ _ _ _).mpr (Or.inr h))
        · exact Or.inr ((pair_sublist_cons _ _ _ _).mpr (Or.inr h))

/-! ## Theorems: counting the evaluations of a pass -/

theorem evals_append (a b : EntityId) (t1 t2 : Trace) :
    evals a b (t1 ++ t2) = evals a b t1 + evals a b t2 := by
  simp [evals]

theorem evals_nil (a b : EntityId) : evals a b [] = 0 := rfl

theorem evals_collisionEvents (a b x y : EntityId) (dI dJ : Bool) :
    evals a b (collisionEvents x y dI dJ) = if x = a ∧ y = b then 1 else 0 := by
  cases dJ <;> simp [evals, collisionEvents, List.countP_cons, Event.isEval]

theorem evals_miss (a b x y : EntityId) :
    evals a b [Event.didCollide x y false] = if x = a ∧ y = b then 1 else 0 := by
  simp [evals, List.countP_cons, Event.isEval]

theorem evals_erase (a b x : EntityId) :
    evals a b [Event.delete x, Event.erase x] = 0 := by
  simp [evals, List.countP_cons, Event.isEval]

theorem count_cons_ite (b y : EntityId) (l : List EntityId) :
    (y :: l).count b = l.count b + if y = b then 1 else 0 := by
  rw [List.count_cons]
  simp

/-- What the inner loop evaluates: only pairs with `*i` first, each element
of the range from `j` on at most once, and each exactly once when the loop
runs to its end; the range only loses elements. -/
theorem loopJ_evals {H : Type} (B : Behaviour H) (x : EntityId) (mid rest : List EntityId)
    (w : World H) :
    (∃ rest2, rest2.Sublist rest ∧ (loopJ B x mid rest w).list = mid ++ rest2) ∧
    (∀ a b, a ≠ x → evals a b (loopJ B x mid rest w).log = 0) ∧
    (∀ b, evals x b (loopJ B x mid rest w).log ≤ rest.count b) ∧
    ((loopJ B x mid rest w).exit = Exit.next →
      ∀ b, evals x b (loopJ B x mid rest w).log = rest.count b) := by
  refine loopJ_induction B x
    (fun mid rest _ r =>
      (∃ rest2, rest2.Sublist rest ∧ r.list = mid ++ rest2) ∧
      (∀ a b, a ≠ x → evals a b r.log = 0) ∧
      (∀ b, evals x b r.log ≤ rest.count b) ∧
      (r.exit = Exit.next → ∀ b, evals x b r.log = rest.count b))
    ?_ ?_ ?_ ?_ ?_ mid rest w
  · intro mid w
    exact ⟨⟨[], List.Sublist.refl _, by simp⟩, fun _ _ _ => rfl, fun _ => Nat.zero_le _,
      fun _ _ => rfl⟩
  · rintro mid y rest w r _ ⟨⟨rest2, hs, hl⟩, h2, h3, h4⟩
    refine ⟨⟨y :: rest2, hs.cons₂ y, by simp [Inner.after, hl]⟩, ?_, ?_, ?_⟩
    · intro a b ha
      have hne : ¬(x = a ∧ y = b) := fun h => ha h.1.symm
      show evals a b ([Event.didCollide x y false] ++ r.log) = 0
      rw [evals_append, evals_miss, h2 a b ha, if_neg hne]
    · intro b
      have := h3 b
      simp only [Inner.after, evals_append, evals_miss, count_cons_ite, true_and]
      omega
    · intro he b
      have := h4 he b
      simp only [Inner.after, evals_append, evals_miss, count_cons_ite, true_and]
      omega
  · intro mid y rest w _ _
    refine ⟨⟨_, ?_, rfl⟩, ?_, ?_, ?_⟩
    · split
      · exact List.sublist_cons_self y rest
      · exact List.Sublist.refl _
    · intro a b ha
      have hne : ¬(x = a ∧ y = b) := fun h => ha h.1.symm
      rw [evals_append, evals_collisionEvents, evals_erase, if_neg hne]
    · intro b
      simp only [evals_append, evals_collisionEvents, evals_erase, count_cons_ite, true_and]
      split <;> omega
    · intro he
      cases he
  · rintro mid y rest w r _ _ _ ⟨⟨rest2, hs, hl⟩, h2, h3, h4⟩
    refine ⟨⟨rest2, hs.trans (List.sublist_cons_self y rest), by simp [Inner.after, hl]⟩,
      ?_, ?_, ?_⟩
    · intro a b ha
      have hne : ¬(x = a ∧ y = b) := fun h => ha h.1.symm
      show evals a b (collisionEvents x y _ _ ++ r.log) = 0
      rw [evals_append, evals_collisionEvents, h2 a b ha, if_neg hne]
    · intro b
      have := h3 b
      simp only [Inner.after, evals_append, evals_collisionEvents, count_cons_ite, true_and]
      omega
    · intro he b
      have := h4 he b
      simp only [Inner.after, evals_append, evals_collisionEvents, count_cons_ite, true_and]
      omega
  · rintro mid y rest w r _ _ _ ⟨⟨rest2, hs, hl⟩, h2, h3, h4⟩
    refine ⟨⟨y :: rest2, hs.cons₂ y, by simp [Inner.after, hl]⟩, ?_, ?_, ?_⟩
    · intro a b ha
      have hne : ¬(x = a ∧ y = b) := fun h => ha h.1.symm
      show evals a b (collisionEvents x y _ _ ++ r.log) = 0
      rw [evals_append, evals_collisionEvents, h2 a b ha, if_neg hne]
    · intro b
      have := h3 b
      simp only [Inner.after, evals_append, evals_collisionEvents, count_cons_ite, true_and]
      omega
    · intro he b
      have := h4 he b
      simp only [Inner.after, evals_append, evals_collisionEvents, count_cons_ite, true_and]
      omega


theorem loopJ_list_sublist {H : Type} (B : Behaviour H) (x : EntityId) (l : List EntityId)
    (w : World H) : (loopJ B x [] l w).list.Sublist l := by
  obtain ⟨⟨rest2, hs, hl⟩, _⟩ := loopJ_evals B x [] l w
  rw [hl]
  simpa using hs

theorem count_le_one_of_nodup {l : List EntityId} (h : l.Nodup) (b : EntityId) :
    l.count b ≤ 1 :=
  List.nodup_iff_count_le_one.mp h b

theorem count_eq_one_of_nodup {l : List EntityId} (h : l.Nodup) {b : EntityId} (hb : b ∈ l) :
    l.count b = 1 :=
  List.nodup_iff_count_eq_one.mp h b hb

/-- What the self pass evaluates on a registry of distinct entities: only
pairs in list order, none twice, and every pair of what is left. -/
theorem selfLoopI_evals {H : Type} (B : Behaviour H) (fuel : Nat) (l : List EntityId)
    (w : World H) (hfuel : l.length ≤ fuel) (hnd : l.Nodup) :
    (selfLoopI B fuel l w).list.Sublist l ∧
    (∀ a b, 0 < evals a b (selfLoopI B fuel l w).log → [a, b].Sublist l) ∧
    (∀ a b, evals a b (selfLoopI B fuel l w).log ≤ 1) ∧
    (∀ a b, [a, b].Sublist (selfLoopI B fuel l w).list →
      evals a b (selfLoopI B fuel l w).log = 1) := by
  induction fuel generalizing l w with
  | zero =>
    have hl : l = [] := List.length_eq_zero.mp (Nat.le_zero.mp hfuel)
    subst hl
    rw [selfLoopI_zero]
    exact ⟨List.Sublist.refl _, fun a b h => by simp [evals] at h, fun a b => by simp [evals],
      fun a b h => by simp at h⟩
  | succ n ih =>
    cases l with
    | nil =>
      rw [selfLoopI_nil]
      exact ⟨List.Sublist.refl _, fun a b h => by simp [evals] at h,
        fun a b => by simp [evals], fun a b h => by simp at h⟩
    | cons x tl =>
      have hx : x ∉ tl := (List.nodup_cons.mp hnd).1
      have htl : tl.Nodup := (List.nodup_cons.mp hnd).2
      obtain ⟨_, j2, j3, j4⟩ := loopJ_evals B x [] tl w
      have hsub := loopJ_list_sublist B x tl w
      have hlen : (loopJ B x [] tl w).list.length ≤ n := by
        have := hsub.length_le
        simp only [List.length_cons] at hfuel
        omega
      obtain ⟨i1, i2, i3, i4⟩ :=
        ih (loopJ B x [] tl w).list (loopJ B x [] tl w).world hlen (hsub.nodup htl)
      -- facts about the concatenated log, whichever way the inner loop ends
      have hx0 : ∀ b, evals x b
          (selfLoopI B n (loopJ B x [] tl w).list (loopJ B x [] tl w).world).log = 0 := by
        intro b
        by_contra hc
        exact hx (hsub.subset (pair_sublist_mem (i2 x b (Nat.pos_of_ne_zero hc))).1)
      have hpos : ∀ a b, 0 < evals a b ((loopJ B x [] tl w).log ++
          (selfLoopI B n (loopJ B x [] tl w).list (loopJ B x [] tl w).world).log) →
          [a, b].Sublist (x :: tl) := by
        intro a b h
        rw [evals_append] at h
        by_cases ha : a = x
        · subst ha
          rw [hx0 b] at h
          have h3 := j3 b
          have hb : b ∈ tl := List.count_pos_iff.mp (by omega)
          exact (pair_sublist_cons _ _ _ _).mpr (Or.inl ⟨rfl, hb⟩)
        · rw [j2 a b ha] at h
          exact (pair_sublist_cons _ _ _ _).mpr
            (Or.inr ((i2 a b (by omega)).trans hsub))
      have hle : ∀ a b, evals a b ((loopJ B x [] tl w).log ++
          (selfLoopI B n (loopJ B x [] tl w).list (loopJ B x [] tl w).world).log) ≤ 1 := by
        intro a b
        rw [evals_append]
        by_cases ha : a = x
        · subst ha
          rw [hx0 b]
          have h3 := j3 b
          have := count_le_one_of_nodup htl b
          omega
        · rw [j2 a b ha]
          have := i3 a b
          omega
      have hin : ∀ a b,
          [a, b].Sublist
            (selfLoopI B n (loopJ B x [] tl w).list (loopJ B x [] tl w).world).list →
          evals a b ((loopJ B x [] tl w).log ++
            (selfLoopI B n (loopJ B x [] tl w).list (loopJ B x [] tl w).world).log) = 1 := by
        intro a b h
        have ha : a ≠ x := by
          intro hax
          exact hx (hsub.subset (i1.subset (hax ▸ (pair_sublist_mem h).1)))
        rw [evals_append, j2 a b ha, i4 a b h]
      rcases Exit.next_or_restart (loopJ B x [] tl w).exit with he | he
      · rw [selfLoopI_next B n x tl w he]
        refine ⟨(i1.trans hsub).cons₂ x, hpos, hle, ?_⟩
        intro a b h
        rcases (pair_sublist_cons _ _ _ _).mp h with ⟨hax, hb⟩ | h
        · subst hax
          show evals a b (_ ++ _) = 1
          rw [evals_append, hx0 b, j4 he b,
            count_eq_one_of_nodup htl (hsub.subset (i1.subset hb))]
        · exact hin a b h
      · rw [selfLoopI_restart B n x tl w he]
        exact ⟨(i1.trans hsub).trans (List.sublist_cons_self x tl), hpos, hle, hin⟩

/-- What the cross pass evaluates: a pair at most as often as its members
occur in the two registries, and every pair of what is left exactly once. -/
theorem crossLoopI_evals {H : Type} (B : Behaviour H) (la lb : List EntityId) (w : World H) :
    (crossLoopI B la lb w).listA.Sublist la ∧
    (crossLoopI B la lb w).listB.Sublist lb ∧
    (∀ a b, evals a b (crossLoopI B la lb w).log ≤ la.count a * lb.count b) ∧
    (la.Nodup → lb.Nodup → ∀ a b, a ∈ (crossLoopI B la lb w).listA →
      b ∈ (crossLoopI B la lb w).listB → evals a b (crossLoopI B la lb w).log = 1) := by
  induction la generalizing lb w with
  | nil =>
    exact ⟨List.Sublist.refl _, List.Sublist.refl _, fun a b => by simp [crossLoopI, evals],
      fun _ _ a b ha => by simp [crossLoopI] at ha⟩
  | cons x ta ih =>
    obtain ⟨_, j2, j3, j4⟩ := loopJ_evals B x [] lb w
    have hsub := loopJ_list_sublist B x lb w
    obtain ⟨i1, i2, i3, i4⟩ := ih (loopJ B x [] lb w).list (loopJ B x [] lb w).world
    have hle : ∀ a b, evals a b ((loopJ B x [] lb w).log ++
        (crossLoopI B ta (loopJ B x [] lb w).list (loopJ B x [] lb w).world).log) ≤
        (x :: ta).count a * lb.count b := by
      intro a b
      rw [evals_append, count_cons_ite, Nat.add_mul]
      have h2 : evals a b (crossLoopI B ta (loopJ B x [] lb w).list
          (loopJ B x [] lb w).world).log ≤ ta.count a * lb.count b :=
        (i3 a b).trans (Nat.mul_le_mul_left _ (hsub.count_le b))
      by_cases ha : a = x
      · subst ha
        have := j3 b
        simp only [if_true, Nat.one_mul]
        omega
      · rw [j2 a b ha]
        omega
    have hin : ∀ a b, (x :: ta).Nodup → lb.Nodup →
        a ∈ (crossLoopI B ta (loopJ B x [] lb w).list (loopJ B x [] lb w).world).listA →
        b ∈ (crossLoopI B ta (loopJ B x [] lb w).list (loopJ B x [] lb w).world).listB →
        evals a b ((loopJ B x [] lb w).log ++
          (crossLoopI B ta (loopJ B x [] lb w).list (loopJ B x [] lb w).world).log) = 1 := by
      intro a b hnda hndb ha hb
      have hx : x ∉ ta := (List.nodup_cons.mp hnda).1
      have hax : a ≠ x := fun h => hx (i1.subset (h ▸ ha))
      rw [evals_append, j2 a b hax, i4 (List.nodup_cons.mp hnda).2 (hsub.nodup hndb) a b ha hb]
    rcases Exit.next_or_restart (loopJ B x [] lb w).exit with he | he
    · rw [crossLoopI_next B x ta lb w he]
      refine ⟨i1.cons₂ x, i2.trans hsub, hle, ?_⟩
      intro hnda hndb a b ha hb
      rcases List.mem_cons.mp ha with hax | ha2
      · subst hax
        have hx : a ∉ ta := (List.nodup_cons.mp hnda).1
        have h0 : evals a b (crossLoopI B ta (loopJ B a [] lb w).list
            (loopJ B a [] lb w).world).log = 0 := by
          have := i3 a b
          rw [List.count_eq_zero_of_not_mem hx] at this
          omega
        show evals a b (_ ++ _) = 1
        rw [evals_append, h0, j4 he b,
          count_eq_one_of_nodup hndb (hsub.subset (i2.subset hb))]
      · exact hin a b hnda hndb ha2 hb
    · rw [crossLoopI_restart B x ta lb w he]
      exact ⟨i1.trans (List.sublist_cons_self x ta), i2.trans hsub, hle,
        fun hnda hndb a b ha hb => hin a b hnda hndb ha hb⟩


/-! ## Theorems: which pairs a pass checks -/

/-- C6: on a registry of pairwise distinct entities `checkCollisionsSelf`
evaluates `didCollide` only on pairs whose first entity stands before the
second in the registry (the inner cursor is after the outer one), so never on
an entity and itself, and it evaluates no unordered pair more than once. -/
theorem checkCollisionsSelf_pairs (H : Type) (B : Behaviour H) (list : Registry)
    (w : World H) (hnd : (w.list list).Nodup) :
    (∀ a b, 0 < evals a b (checkCollisionsSelf B list w).2 → [a, b].Sublist (w.list list)) ∧
    (∀ a, evals a a (checkCollisionsSelf B list w).2 = 0) ∧
    (∀ x y, evals x y (checkCollisionsSelf B list w).2 +
      evals y x (checkCollisionsSelf B list w).2 ≤ 1) := by
  obtain ⟨_, h2, h3, _⟩ := selfLoopI_evals B _ (w.list list) w (le_refl _) hnd
  have hlog : (checkCollisionsSelf B list w).2 =
      (selfLoopI B (w.list list).length (w.list list) w).log := rfl
  rw [hlog]
  refine ⟨h2, ?_, ?_⟩
  · intro a
    by_contra hc
    exact pair_sublist_ne hnd (h2 a a (Nat.pos_of_ne_zero hc)) rfl
  · intro x y
    have hx := h3 x y
    have hy := h3 y x
    by_contra hc
    exact pair_sublist_asymm hnd (h2 x y (by omega)) (h2 y x (by omega))

/-- C2: on a registry of pairwise distinct entities, after
`checkCollisionsSelf` every two distinct entities still in the registry had
`didCollide` evaluated on them exactly once (in one of the two orders); and
for two different registries of pairwise distinct entities `checkCollisions`
returns and has evaluated `didCollide(x, y)` exactly once for every `x` still
in `listA` and `y` still in `listB`. -/
theorem survivors_checked_once (H : Type) (B : Behaviour H) (listA listB : Registry)
    (w : World H) (hne : listA ≠ listB) (hA : (w.list listA).Nodup)
    (hB : (w.list listB).Nodup) :
    (∀ x y, x ∈ (checkCollisionsSelf B listA w).1.list listA →
      y ∈ (checkCollisionsSelf B listA w).1.list listA → x ≠ y →
      evals x y (checkCollisionsSelf B listA w).2 +
        evals y x (checkCollisionsSelf B listA w).2 = 1) ∧
    (∃ r, checkCollisions B listA listB w = Except.ok r ∧
      ∀ x y, x ∈ r.1.list listA → y ∈ r.1.list listB → evals x y r.2 = 1) := by
  constructor
  · obtain ⟨h1, h2, h3, h4⟩ := selfLoopI_evals B _ (w.list listA) w (le_refl _) hA
    intro x y hx hy hxy
    simp only [checkCollisionsSelf, World.list_setList] at hx hy ⊢
    have key : ∀ a b, [a, b].Sublist (selfLoopI B (w.list listA).length (w.list listA) w).list →
        evals a b (selfLoopI B (w.list listA).length (w.list listA) w).log +
          evals b a (selfLoopI B (w.list listA).length (w.list listA) w).log = 1 := by
      intro a b hab
      have h0 : evals b a (selfLoopI B (w.list listA).length (w.list listA) w).log = 0 := by
        by_contra hc
        exact pair_sublist_asymm hA (hab.trans h1) (h2 b a (Nat.pos_of_ne_zero hc))
      rw [h4 a b hab, h0]
    rcases pair_sublist_total hx hy hxy with h | h
    · exact key x y h
    · rw [Nat.add_comm]
      exact key y x h
  · refine ⟨_, checkCollisions_ok B listA listB hne w, ?_⟩
    obtain ⟨_, _, _, h4⟩ := crossLoopI_evals B (w.list listA) (w.list listB) w
    intro x y hx hy
    rw [World.list_setList_of_ne _ _ _ _ hne, World.list_setList] at hx
    rw [World.list_setList] at hy
    exact h4 hA hB x y hx hy


/-! ## Theorems: the callbacks of a collision -/

theorem CollisionLog.append {t1 t2 : Trace} (h1 : CollisionLog t1) (h2 : CollisionLog t2) :
    CollisionLog (t1 ++ t2) := by
  induction h1 with
  | nil => exact h2
  | miss a b t _ ih => exact CollisionLog.miss a b _ ih
  | hit a b dI dJ t _ ih => exact CollisionLog.hit a b dI dJ _ ih
  | delete e t _ ih => exact CollisionLog.delete e _ ih
  | erase e t _ ih => exact CollisionLog.erase e _ ih

theorem collisionEvents_log (x y : EntityId) (dI dJ : Bool) {t : Trace}
    (h : CollisionLog t) : CollisionLog (collisionEvents x y dI dJ ++ t) := by
  cases dJ
  · exact CollisionLog.hit x y dI false t h
  · exact CollisionLog.hit x y dI true _
      (CollisionLog.delete y _ (CollisionLog.erase y _ h))

theorem deleteFlag_setList {H : Type} (w : World H) (r : Registry) (l : List EntityId) :
    (w.setList r l).deleteFlag = w.deleteFlag := by
  cases r <;> rfl

/-- The outer loop of the self pass never runs out of fuel when it starts
with at least the length of the registry: any two such amounts of fuel give
the same result. -/
theorem selfLoopI_fuel {H : Type} (B : Behaviour H) (n m : Nat) (l : List EntityId)
    (w : World H) (hn : l.length ≤ n) (hm : l.length ≤ m) :
    selfLoopI B n l w = selfLoopI B m l w := by
  induction n generalizing m l w with
  | zero =>
    have hl : l = [] := List.length_eq_zero.mp (Nat.le_zero.mp hn)
    subst hl
    rw [selfLoopI_zero, selfLoopI_nil]
  | succ n ih =>
    cases l with
    | nil => rw [selfLoopI_nil, selfLoopI_nil]
    | cons x tl =>
      cases m with
      | zero => simp at hm
      | succ m =>
        have hsub := (loopJ_list_sublist B x tl w).length_le
        simp only [List.length_cons] at hn hm
        have e := ih m (loopJ B x [] tl w).list (loopJ B x [] tl w).world (by omega) (by omega)
        rcases Exit.next_or_restart (loopJ B x [] tl w).exit with he | he
        · rw [selfLoopI_next B n x tl w he, selfLoopI_next B m x tl w he, e]
        · rw [selfLoopI_restart B n x tl w he, selfLoopI_restart B m x tl w he, e]

/-- With at least the size of the queue as fuel, the loop of phase 2 ends
because the queue is empty, whatever the amount. -/
theorem drawTransparent_fuel (cam : Vec3) (n m : Nat) (q : TransparencyQueue)
    (hn : q.length ≤ n) (hm : q.length ≤ m) :
    drawTransparent cam n q = drawTransparent cam m q := by
  induction n generalizing m q with
  | zero =>
    have hq : q = [] := List.length_eq_zero.mp (Nat.le_zero.mp hn)
    subst hq
    cases m <;> rfl
  | succ n ih =>
    cases m with
    | zero =>
      have hq : q = [] := List.length_eq_zero.mp (Nat.le_zero.mp hm)
      subst hq
      rfl
    | succ m =>
      unfold drawTransparent
      cases ht : TransparencyQueue.top cam q with
      | none => rfl
      | some x =>
        have hx : x ∈ q := top_mem cam q x ht
        have hpop : TransparencyQueue.pop cam q = q.erase x := by
          simp [TransparencyQueue.pop, ht]
        have hlen : (TransparencyQueue.pop cam q).length = q.length - 1 := by
          rw [hpop, List.length_erase_of_mem hx]
        have hpos : 0 < q.length := List.length_pos_of_mem hx
        simp only [ih m (TransparencyQueue.pop cam q) (by omega) (by omega)]

/-! ## Theorems: the order of the transparent phase -/

theorem greatest_nearest (cam : Vec3) (m : DrawableEntity) (q : List DrawableEntity) :
    ∀ y ∈ m :: q, sqDist cam (greatest (DepthComparator cam) m q) ≤ sqDist cam y := by
  induction q generalizing m with
  | nil =>
    intro y hy
    simp only [List.mem_singleton] at hy
    subst hy
    exact le_refl _
  | cons x q ih =>
    intro y hy
    unfold greatest
    by_cases hc : DepthComparator cam m x = true
    · simp only [hc, if_true]
      have hlt : sqDist cam x < sqDist cam m := by
        simpa [DepthComparator, sqDist] using hc
      have hx := ih x x (List.mem_cons_self _ _)
      rcases List.mem_cons.mp hy with h | h
      · subst h
        omega
      · exact ih x y h
    · simp only [hc, Bool.false_eq_true, if_false]
      have hle : sqDist cam m ≤ sqDist cam x := by
        simpa [DepthComparator, sqDist] using hc
      have hm := ih m m (List.mem_cons_self _ _)
      rcases List.mem_cons.mp hy with h | h
      · subst h
        exact hm
      · rcases List.mem_cons.mp h with h2 | h2
        · subst h2
          omega
        · exact ih m y (List.mem_cons_of_mem _ h2)

theorem drawnSqDists_map (cam : Vec3) (ts : List DrawableEntity) :
    drawnSqDists cam (ts.map Event.draw) = ts.map (sqDist cam) := by
  induction ts with
  | nil => rfl
  | cons m ts ih => simp [drawnSqDists, ih]

/-- The transparent phase draws every queue in the order of non-decreasing
squared distance from the camera: nearest first. -/
theorem drawTransparent_nearest_first (cam : Vec3) (fuel : Nat) (q : TransparencyQueue) :
    ∃ ts : List DrawableEntity,
      (drawTransparent cam fuel q).1 = ts.map Event.draw ∧
      (∀ m ∈ ts, m ∈ q) ∧
      (ts.map (sqDist cam)).Pairwise (fun a b => a ≤ b) := by
  induction fuel generalizing q with
  | zero => exact ⟨[], rfl, by simp, by simp⟩
  | succ n ih =>
    unfold drawTransparent
    cases ht : TransparencyQueue.top cam q with
    | none => exact ⟨[], rfl, by simp, by simp⟩
    | some x =>
      have hx : x ∈ q := top_mem cam q x ht
      have hpop : TransparencyQueue.pop cam q = q.erase x := by
        simp [TransparencyQueue.pop, ht]
      obtain ⟨ts, h1, h3, h4⟩ := ih (TransparencyQueue.pop cam q)
      have hmin : ∀ y ∈ q, sqDist cam x ≤ sqDist cam y := by
        cases q with
        | nil => simp at hx
        | cons a q =>
          simp only [TransparencyQueue.top, Option.some.injEq] at ht
          rw [← ht]
          exact greatest_nearest cam a q
      refine ⟨x :: ts, by simp [h1], ?_, ?_⟩
      · intro m hm
        rcases List.mem_cons.mp hm with h | h
        · exact h ▸ hx
        · exact List.mem_of_mem_erase (hpop ▸ h3 m h)
      · simp only [List.map_cons, List.pairwise_cons]
        refine ⟨?_, h4⟩
        intro d hd
        obtain ⟨y, hy, rfl⟩ := List.mem_map.mp hd
        exact hmin y (List.mem_of_mem_erase (hpop ▸ h3 y hy))

/-- For every world, the squared distances of the models that the
transparent phase of `callbackDisplay` draws are in non-decreasing order. -/
theorem callbackDisplay_nearest_first (MAX_MODELS : Nat)
    (getModelConst : EntityId → Nat → Option DrawableEntity) (camPos : Vec3)
    (wEntities wWalls wSoftEntities : List EntityId) :
    (drawnSqDists camPos
      (callbackDisplay MAX_MODELS getModelConst camPos wEntities wWalls
        wSoftEntities).2.1).Pairwise (fun a b => a ≤ b) := by
  obtain ⟨ts, h1, _, h3⟩ := drawTransparent_nearest_first camPos
    (drawOpaqueEntities MAX_MODELS getModelConst wSoftEntities
      (drawOpaqueEntities MAX_MODELS getModelConst wWalls
        (drawOpaqueEntities MAX_MODELS getModelConst wEntities []).2).2).2.length
    (drawOpaqueEntities MAX_MODELS getModelConst wSoftEntities
      (drawOpaqueEntities MAX_MODELS getModelConst wWalls
        (drawOpaqueEntities MAX_MODELS getModelConst wEntities []).2).2).2
  show (drawnSqDists camPos (drawTransparent camPos _ _).1).Pairwise _
  rw [h1, drawnSqDists_map]
  exact h3


/-! ## Theorems: delete flags after a pass, outer loops -/

/-- C2, at a concrete input: entities 1, 2, 3 and walls 10, 11 of which 2 and
10 flag themselves when they collide. -/
theorem survivors_checked_once_witness :
    (scenarioWorld.list Registry.wEntities).Nodup ∧
    (scenarioWorld.list Registry.wWalls).Nodup ∧
    (checkCollisionsSelf (scenarioBehaviour [2, 10]) Registry.wEntities scenarioWorld).1.list
      Registry.wEntities = [1, 3] ∧
    (∀ x y, x ∈ (checkCollisionsSelf (scenarioBehaviour [2, 10]) Registry.wEntities
        scenarioWorld).1.list Registry.wEntities →
      y ∈ (checkCollisionsSelf (scenarioBehaviour [2, 10]) Registry.wEntities
        scenarioWorld).1.list Registry.wEntities → x ≠ y →
      evals x y (checkCollisionsSelf (scenarioBehaviour [2, 10]) Registry.wEntities
          scenarioWorld).2 +
        evals y x (checkCollisionsSelf (scenarioBehaviour [2, 10]) Registry.wEntities
          scenarioWorld).2 = 1) ∧
    (∃ r, checkCollisions (scenarioBehaviour [2, 10]) Registry.wEntities Registry.wWalls
        scenarioWorld = Except.ok r ∧
      ∀ x y, x ∈ r.1.list Registry.wEntities → y ∈ r.1.list Registry.wWalls →
        evals x y r.2 = 1) :=
  ⟨by decide, by decide, by decide,
    survivors_checked_once Unit (scenarioBehaviour [2, 10]) Registry.wEntities
      Registry.wWalls scenarioWorld (by decide) (by decide) (by decide)⟩

/-- C6, at a concrete input: entities 1, 2, 3 of which 2 flags itself when it
collides. -/
theorem checkCollisionsSelf_pairs_witness :
    (scenarioWorld.list Registry.wEntities).Nodup ∧
    (checkCollisionsSelf (scenarioBehaviour [2]) Registry.wEntities scenarioWorld).2.length =
      12 ∧
    (∀ a, evals a a
      (checkCollisionsSelf (scenarioBehaviour [2]) Registry.wEntities scenarioWorld).2 = 0) ∧
    (∀ x y, evals x y
        (checkCollisionsSelf (scenarioBehaviour [2]) Registry.wEntities scenarioWorld).2 +
      evals y x
        (checkCollisionsSelf (scenarioBehaviour [2]) Registry.wEntities scenarioWorld).2 ≤
        1) :=
  ⟨by decide, by decide,
    (checkCollisionsSelf_pairs Unit (scenarioBehaviour [2]) Registry.wEntities scenarioWorld
      (by decide)).2⟩

/-- C7, at a concrete input: the grenade 1 at position (5, 6, 7) and the
wall 10. -/
theorem grenade_wall_collision_witness :
    ∃ r : World Unit × Trace,
      checkCollisions grenadeBehaviour Registry.wEntities Registry.wWalls grenadeWorld =
        Except.ok r ∧
      r.1.wEntities = [] ∧
      r.1.wWalls = [10] ∧
      r.1.wSoftEntities = [] ++ [100] ∧
      r.1.wSoftEntities.length = 0 + 1 ∧
      (grenadeBehaviour.onCollide 1 10 grenadeWorld).translate 100 = ⟨5, 6, 7⟩ ∧
      r.2 = [Event.didCollide 1 10 true, Event.onCollide 1 10, Event.onCollide 10 1,
        Event.toDelete 1 true, Event.toDelete 10 false, Event.delete 1, Event.erase 1] :=
  grenade_wall_collision Unit grenadeBehaviour grenadeWorld 1 10 (by decide) rfl rfl rfl rfl
    (fun _ _ => rfl) (fun _ => rfl) (fun _ => rfl) (fun _ => rfl) (fun _ => rfl)


/-- C4, at a concrete input: entities 1, 2, 3 of which 2 flags itself in its
`update()`: 2 is removed, and no `update()` follows an erase of the same
entity. -/
theorem updateEntities_contract_witness :
    (scenarioWorld.list Registry.wEntities).Nodup ∧
    (updateEntities (scenarioBehaviour [2]) Registry.wEntities scenarioWorld).1.list
      Registry.wEntities = [1, 3] ∧
    (∀ t1 t2 e,
      (updateEntities (scenarioBehaviour [2]) Registry.wEntities scenarioWorld).2 =
        t1 ++ Event.erase e :: t2 → Event.update e ∉ t2) :=
  ⟨by decide, by decide,
    (updateEntities_contract Unit (scenarioBehaviour [2]) Registry.wEntities
      scenarioWorld).2.2.2.2.2.2.2 (by decide)⟩

theorem scenarioBehaviour_update_inputs (fragile : List EntityId) (e : EntityId)
    (v : World Unit) : tickInputs ((scenarioBehaviour fragile).update e v) = tickInputs v := by
  simp only [scenarioBehaviour]
  split <;> rfl

theorem scenarioBehaviour_onCollide_inputs (fragile : List EntityId) (a b : EntityId)
    (v : World Unit) :
    tickInputs ((scenarioBehaviour fragile).onCollide a b v) = tickInputs v := by
  simp only [scenarioBehaviour]
  split <;> rfl

/-- C10, at a concrete input: a tick on entities 1, 2, 3 and walls 10, 11
with the left edge flag pending, where 2 flags itself in `update()` and in
collisions: the cross pass that runs last hands the scene update a world
with frame counter 1 and the left edge flag still set. -/
theorem animate_order_witness :
    ∃ c4 : World Unit × Trace,
      (∃ t, animate (scenarioBehaviour [2]) scenarioWorld =
        Except.ok
          ({ ((scenarioBehaviour [2]).levelEnd
                ((scenarioBehaviour [2]).sceneUpdate c4.1)).2 with
              MOUSE_EDGE_LEFT := false, MOUSE_EDGE_RIGHT := false }, t)) ∧
      tickInputs c4.1 = (1, true, false) := by
  obtain ⟨_, _, c4, _, _, _, ha, _, _, hf⟩ :=
    animate_order Unit (scenarioBehaviour [2]) scenarioWorld
  exact ⟨c4, ⟨_, ha⟩,
    hf (scenarioBehaviour_update_inputs [2]) (scenarioBehaviour_onCollide_inputs [2])
      (fun _ _ => rfl)⟩


/-! ## Theorems: the depth comparator -/

theorem sqDist_nonneg (c : Vec3) (a : DrawableEntity) : 0 ≤ sqDist c a := by
  simp only [sqDist, dot]
  exact add_nonneg (add_nonneg (mul_self_nonneg _) (mul_self_nonneg _)) (mul_self_nonneg _)

/-- C13: with exact coordinates, `DepthComparator(a, b)` is true if and only
if the squared distance of `a` from the camera is strictly greater than that
of `b`, which holds if and only if the Euclidean distance (the square root)
of `a` is strictly greater than that of `b`; the comparator is irreflexive
and transitive. The squared distance is the sum of the squares of the
coordinate differences. -/
theorem DepthComparator_order (c : Vec3) (a b : DrawableEntity) :
    sqDist c a = (c.x - a.translate.x) ^ 2 + (c.y - a.translate.y) ^ 2 +
      (c.z - a.translate.z) ^ 2 ∧
    (DepthComparator c a b = true ↔ sqDist c a > sqDist c b) ∧
    (sqDist c a > sqDist c b ↔
      Real.sqrt ((sqDist c a : Int) : Real) > Real.sqrt ((sqDist c b : Int) : Real)) ∧
    DepthComparator c a a = false ∧
    (∀ m, DepthComparator c a b = true → DepthComparator c b m = true →
      DepthComparator c a m = true) := by
  refine ⟨?_, ?_, ?_, ?_, ?_⟩
  · simp only [sqDist, dot, Vec3.sub]
    ring
  · simp [DepthComparator, sqDist]
  · have hb : (0 : Real) ≤ ((sqDist c b : Int) : Real) := by
      exact_mod_cast sqDist_nonneg c b
    rw [gt_iff_lt, gt_iff_lt, Real.sqrt_lt_sqrt_iff hb]
    exact Int.cast_lt.symm
  · simp [DepthComparator]
  · intro m h1 h2
    simp only [DepthComparator, decide_eq_true_eq] at h1 h2 ⊢
    omega

/-! ## Theorems: the input callbacks -/

/-- C17: `callbackMouse` for the left button sets `MOUSE_LEFT` to
`state == GLUT_DOWN` and `MOUSE_EDGE_LEFT` to true exactly when the event is
a press and `MOUSE_LEFT` was false before, and leaves the two right flags as
they are; symmetrically for the right button; any other button leaves the
world as it is. So a release, and a press while the button is latched down,
leave the edge flag false. -/
theorem callbackMouse_flags (H : Type) (button state x y : Int) (w : World H) :
    (button = GLUT_LEFT_BUTTON →
      (callbackMouse button state x y w).MOUSE_LEFT = decide (state = GLUT_DOWN) ∧
      ((callbackMouse button state x y w).MOUSE_EDGE_LEFT = true ↔
        state = GLUT_DOWN ∧ w.MOUSE_LEFT = false) ∧
      (callbackMouse button state x y w).MOUSE_RIGHT = w.MOUSE_RIGHT ∧
      (callbackMouse button state x y w).MOUSE_EDGE_RIGHT = w.MOUSE_EDGE_RIGHT ∧
      (state ≠ GLUT_DOWN → (callbackMouse button state x y w).MOUSE_EDGE_LEFT = false) ∧
      (w.MOUSE_LEFT = true → (callbackMouse button state x y w).MOUSE_EDGE_LEFT = false)) ∧
    (button = GLUT_RIGHT_BUTTON →
      (callbackMouse button state x y w).MOUSE_RIGHT = decide (state = GLUT_DOWN) ∧
      ((callbackMouse button state x y w).MOUSE_EDGE_RIGHT = true ↔
        state = GLUT_DOWN ∧ w.MOUSE_RIGHT = false) ∧
      (callbackMouse button state x y w).MOUSE_LEFT = w.MOUSE_LEFT ∧
      (callbackMouse button state x y w).MOUSE_EDGE_LEFT = w.MOUSE_EDGE_LEFT ∧
      (state ≠ GLUT_DOWN → (callbackMouse button state x y w).MOUSE_EDGE_RIGHT = false) ∧
      (w.MOUSE_RIGHT = true → (callbackMouse button state x y w).MOUSE_EDGE_RIGHT = false)) ∧
    (button ≠ GLUT_LEFT_BUTTON → button ≠ GLUT_RIGHT_BUTTON →
      callbackMouse button state x y w = w) := by
  refine ⟨?_, ?_, ?_⟩
  · intro hb
    subst hb
    by_cases hs : state = GLUT_DOWN <;> cases hl : w.MOUSE_LEFT <;>
      simp [callbackMouse, hs, hl]
  · intro hb
    subst hb
    have hne : GLUT_RIGHT_BUTTON ≠ GLUT_LEFT_BUTTON := by decide
    by_cases hs : state = GLUT_DOWN <;> cases hl : w.MOUSE_RIGHT <;>
      simp [callbackMouse, hs, hl, hne]
  · intro h1 h2
    simp [callbackMouse, h1, h2]


theorem setKey_table {H : Type} (vf : World H → World H) (val : Bool) (w : World H)
    (p : Nat × Key) (hp : p ∈ keyTable) :
    (setKey vf p.1 val w).latch p.2 = val ∧
    (∀ k, k ≠ p.2 → (setKey vf p.1 val w).latch k = w.latch k) ∧
    mouseFlags (setKey vf p.1 val w) = mouseFlags w := by
  simp only [keyTable, List.mem_cons, List.mem_singleton, List.not_mem_nil, or_false] at hp
  rcases hp with rfl | rfl | rfl | rfl | rfl | rfl | rfl | rfl | rfl | rfl | rfl | rfl | rfl <;>
    refine ⟨by simp [setKey, World.latch], ?_, by simp [setKey, mouseFlags]⟩ <;>
    intro k hk <;> cases k <;> simp [setKey, World.latch] at hk ⊢

theorem keyTable_ne_esc (p : Nat × Key) (hp : p ∈ keyTable) : p.1 ≠ 27 := by
  revert p
  decide

theorem setKey_other {H : Type} (vf : World H → World H) (val : Bool) (w : World H)
    (key : Nat) (hk : key ∉ keyTable.map Prod.fst) :
    setKey vf key val w = if key = ';'.toNat then vf w else w := by
  simp [keyTable] at hk
  simp [setKey, hk]

/-- C19: for each of the letters a, w, s, d, q, e in either case and for the
space, `callbackKeyboard` returns with exactly that key's latch set to true
and `callbackKeyboardUp` sets exactly that latch to false, every other latch
unchanged; a press in one case followed by a release in the other case
leaves the latch false; `callbackKeyboardUp` with any other key than `;`, and
`callbackKeyboard` with any other key than `;` and ESC, leave the world as it
is; `;` calls `viewFullscreen` and ESC ends the process, so that a key outside
the set changes no latch when `viewFullscreen` changes none. -/
theorem key_latches (H : Type) (viewFullscreen : World H → World H) (x y : Int)
    (w : World H) :
    (∀ p ∈ keyTable,
      ∃ w2, callbackKeyboard viewFullscreen p.1 x y w = some w2 ∧
        w2.latch p.2 = true ∧ ∀ k, k ≠ p.2 → w2.latch k = w.latch k) ∧
    (∀ p ∈ keyTable,
      (callbackKeyboardUp viewFullscreen p.1 x y w).latch p.2 = false ∧
      ∀ k, k ≠ p.2 → (callbackKeyboardUp viewFullscreen p.1 x y w).latch k = w.latch k) ∧
    (∀ p ∈ keyTable, ∀ q ∈ keyTable, p.2 = q.2 →
      ∃ w2, callbackKeyboard viewFullscreen p.1 x y w = some w2 ∧
        (callbackKeyboardUp viewFullscreen q.1 x y w2).latch p.2 = false) ∧
    (∀ key, key ∉ keyTable.map Prod.fst → key ≠ ';'.toNat →
      callbackKeyboardUp viewFullscreen key x y w = w ∧
      (key ≠ 27 → callbackKeyboard viewFullscreen key x y w = some w)) ∧
    callbackKeyboardUp viewFullscreen ';'.toNat x y w = viewFullscreen w ∧
    callbackKeyboard viewFullscreen ';'.toNat x y w = some (viewFullscreen w) ∧
    callbackKeyboard viewFullscreen 27 x y w = none ∧
    ((∀ v k, (viewFullscreen v).latch k = v.latch k) →
      ∀ key, key ∉ keyTable.map Prod.fst → ∀ k,
        (callbackKeyboardUp viewFullscreen key x y w).latch k = w.latch k ∧
        (key ≠ 27 → ∃ w2, callbackKeyboard viewFullscreen key x y w = some w2 ∧
          w2.latch k = w.latch k)) := by
  have hkb : ∀ key v, key ≠ 27 →
      callbackKeyboard viewFullscreen key x y v = some (setKey viewFullscreen key true v) := by
    intro key v h
    simp only [callbackKeyboard, h, if_false]
  refine ⟨?_, ?_, ?_, ?_, ?_, ?_, ?_, ?_⟩
  · intro p hp
    obtain ⟨h1, h2, _⟩ := setKey_table viewFullscreen true w p hp
    exact ⟨_, hkb p.1 w (keyTable_ne_esc p hp), h1, h2⟩
  · intro p hp
    obtain ⟨h1, h2, _⟩ := setKey_table viewFullscreen false w p hp
    exact ⟨h1, h2⟩
  · intro p hp q hq hpq
    refine ⟨_, hkb p.1 w (keyTable_ne_esc p hp), ?_⟩
    rw [hpq]
    exact (setKey_table viewFullscreen false _ q hq).1
  · intro key hk hs
    have h := setKey_other viewFullscreen
    refine ⟨?_, ?_⟩
    · show setKey viewFullscreen key false w = w
      rw [h false w key hk, if_neg hs]
    · intro hesc
      rw [hkb key w hesc, h true w key hk, if_neg hs]
  · show setKey viewFullscreen ';'.toNat false w = viewFullscreen w
    rw [setKey_other viewFullscreen false w ';'.toNat (by decide), if_pos rfl]
  · rw [hkb ';'.toNat w (by decide),
      setKey_other viewFullscreen true w ';'.toNat (by decide), if_pos rfl]
  · rfl
  · intro hvf key hk k
    have hset : ∀ val, (setKey viewFullscreen key val w).latch k = w.latch k := by
      intro val
      rw [setKey_other viewFullscreen val w key hk]
      split
      · exact hvf w k
      · rfl
    exact ⟨hset false, fun hesc => ⟨_, hkb key w hesc, hset true⟩⟩

/-! ## Theorems: the assertion in the tick -/

/-- C18: `animate()` never aborts: it returns for every world and every
behaviour, because each of its three `checkCollisions` calls receives two
different registries, and such a call returns on every world. -/
theorem animate_never_aborts (H : Type) (B : Behaviour H) (w : World H) :
    (∃ r, animate B w = Except.ok r) ∧
    (∀ a, animate B w ≠ Except.error a) ∧
    (∀ v, ∃ r, checkCollisions B Registry.wEntities Registry.wWalls v = Except.ok r) ∧
    (∀ v, ∃ r, checkCollisions B Registry.wEntities Registry.wSoftEntities v = Except.ok r) ∧
    (∀ v, ∃ r, checkCollisions B Registry.wWalls Registry.wSoftEntities v = Except.ok r) ∧
    Registry.wEntities ≠ Registry.wWalls ∧ Registry.wEntities ≠ Registry.wSoftEntities ∧
    Registry.wWalls ≠ Registry.wSoftEntities := by
  have h2 := checkCollisions_ok B Registry.wEntities Registry.wWalls (by decide)
  have h3 := checkCollisions_ok B Registry.wEntities Registry.wSoftEntities (by decide)
  have h4 := checkCollisions_ok B Registry.wWalls Registry.wSoftEntities (by decide)
  have hok : ∃ r, animate B w = Except.ok r := by
    simp only [animate, bind, Except.bind, h2, h3, h4, pure, Except.pure]
    exact ⟨_, rfl⟩
  refine ⟨hok, ?_, fun v => ⟨_, h2 v⟩, fun v => ⟨_, h3 v⟩, fun v => ⟨_, h4 v⟩,
    by decide, by decide, by decide⟩
  intro a ha
  obtain ⟨r, hr⟩ := hok
  rw [hr] at ha
  cases ha


/-! ## Theorems: termination and the number of checks -/

theorem evalCount_append (t1 t2 : Trace) :
    evalCount (t1 ++ t2) = evalCount t1 + evalCount t2 := by
  simp [evalCount]

theorem eraseCount_append (t1 t2 : Trace) :
    eraseCount (t1 ++ t2) = eraseCount t1 + eraseCount t2 := by
  simp [eraseCount]

theorem evalCount_collisionEvents (x y : EntityId) (dI dJ : Bool) :
    evalCount (collisionEvents x y dI dJ) = 1 := by
  cases dJ <;> simp [evalCount, collisionEvents, List.countP_cons, Event.isDidCollide]

theorem eraseCount_collisionEvents (x y : EntityId) (dI dJ : Bool) :
    eraseCount (collisionEvents x y dI dJ) = if dJ = true then 1 else 0 := by
  cases dJ <;> simp [eraseCount, collisionEvents, List.countP_cons, Event.isErase]

theorem evalCount_miss (x y : EntityId) : evalCount [Event.didCollide x y false] = 1 := rfl

theorem eraseCount_miss (x y : EntityId) : eraseCount [Event.didCollide x y false] = 0 := rfl

theorem evalCount_tail (x : EntityId) : evalCount [Event.delete x, Event.erase x] = 0 := rfl

theorem eraseCount_tail (x : EntityId) : eraseCount [Event.delete x, Event.erase x] = 1 := rfl

/-- The inner loop evaluates `didCollide` at most once per element of the
range from `j` on; it is left by `goto NEXT_I` only right after the erase of
`*i`; and every `erase` shortens the registry by one. -/
theorem loopJ_counts {H : Type} (B : Behaviour H) (x : EntityId) (mid rest : List EntityId)
    (w : World H) :
    evalCount (loopJ B x mid rest w).log ≤ rest.length ∧
    ((loopJ B x mid rest w).exit = Exit.restart →
      ∃ t, (loopJ B x mid rest w).log = t ++ [Event.delete x, Event.erase x]) ∧
    (loopJ B x mid rest w).list.length + eraseCount (loopJ B x mid rest w).log =
      mid.length + rest.length +
        (if (loopJ B x mid rest w).exit = Exit.restart then 1 else 0) := by
  refine loopJ_induction B x
    (fun mid rest _ r =>
      evalCount r.log ≤ rest.length ∧
      (r.exit = Exit.restart → ∃ t, r.log = t ++ [Event.delete x, Event.erase x]) ∧
      r.list.length + eraseCount r.log =
        mid.length + rest.length + (if r.exit = Exit.restart then 1 else 0))
    ?_ ?_ ?_ ?_ ?_ mid rest w
  · intro mid w
    refine ⟨Nat.le_refl _, ?_, ?_⟩
    · intro h
      simp at h
    · simp [eraseCount]
  · rintro mid y rest w r _ ⟨h1, h2, h3⟩
    simp only [List.length_append, List.length_cons, List.length_nil] at h3
    refine ⟨?_, ?_, ?_⟩
    · show evalCount ([Event.didCollide x y false] ++ r.log) ≤ (y :: rest).length
      rw [evalCount_append, evalCount_miss, List.length_cons]
      omega
    · intro he
      obtain ⟨t, ht⟩ := h2 he
      exact ⟨Event.didCollide x y false :: t, by simp [Inner.after, ht]⟩
    · show r.list.length + eraseCount ([Event.didCollide x y false] ++ r.log) =
        mid.length + (y :: rest).length + (if r.exit = Exit.restart then 1 else 0)
      rw [eraseCount_append, eraseCount_miss, List.length_cons]
      omega
  · intro mid y rest w _ _
    refine ⟨?_, fun _ => ⟨_, rfl⟩, ?_⟩
    · show evalCount (collisionEvents x y true _ ++ [Event.delete x, Event.erase x]) ≤
        (y :: rest).length
      rw [evalCount_append, evalCount_collisionEvents, evalCount_tail, List.length_cons]
      omega
    · show (mid ++ _).length +
          eraseCount (collisionEvents x y true _ ++ [Event.delete x, Event.erase x]) =
        mid.length + (y :: rest).length + (if Exit.restart = Exit.restart then 1 else 0)
      rw [eraseCount_append, eraseCount_collisionEvents, eraseCount_tail, List.length_append,
        List.length_cons, if_pos rfl]
      by_cases hj : toDelete y (B.onCollide y x (B.onCollide x y w)) = true
      · simp only [hj, if_true]
        omega
      · simp only [hj, Bool.false_eq_true, if_false, List.length_cons]
  · rintro mid y rest w r _ _ _ ⟨h1, h2, h3⟩
    refine ⟨?_, ?_, ?_⟩
    · show evalCount (collisionEvents x y false true ++ r.log) ≤ (y :: rest).length
      rw [evalCount_append, evalCount_collisionEvents, List.length_cons]
      omega
    · intro he
      obtain ⟨t, ht⟩ := h2 he
      exact ⟨collisionEvents x y false true ++ t, by simp [Inner.after, ht]⟩
    · show r.list.length + eraseCount (collisionEvents x y false true ++ r.log) =
        mid.length + (y :: rest).length + (if r.exit = Exit.restart then 1 else 0)
      rw [eraseCount_append, eraseCount_collisionEvents, List.length_cons, if_pos rfl]
      omega
  · rintro mid y rest w r _ _ _ ⟨h1, h2, h3⟩
    simp only [List.length_append, List.length_cons, List.length_nil] at h3
    refine ⟨?_, ?_, ?_⟩
    · show evalCount (collisionEvents x y false false ++ r.log) ≤ (y :: rest).length
      rw [evalCount_append, evalCount_collisionEvents, List.length_cons]
      omega
    · intro he
      obtain ⟨t, ht⟩ := h2 he
      exact ⟨collisionEvents x y false false ++ t, by simp [Inner.after, ht]⟩
    · show r.list.length + eraseCount (collisionEvents x y false false ++ r.log) =
        mid.length + (y :: rest).length + (if r.exit = Exit.restart then 1 else 0)
      rw [eraseCount_append, eraseCount_collisionEvents, List.length_cons,
        if_neg Bool.false_ne_true]
      omega

theorem pairs_step (m n : Nat) (h : m ≤ n) : 2 * n + m * (m - 1) ≤ (n + 1) * (n + 1 - 1) := by
  have h1 : m * (m - 1) ≤ n * (n - 1) := Nat.mul_le_mul h (Nat.sub_le_sub_right h 1)
  have h2 : (n + 1) * (n + 1 - 1) = n * (n - 1) + 2 * n := by
    cases n with
    | zero => rfl
    | succ k =>
      simp only [Nat.add_sub_cancel]
      ring
  omega

/-- The self pass evaluates `didCollide` at most once per pair of the initial
registry, and what it erases is what the registry loses. -/
theorem selfLoopI_counts {H : Type} (B : Behaviour H) (fuel : Nat) (l : List EntityId)
    (w : World H) (hfuel : l.length ≤ fuel) :
    2 * evalCount (selfLoopI B fuel l w).log ≤ l.length * (l.length - 1) ∧
    (selfLoopI B fuel l w).list.length + eraseCount (selfLoopI B fuel l w).log = l.length := by
  induction fuel generalizing l w with
  | zero =>
    have hl : l = [] := List.length_eq_zero.mp (Nat.le_zero.mp hfuel)
    subst hl
    rw [selfLoopI_zero]
    exact ⟨Nat.le_refl _, rfl⟩
  | succ n ih =>
    cases l with
    | nil =>
      rw [selfLoopI_nil]
      exact ⟨Nat.le_refl _, rfl⟩
    | cons x tl =>
      obtain ⟨j1, _, j3⟩ := loopJ_counts B x [] tl w
      have hsub := (loopJ_list_sublist B x tl w).length_le
      simp only [List.length_cons] at hfuel
      obtain ⟨i1, i2⟩ := ih (loopJ B x [] tl w).list (loopJ B x [] tl w).world (by omega)
      have hp := pairs_step _ _ hsub
      simp only [List.length_nil, Nat.zero_add] at j3
      rcases Exit.next_or_restart (loopJ B x [] tl w).exit with he | he
      · rw [selfLoopI_next B n x tl w he]
        simp [he] at j3
        refine ⟨?_, ?_⟩
        · show 2 * evalCount (_ ++ _) ≤ (x :: tl).length * ((x :: tl).length - 1)
          rw [evalCount_append, List.length_cons]
          omega
        · show (x :: _).length + eraseCount (_ ++ _) = (x :: tl).length
          rw [eraseCount_append, List.length_cons, List.length_cons]
          omega
      · rw [selfLoopI_restart B n x tl w he]
        simp [he] at j3
        refine ⟨?_, ?_⟩
        · show 2 * evalCount (_ ++ _) ≤ (x :: tl).length * ((x :: tl).length - 1)
          rw [evalCount_append, List.length_cons]
          omega
        · show (selfLoopI B n _ _).list.length + eraseCount (_ ++ _) = (x :: tl).length
          rw [eraseCount_append, List.length_cons]
          omega

/-- The cross pass evaluates `didCollide` at most once per pair of the two
initial registries, and what it erases is what the registries lose. -/
theorem crossLoopI_counts {H : Type} (B : Behaviour H) (la lb : List EntityId)
    (w : World H) :
    evalCount (crossLoopI B la lb w).log ≤ la.length * lb.length ∧
    (crossLoopI B la lb w).listA.length + (crossLoopI B la lb w).listB.length +
      eraseCount (crossLoopI B la lb w).log = la.length + lb.length := by
  induction la generalizing lb w with
  | nil => simp [crossLoopI, evalCount, eraseCount]
  | cons x ta ih =>
    obtain ⟨j1, _, j3⟩ := loopJ_counts B x [] lb w
    have hsub := (loopJ_list_sublist B x lb w).length_le
    obtain ⟨i1, i2⟩ := ih (loopJ B x [] lb w).list (loopJ B x [] lb w).world
    have hm : ta.length * (loopJ B x [] lb w).list.length ≤ ta.length * lb.length :=
      Nat.mul_le_mul_left _ hsub
    have hs : (ta.length + 1) * lb.length = ta.length * lb.length + lb.length := by ring
    simp only [List.length_nil, Nat.zero_add] at j3
    rcases Exit.next_or_restart (loopJ B x [] lb w).exit with he | he
    · rw [crossLoopI_next B x ta lb w he]
      simp [he] at j3
      refine ⟨?_, ?_⟩
      · show evalCount (_ ++ _) ≤ (x :: ta).length * lb.length
        rw [evalCount_append, List.length_cons]
        omega
      · show (x :: (crossLoopI B ta _ _).listA).length + (crossLoopI B ta _ _).listB.length +
          eraseCount (_ ++ _) = (x :: ta).length + lb.length
        rw [eraseCount_append, List.length_cons, List.length_cons]
        omega
    · rw [crossLoopI_restart B x ta lb w he]
      simp [he] at j3
      refine ⟨?_, ?_⟩
      · show evalCount (_ ++ _) ≤ (x :: ta).length * lb.length
        rw [evalCount_append, List.length_cons]
        omega
      · show (crossLoopI B ta _ _).listA.length + (crossLoopI B ta _ _).listB.length +
          eraseCount (_ ++ _) = (x :: ta).length + lb.length
        rw [eraseCount_append, List.length_cons]
        omega

/-- C14: the collision passes terminate and check each pair at most once.
With any amount of fuel from the length of the registry on, the outer loop of
the self pass gives the result of `checkCollisionsSelf`; the cross pass is a
recursion over `listA` and returns for two different registries. The inner
loop evaluates `didCollide` at most once per element from `j` on and is left
by `goto NEXT_I` only right after the erase of `*i`; the self pass evaluates
`didCollide` at most `n (n - 1) / 2` times on a registry of `n` entities, the
cross pass at most `|listA| * |listB|` times; and every `erase` shortens a
registry by one. -/
theorem passes_terminate (H : Type) (B : Behaviour H) (listA listB : Registry)
    (w : World H) :
    (∀ fuel, (w.list listA).length ≤ fuel →
      ((selfLoopI B fuel (w.list listA) w).world.setList listA
          (selfLoopI B fuel (w.list listA) w).list,
        (selfLoopI B fuel (w.list listA) w).log) = checkCollisionsSelf B listA w) ∧
    (∀ x mid rest v, evalCount (loopJ B x mid rest v).log ≤ rest.length ∧
      ((loopJ B x mid rest v).exit = Exit.restart →
        ∃ t, (loopJ B x mid rest v).log = t ++ [Event.delete x, Event.erase x])) ∧
    evalCount (checkCollisionsSelf B listA w).2 ≤
      (w.list listA).length * ((w.list listA).length - 1) / 2 ∧
    ((checkCollisionsSelf B listA w).1.list listA).length +
      eraseCount (checkCollisionsSelf B listA w).2 = (w.list listA).length ∧
    (listA ≠ listB →
      ∃ r, checkCollisions B listA listB w = Except.ok r ∧
        evalCount r.2 ≤ (w.list listA).length * (w.list listB).length ∧
        (r.1.list listA).length + (r.1.list listB).length + eraseCount r.2 =
          (w.list listA).length + (w.list listB).length) := by
  refine ⟨?_, ?_, ?_, ?_, ?_⟩
  · intro fuel hf
    simp only [checkCollisionsSelf, selfLoopI_fuel B fuel _ _ w hf (le_refl _)]
  · intro x mid rest v
    obtain ⟨h1, h2, _⟩ := loopJ_counts B x mid rest v
    exact ⟨h1, h2⟩
  · obtain ⟨h1, _⟩ := selfLoopI_counts B _ (w.list listA) w (le_refl _)
    show evalCount (selfLoopI B _ (w.list listA) w).log ≤ _
    omega
  · obtain ⟨_, h2⟩ := selfLoopI_counts B _ (w.list listA) w (le_refl _)
    simp only [checkCollisionsSelf, World.list_setList]
    exact h2
  · intro hne
    obtain ⟨h1, h2⟩ := crossLoopI_counts B (w.list listA) (w.list listB) w
    refine ⟨_, checkCollisions_ok B listA listB hne w, h1, ?_⟩
    rw [World.list_setList_of_ne _ _ _ _ hne, World.list_setList, World.list_setList]
    exact h2


/-! ## Theorems: the passes only remove -/

theorem CollisionLog.flag_reads {t : Trace} (h : CollisionLog t) :
    FlagReadsFollowCollisions t := by
  induction h with
  | nil =>
    intro t1 t2 e d ht
    simp at ht
  | miss x y t _ ih =>
    intro t1 t2 e d ht
    cases t1 with
    | nil => simp at ht
    | cons e1 t1 =>
      simp only [List.cons_append, List.cons.injEq] at ht
      rcases ih t1 t2 e d ht.2 with ⟨t0, b, h0⟩ | ⟨t0, a, dI, h0⟩
      · exact Or.inl ⟨e1 :: t0, b, by rw [h0]; rfl⟩
      · exact Or.inr ⟨e1 :: t0, a, dI, by rw [h0]; rfl⟩
  | delete x t _ ih =>
    intro t1 t2 e d ht
    cases t1 with
    | nil => simp at ht
    | cons e1 t1 =>
      simp only [List.cons_append, List.cons.injEq] at ht
      rcases ih t1 t2 e d ht.2 with ⟨t0, b, h0⟩ | ⟨t0, a, dI, h0⟩
      · exact Or.inl ⟨e1 :: t0, b, by rw [h0]; rfl⟩
      · exact Or.inr ⟨e1 :: t0, a, dI, by rw [h0]; rfl⟩
  | erase x t _ ih =>
    intro t1 t2 e d ht
    cases t1 with
    | nil => simp at ht
    | cons e1 t1 =>
      simp only [List.cons_append, List.cons.injEq] at ht
      rcases ih t1 t2 e d ht.2 with ⟨t0, b, h0⟩ | ⟨t0, a, dI, h0⟩
      · exact Or.inl ⟨e1 :: t0, b, by rw [h0]; rfl⟩
      · exact Or.inr ⟨e1 :: t0, a, dI, by rw [h0]; rfl⟩
  | hit x y dI dJ t _ ih =>
    intro t1 t2 e d ht
    cases t1 with
    | nil => simp at ht
    | cons e1 t1 =>
      cases t1 with
      | nil => simp at ht
      | cons e2 t1 =>
        cases t1 with
        | nil => simp at ht
        | cons e3 t1 =>
          cases t1 with
          | nil =>
            simp only [List.cons_append, List.nil_append, List.cons.injEq,
              Event.toDelete.injEq] at ht
            obtain ⟨h1, h2, h3, ⟨h4, _⟩, _⟩ := ht
            subst h1 h2 h3 h4
            exact Or.inl ⟨[], y, rfl⟩
          | cons e4 t1 =>
            cases t1 with
            | nil =>
              simp only [List.cons_append, List.nil_append, List.cons.injEq,
                Event.toDelete.injEq] at ht
              obtain ⟨h1, h2, h3, h4, ⟨h5, _⟩, _⟩ := ht
              subst h1 h2 h3 h4 h5
              exact Or.inr ⟨[], x, dI, rfl⟩
            | cons e5 t1 =>
              simp only [List.cons_append, List.cons.injEq] at ht
              rcases ih t1 t2 e d ht.2.2.2.2.2 with ⟨t0, b, h0⟩ | ⟨t0, a, dI2, h0⟩
              · exact Or.inl ⟨e1 :: e2 :: e3 :: e4 :: e5 :: t0, b, by rw [h0]; rfl⟩
              · exact Or.inr ⟨e1 :: e2 :: e3 :: e4 :: e5 :: t0, a, dI2, by rw [h0]; rfl⟩

theorem CollisionLog.took_part {t : Trace} (h : CollisionLog t) (e : EntityId) (d : Bool)
    (hm : Event.toDelete e d ∈ t) :
    ∃ b, Event.didCollide e b true ∈ t ∨ Event.didCollide b e true ∈ t := by
  obtain ⟨t1, t2, ht⟩ := List.append_of_mem hm
  rcases h.flag_reads t1 t2 e d ht with ⟨t0, b, h0⟩ | ⟨t0, a, dI, h0⟩
  · exact ⟨b, Or.inl (by rw [ht, h0]; simp)⟩
  · exact ⟨a, Or.inr (by rw [ht, h0]; simp)⟩

theorem mem_collisionEvents_first (x y : EntityId) (dI dJ : Bool) :
    Event.toDelete x dI ∈ collisionEvents x y dI dJ := by
  simp [collisionEvents]

theorem mem_collisionEvents_second (x y : EntityId) (dI dJ : Bool) :
    Event.toDelete y dJ ∈ collisionEvents x y dI dJ := by
  simp [collisionEvents]

/-- What the inner loop takes out of the range had its flag read true, and so
had `*i` when the loop is left by `goto NEXT_I`. -/
theorem loopJ_removed {H : Type} (B : Behaviour H) (x : EntityId) (mid rest : List EntityId)
    (w : World H) :
    (∀ e, e ∈ mid ++ rest → e ∉ (loopJ B x mid rest w).list →
      Event.toDelete e true ∈ (loopJ B x mid rest w).log) ∧
    ((loopJ B x mid rest w).exit = Exit.restart →
      Event.toDelete x true ∈ (loopJ B x mid rest w).log) := by
  refine loopJ_induction B x
    (fun mid rest _ r =>
      (∀ e, e ∈ mid ++ rest → e ∉ r.list → Event.toDelete e true ∈ r.log) ∧
      (r.exit = Exit.restart → Event.toDelete x true ∈ r.log))
    ?_ ?_ ?_ ?_ ?_ mid rest w
  · intro mid w
    refine ⟨?_, ?_⟩
    · intro e he hn
      simp only [List.append_nil] at he
      exact absurd he hn
    · intro h
      simp at h
  · rintro mid y rest w r _ ⟨h1, h2⟩
    refine ⟨?_, ?_⟩
    · intro e he hn
      exact List.mem_cons_of_mem _ (h1 e (by simpa using he) hn)
    · intro h
      exact List.mem_cons_of_mem _ (h2 h)
  · intro mid y rest w _ hi
    refine ⟨?_, ?_⟩
    · intro e he hn
      by_cases hj : toDelete y (B.onCollide y x (B.onCollide x y w)) = true
      · simp only [hj, if_true, List.mem_append, not_or] at hn
        simp only [List.mem_append, List.mem_cons] at he
        have hey : e = y := by tauto
        subst hey
        rw [hj]
        exact List.mem_append_left _ (mem_collisionEvents_second x e true true)
      · simp only [hj, Bool.false_eq_true, if_false] at hn
        exact absurd he hn
    · intro _
      exact List.mem_append_left _ (mem_collisionEvents_first x y true _)
  · rintro mid y rest w r _ _ _ ⟨h1, h2⟩
    refine ⟨?_, ?_⟩
    · intro e he hn
      by_cases hey : e = y
      · subst hey
        exact List.mem_append_left _ (mem_collisionEvents_second x e false true)
      · refine List.mem_append_right _ (h1 e ?_ hn)
        simp only [List.mem_append, List.mem_cons] at he ⊢
        tauto
    · intro h
      exact List.mem_append_right _ (h2 h)
  · rintro mid y rest w r _ _ _ ⟨h1, h2⟩
    refine ⟨?_, ?_⟩
    · intro e he hn
      exact List.mem_append_right _ (h1 e (by simpa using he) hn)
    · intro h
      exact List.mem_append_right _ (h2 h)

theorem crossLoopI_removed {H : Type} (B : Behaviour H) (la lb : List EntityId)
    (w : World H) :
    (∀ e, e ∈ la → e ∉ (crossLoopI B la lb w).listA →
      Event.toDelete e true ∈ (crossLoopI B la lb w).log) ∧
    (∀ e, e ∈ lb → e ∉ (crossLoopI B la lb w).listB →
      Event.toDelete e true ∈ (crossLoopI B la lb w).log) := by
  induction la generalizing lb w with
  | nil =>
    exact ⟨fun e he => by simp at he, fun e he hn => absurd he hn⟩
  | cons x ta ih =>
    obtain ⟨j1, j2⟩ := loopJ_removed B x [] lb w
    obtain ⟨i1, i2⟩ := ih (loopJ B x [] lb w).list (loopJ B x [] lb w).world
    have hb : ∀ e, e ∈ lb →
        e ∉ (crossLoopI B ta (loopJ B x [] lb w).list (loopJ B x [] lb w).world).listB →
        Event.toDelete e true ∈ (loopJ B x [] lb w).log ++
          (crossLoopI B ta (loopJ B x [] lb w).list (loopJ B x [] lb w).world).log := by
      intro e he hn
      by_cases h1 : e ∈ (loopJ B x [] lb w).list
      · exact List.mem_append_right _ (i2 e h1 hn)
      · exact List.mem_append_left _ (j1 e (by simpa using he) h1)
    rcases Exit.next_or_restart (loopJ B x [] lb w).exit with he | he
    · rw [crossLoopI_next B x ta lb w he]
      refine ⟨?_, hb⟩
      intro e hm hn
      simp only [List.mem_cons, not_or] at hn
      rcases List.mem_cons.mp hm with h | h
      · exact absurd h hn.1
      · exact List.mem_append_right _ (i1 e h hn.2)
    · rw [crossLoopI_restart B x ta lb w he]
      refine ⟨?_, hb⟩
      intro e hm hn
      by_cases hin : e ∈ ta
      · exact List.mem_append_right _ (i1 e hin hn)
      · rcases List.mem_cons.mp hm with h | h
        · subst h
          exact List.mem_append_left _ (j2 he)
        · exact absurd h hin

theorem onlyRemoves_of {before after : List EntityId} {t : Trace} (hlog : CollisionLog t)
    (hsub : after.Sublist before)
    (hrem : ∀ e, e ∈ before → e ∉ after → Event.toDelete e true ∈ t) :
    OnlyRemoves before after t := by
  refine ⟨hsub, hrem, ?_, ?_⟩
  · intro e he hn
    by_contra hc
    exact hn (hrem e he hc)
  · intro e he hn
    by_contra hc
    obtain ⟨b, hb⟩ := hlog.took_part e true (hrem e he hc)
    rcases hb with hb | hb
    · exact (hn b).1 hb
    · exact (hn b).2 hb

/-! ## Theorems: erased entities are not used again -/

theorem Tame.idle {H : Type} (a : EntityId) (v : World H) : Tame a v v :=
  ⟨fun _ _ h => h, fun _ => List.prefix_refl _, fun _ _ he hn => absurd he hn,
    fun h => h⟩

theorem CleanOutside.drop {H : Type} {D D2 : EntityId → Prop} {v : World H}
    (h : CleanOutside D v) (hd : ∀ e, D e → ¬ D2 e → v.deleteFlag e = false) :
    CleanOutside D2 v := by
  intro r e he hn
  by_cases hD : D e
  · exact hd e hD hn
  · exact h r e he hD

theorem CleanOutside.mono {H : Type} {D D2 : EntityId → Prop} {v : World H}
    (h : CleanOutside D v) (hd : ∀ e, D e → D2 e) : CleanOutside D2 v :=
  h.drop (fun e h1 h2 => absurd (hd e h1) h2)

theorem Tame.cleanOutside {H : Type} {a : EntityId} {v v2 : World H} (ht : Tame a v v2)
    {D : EntityId → Prop} (ha : D a) (h : CleanOutside D v) : CleanOutside D v2 := by
  intro r e he hn
  by_cases hm : e ∈ v.list r
  · exact ht.1 e (fun h2 => hn (h2 ▸ ha)) (h r e hm hn)
  · exact ht.2.2.1 r e he hm (fun h2 => hn (h2 ▸ ha))

theorem nextEntity_setList {H : Type} (w : World H) (r : Registry) (l : List EntityId) :
    (w.setList r l).nextEntity = w.nextEntity := by
  cases r <;> rfl

theorem Sound.of_sublist {H : Type} {v v2 : World H} (hs : Sound v)
    (hsub : ∀ r, (v2.list r).Sublist (v.list r)) (hn : v2.nextEntity = v.nextEntity) :
    Sound v2 :=
  ⟨⟨fun r => (hsub r).nodup (hs.1.1 r),
      fun r1 r2 h _ h1 h2 => hs.1.2 r1 r2 h ((hsub r1).subset h1) ((hsub r2).subset h2)⟩,
    fun r _ he => hn ▸ hs.2 r _ ((hsub r).subset he)⟩

/-- The method `GrenadeEntity::onCollide` is tame: it flags its own entity only
and inserts one newly allocated, unflagged entity. -/
theorem GrenadeEntity.onCollide_tame {H : Type} (self g : EntityId) (v : World H) :
    Tame self v (GrenadeEntity.onCollide self g v) := by
  refine ⟨?_, ?_, ?_, ?_⟩
  · intro e he hf
    simp [GrenadeEntity.onCollide, setDelete, addSoftEntity, setTranslate, newExplosion, he, hf]
  · intro r
    cases r
    · exact List.prefix_refl _
    · exact List.prefix_refl _
    · exact List.prefix_append _ _
  · intro r e he hn hea
    cases r
    · exact absurd he hn
    · exact absurd he hn
    · have he2 : e ∈ v.wSoftEntities ++ [v.nextEntity] := he
      have hn2 : e ∉ v.wSoftEntities := hn
      have hen : e = v.nextEntity := by
        rcases List.mem_append.mp he2 with h | h
        · exact absurd h hn2
        · simpa using h
      subst hen
      simp [GrenadeEntity.onCollide, setDelete, addSoftEntity, setTranslate, newExplosion,
        hea]
  · intro hs
    have hfresh : ∀ r, v.nextEntity ∉ v.list r := fun r h => lt_irrefl _ (hs.2 r _ h)
    refine ⟨⟨?_, ?_⟩, ?_⟩
    · intro r
      cases r
      · exact hs.1.1 Registry.wEntities
      · exact hs.1.1 Registry.wWalls
      · show (v.wSoftEntities ++ [v.nextEntity]).Nodup
        refine List.Nodup.append (hs.1.1 Registry.wSoftEntities) (List.nodup_singleton _) ?_
        intro e h1 h2
        rw [List.mem_singleton.mp h2] at h1
        exact hfresh Registry.wSoftEntities h1
    · have key : ∀ r, r ≠ Registry.wSoftEntities → ∀ e, e ∈ v.list r →
          e ∉ v.wSoftEntities ++ [v.nextEntity] := by
        intro r hr e h1 h2
        rcases List.mem_append.mp h2 with h | h
        · exact hs.1.2 r Registry.wSoftEntities hr h1 h
        · rw [List.mem_singleton.mp h] at h1
          exact hfresh r h1
      intro r1 r2 hne e h1 h2
      cases r1 <;> cases r2
      · exact hne rfl
      · exact hs.1.2 Registry.wEntities Registry.wWalls hne h1 h2
      · exact key Registry.wEntities (by decide) e h1 h2
      · exact hs.1.2 Registry.wWalls Registry.wEntities hne h1 h2
      · exact hne rfl
      · exact key Registry.wWalls (by decide) e h1 h2
      · exact key Registry.wEntities (by decide) e h2 h1
      · exact key Registry.wWalls (by decide) e h2 h1
      · exact hne rfl
    · intro r e he
      show e < v.nextEntity + 1
      cases r
      · exact Nat.lt_succ_of_lt (hs.2 Registry.wEntities e he)
      · exact Nat.lt_succ_of_lt (hs.2 Registry.wWalls e he)
      · have he2 : e ∈ v.wSoftEntities ++ [v.nextEntity] := he
        rcases List.mem_append.mp he2 with h | h
        · exact Nat.lt_succ_of_lt (hs.2 Registry.wSoftEntities e h)
        · rw [List.mem_singleton.mp h]
          exact Nat.lt_succ_self _


/-! ## Theorems: the calls of `onCollide` on one entity in a log -/

theorem CallThenErase.followedBy {g : EntityId} {t1 t2 : Trace} (h1 : CallThenErase g t1)
    (h2 : CallThenErase g t2) : CallThenErase g (t1 ++ t2) := by
  induction h1 with
  | nil => exact h2
  | other ev t hev _ ih => exact CallThenErase.other ev _ hev ih
  | call b t3 t4 hnd _ ih =>
    have : (Event.onCollide g b :: (t3 ++ Event.erase g :: t4)) ++ t2 =
        Event.onCollide g b :: (t3 ++ Event.erase g :: (t4 ++ t2)) := by simp
    rw [this]
    refine CallThenErase.call b t3 (t4 ++ t2) hnd ?_
    simpa using ih

theorem callsBy_append (g : EntityId) (t1 t2 : Trace) :
    callsBy g (t1 ++ t2) = callsBy g t1 + callsBy g t2 := by
  simp [callsBy, List.countP_append]

theorem callsBy_cons (g : EntityId) (ev : Event) (t : Trace) :
    callsBy g (ev :: t) = callsBy g t + (if ev.isCallBy g = true then 1 else 0) := by
  simp [callsBy, List.countP_cons]

theorem CallThenErase.of_no_call {g : EntityId} {t : Trace} (h : callsBy g t = 0) :
    CallThenErase g t := by
  induction t with
  | nil => exact CallThenErase.nil
  | cons ev t ih =>
    rw [callsBy_cons] at h
    have h1 : callsBy g t = 0 := by omega
    have h2 : ev.isCallBy g = false := by
      cases hc : ev.isCallBy g
      · rfl
      · rw [hc] at h; simp at h
    exact CallThenErase.other ev t h2 (ih h1)

theorem CallThenErase.erasedAtOnce {g : EntityId} {t : Trace} (h : CallThenErase g t) :
    ErasedAtOnce g t := by
  induction h with
  | nil =>
    intro t1 t2 b ht
    cases t1 <;> cases ht
  | other ev t hev _ ih =>
    intro t1 t2 b ht
    cases t1 with
    | nil =>
      simp only [List.nil_append, List.cons.injEq] at ht
      rw [ht.1] at hev
      simp [Event.isCallBy] at hev
    | cons e1 t1 =>
      simp only [List.cons_append, List.cons.injEq] at ht
      exact ih t1 t2 b ht.2
  | call b0 t3 t4 hnd _ ih =>
    intro t1 t2 b ht
    cases t1 with
    | nil =>
      simp only [List.nil_append, List.cons.injEq] at ht
      exact ⟨t3, t4, ht.2.symm, hnd⟩
    | cons e1 t1 =>
      simp only [List.cons_append, List.cons.injEq] at ht
      exact ih t1 t2 b ht.2

theorem callsBy_collisionEvents (g x y : EntityId) (dI dJ : Bool) :
    callsBy g (collisionEvents x y dI dJ) =
      (if x = g then 1 else 0) + (if y = g then 1 else 0) := by
  cases dJ <;> by_cases hx : x = g <;> by_cases hy : y = g <;>
    simp [callsBy, collisionEvents, Event.isCallBy, List.countP_cons, hx, hy]

theorem callsBy_pos_mentions {g : EntityId} {t : Trace} (h : 1 ≤ callsBy g t) :
    ∃ ev ∈ t, ev.mentions g = true := by
  have hp : 0 < t.countP (Event.isCallBy g) := h
  obtain ⟨ev, hev, hc⟩ := List.countP_pos_iff.mp hp
  refine ⟨ev, hev, ?_⟩
  cases ev <;> simp_all [Event.isCallBy, Event.mentions]

/-- The block of one collision in which the second entity is `g` and is
erased. -/
theorem callThenErase_second (g x : EntityId) (dI : Bool) (hx : x ≠ g) :
    CallThenErase g (collisionEvents x g dI true) := by
  have h1 : CallThenErase g ([Event.toDelete x dI, Event.toDelete g true, Event.delete g] ++
      Event.erase g :: []) := CallThenErase.of_no_call (by simp [callsBy, Event.isCallBy])
  have h2 := CallThenErase.call x [Event.toDelete x dI, Event.toDelete g true, Event.delete g]
    [] (by simp [Event.isDidCollide]) h1
  exact CallThenErase.other _ _ (by simp [Event.isCallBy])
    (CallThenErase.other _ _ (by simp [Event.isCallBy, hx]) h2)

/-- The block of one collision in which the first entity is `g` and is
erased. -/
theorem callThenErase_first (g y : EntityId) (dJ : Bool) (hy : y ≠ g) :
    CallThenErase g (collisionEvents g y true dJ ++ [Event.delete g, Event.erase g]) := by
  cases dJ
  · have h1 : CallThenErase g ([Event.onCollide y g, Event.toDelete g true,
        Event.toDelete y false, Event.delete g] ++ Event.erase g :: []) :=
      CallThenErase.of_no_call (by simp [callsBy, Event.isCallBy, hy])
    exact CallThenErase.other _ _ (by simp [Event.isCallBy])
      (CallThenErase.call y _ [] (by simp [Event.isDidCollide]) h1)
  · have h1 : CallThenErase g ([Event.onCollide y g, Event.toDelete g true,
        Event.toDelete y true, Event.delete y, Event.erase y, Event.delete g] ++
        Event.erase g :: []) :=
      CallThenErase.of_no_call (by simp [callsBy, Event.isCallBy, hy])
    exact CallThenErase.other _ _ (by simp [Event.isCallBy])
      (CallThenErase.call y _ [] (by simp [Event.isDidCollide]) h1)

theorem NeverInserts.unchanged {H : Type} (g : EntityId) (v : World H) : NeverInserts g v v :=
  fun h => ⟨h, fun _ => le_refl _⟩

theorem NeverInserts.trans {H : Type} {g : EntityId} {v v1 v2 : World H}
    (h1 : NeverInserts g v v1) (h2 : NeverInserts g v1 v2) : NeverInserts g v v2 := by
  intro ha
  obtain ⟨a1, c1⟩ := h1 ha
  obtain ⟨a2, c2⟩ := h2 a1
  exact ⟨a2, fun r => (c2 r).trans (c1 r)⟩

theorem occurrences_eq {H : Type} (g : EntityId) (w : World H) :
    occurrences g w = (w.list Registry.wEntities).count g + (w.list Registry.wWalls).count g +
      (w.list Registry.wSoftEntities).count g := rfl

theorem occurrences_mono {H : Type} {g : EntityId} {v u : World H}
    (h : ∀ r, (u.list r).count g ≤ (v.list r).count g) : occurrences g u ≤ occurrences g v := by
  have h1 := h Registry.wEntities
  have h2 := h Registry.wWalls
  have h3 := h Registry.wSoftEntities
  rw [occurrences_eq, occurrences_eq]
  omega

theorem count_le_occurrences {H : Type} (g : EntityId) (w : World H) (r : Registry) :
    (w.list r).count g ≤ occurrences g w := by
  rw [occurrences_eq]
  cases r <;> omega

theorem count_add_le_occurrences {H : Type} (g : EntityId) (w : World H) (ra rb : Registry)
    (h : ra ≠ rb) : (w.list ra).count g + (w.list rb).count g ≤ occurrences g w := by
  rw [occurrences_eq]
  cases ra <;> cases rb <;> first | exact absurd rfl h | omega

theorem not_mem_of_occurrences_zero {H : Type} {g : EntityId} {w : World H}
    (h : occurrences g w = 0) (r : Registry) : g ∉ w.list r := by
  have := count_le_occurrences g w r
  exact List.count_eq_zero.mp (by omega)

theorem OncePass.andThen {H : Type} {g : EntityId} {v u u2 : World H} {t1 t2 : Trace}
    (h1 : OncePass g v u t1) (h2 : OncePass g u u2 t2) : OncePass g v u2 (t1 ++ t2) := by
  obtain ⟨_, b1, c1, d1, e1, f1⟩ := h1
  obtain ⟨a2, b2, c2, d2, e2, f2⟩ := h2
  refine ⟨a2, le_trans b2 b1, ?_, d1.followedBy d2, ?_, ?_⟩
  · rw [callsBy_append]
    by_cases hc : 1 ≤ callsBy g t1
    · have := f2 (e1 hc)
      omega
    · omega
  · rw [callsBy_append]
    intro htot
    by_cases hc : 1 ≤ callsBy g t1
    · have := e1 hc
      omega
    · exact e2 (by omega)
  · intro h0
    rw [callsBy_append, f1 h0, f2 (by omega)]

/-- The method `GrenadeEntity::onCollide` inserts no allocated entity: what it inserts
is the address `new` returns. -/
theorem GrenadeEntity.onCollide_neverInserts {H : Type} (g self b : EntityId) (v : World H) :
    NeverInserts g v (GrenadeEntity.onCollide self b v) := by
  intro ha
  refine ⟨Nat.lt_succ_of_lt ha, ?_⟩
  intro r
  cases r
  · exact le_refl _
  · exact le_refl _
  · show (v.wSoftEntities ++ [v.nextEntity]).count g ≤ v.wSoftEntities.count g
    rw [List.count_append, List.count_cons_of_ne (Nat.ne_of_lt ha)]
    simp


/-! ## Theorems: positions in a registry -/

theorem getElem?_of_front {l1 l2 : List EntityId} (h : l1 <+: l2) {k : Nat} {a : EntityId}
    (hk : l1[k]? = some a) : l2[k]? = some a := by
  obtain ⟨t, rfl⟩ := h
  have hlt : k < l1.length := by
    by_contra hn
    rw [List.getElem?_eq_none (by omega)] at hk
    cases hk
  rw [List.getElem?_append_left hlt]
  exact hk

theorem mem_of_getElem? {l : List EntityId} {k : Nat} {a : EntityId} (h : l[k]? = some a) :
    a ∈ l := by
  obtain ⟨hlt, rfl⟩ := List.getElem?_eq_some_iff.mp h
  exact List.getElem_mem hlt

theorem getElem?_eraseIdx_lt (l : List EntityId) {i j : Nat} (h : i < j) :
    (l.eraseIdx j)[i]? = l[i]? := by
  induction l generalizing i j with
  | nil => simp
  | cons a l ih =>
    cases j with
    | zero => omega
    | succ j =>
      cases i with
      | zero => simp
      | succ i => simpa using ih (by omega)

theorem mem_eraseIdx_or {l : List EntityId} {e : EntityId} (k : Nat) (h : e ∈ l) :
    e ∈ l.eraseIdx k ∨ l[k]? = some e := by
  induction l generalizing k with
  | nil => cases h
  | cons a l ih =>
    cases k with
    | zero =>
      rcases List.mem_cons.mp h with h | h
      · exact Or.inr (by simp [h])
      · exact Or.inl (by simpa using h)
    | succ k =>
      rcases List.mem_cons.mp h with h | h
      · exact Or.inl (by simp [h])
      · rcases ih k h with h2 | h2
        · exact Or.inl (by simp [h2])
        · exact Or.inr (by simpa using h2)

theorem not_mem_eraseIdx_of_nodup {l : List EntityId} (hnd : l.Nodup) {k : Nat}
    {y : EntityId} (hk : l[k]? = some y) : y ∉ l.eraseIdx k := by
  induction l generalizing k with
  | nil => simp at hk
  | cons a l ih =>
    have ha : a ∉ l := (List.nodup_cons.mp hnd).1
    have hl : l.Nodup := (List.nodup_cons.mp hnd).2
    cases k with
    | zero =>
      simp only [List.getElem?_cons_zero, Option.some.injEq] at hk
      subst hk
      simpa using ha
    | succ k =>
      simp only [List.getElem?_cons_succ] at hk
      simp only [List.eraseIdx_cons_succ, List.mem_cons, not_or]
      exact ⟨fun h => ha (h ▸ mem_of_getElem? hk), ih hl hk⟩

theorem ne_of_nodup_getElem? {l : List EntityId} (hnd : l.Nodup) {i j : Nat}
    {x y : EntityId} (hi : l[i]? = some x) (hj : l[j]? = some y) (hij : i < j) : x ≠ y := by
  intro hxy
  have h1 := not_mem_eraseIdx_of_nodup hnd hj
  have h2 : (l.eraseIdx j)[i]? = some x := by rw [getElem?_eraseIdx_lt l hij]; exact hi
  exact h1 (hxy ▸ mem_of_getElem? h2)

theorem count_eraseIdx_of_getElem? {l : List EntityId} {k : Nat} {g : EntityId}
    (hk : l[k]? = some g) : (l.eraseIdx k).count g + 1 = l.count g := by
  induction l generalizing k with
  | nil => simp at hk
  | cons a l ih =>
    cases k with
    | zero =>
      simp only [List.getElem?_cons_zero, Option.some.injEq] at hk
      subst hk
      simp
    | succ k =>
      simp only [List.getElem?_cons_succ] at hk
      have := ih hk
      simp only [List.eraseIdx_cons_succ, List.count_cons]
      omega

theorem two_le_count_of_getElem? {l : List EntityId} {i j : Nat} {g : EntityId}
    (hi : l[i]? = some g) (hj : l[j]? = some g) (hij : i < j) : 2 ≤ l.count g := by
  have h1 := count_eraseIdx_of_getElem? hj
  have h2 : (l.eraseIdx j)[i]? = some g := by rw [getElem?_eraseIdx_lt l hij]; exact hi
  have h3 := List.count_pos_iff.mpr (mem_of_getElem? h2)
  omega

theorem World.list_eraseAt {H : Type} (w : World H) (r : Registry) (k : Nat) :
    (w.eraseAt r k).list r = (w.list r).eraseIdx k := by
  simp only [World.eraseAt, World.list_setList]

theorem World.list_eraseAt_of_ne {H : Type} (w : World H) (r r2 : Registry) (k : Nat)
    (h : r2 ≠ r) : (w.eraseAt r k).list r2 = w.list r2 := by
  simp only [World.eraseAt, World.list_setList_of_ne _ _ _ _ h]

theorem deleteFlag_eraseAt {H : Type} (w : World H) (r : Registry) (k : Nat) :
    (w.eraseAt r k).deleteFlag = w.deleteFlag := by
  simp only [World.eraseAt, deleteFlag_setList]

theorem nextEntity_eraseAt {H : Type} (w : World H) (r : Registry) (k : Nat) :
    (w.eraseAt r k).nextEntity = w.nextEntity := by
  simp only [World.eraseAt, nextEntity_setList]

theorem list_eraseAt_sublist {H : Type} (w : World H) (r r2 : Registry) (k : Nat) :
    ((w.eraseAt r k).list r2).Sublist (w.list r2) := by
  by_cases h : r2 = r
  · subst h
    rw [World.list_eraseAt]
    exact List.eraseIdx_sublist _ _
  · rw [World.list_eraseAt_of_ne _ _ _ _ h]

/-- The position of `*i` is not touched by the erase of `j`: `j` is in another
registry, or behind `i`. -/
theorem getElem?_eraseAt_keep {H : Type} (w : World H) (ra rb : Registry) (i j : Nat)
    (h : ra = rb → i < j) : ((w.eraseAt rb j).list ra)[i]? = (w.list ra)[i]? := by
  by_cases hr : ra = rb
  · subst hr
    rw [World.list_eraseAt, getElem?_eraseIdx_lt _ (h rfl)]
  · rw [World.list_eraseAt_of_ne _ _ _ _ hr]

/-! ## Theorems: case analysis of the loops on the registries of the world -/

/-- Induction along a run of the inner loop that returns: the end of the
registry, a pair that does not collide, a collision that erases `*i`, one that
erases only `*j`, one that erases neither. -/
theorem loopJLive_induction {H : Type} (B : Behaviour H) (x : EntityId) (listB : Registry)
    (P : Nat → World H → InnerLive H → Prop)
    (hend : ∀ j w, (w.list listB)[j]? = none → P j w ⟨Exit.next, w, []⟩)
    (hmiss : ∀ j w y r, (w.list listB)[j]? = some y → B.didCollide x y w = false →
      P (j + 1) w r →
      P j w { r with log := [Event.didCollide x y false] ++ r.log })
    (hI : ∀ j w y, (w.list listB)[j]? = some y → B.didCollide x y w = true →
      toDelete x (B.onCollide y x (B.onCollide x y w)) = true →
      P j w
        ⟨Exit.restart,
          B.destructor x
            (if toDelete y (B.onCollide y x (B.onCollide x y w)) = true then
              (B.destructor y (B.onCollide y x (B.onCollide x y w))).eraseAt listB j
            else B.onCollide y x (B.onCollide x y w)),
          collisionEvents x y true (toDelete y (B.onCollide y x (B.onCollide x y w))) ++
            [Event.delete x, Event.erase x]⟩)
    (hJ : ∀ j w y r, (w.list listB)[j]? = some y → B.didCollide x y w = true →
      toDelete x (B.onCollide y x (B.onCollide x y w)) = false →
      toDelete y (B.onCollide y x (B.onCollide x y w)) = true →
      P j ((B.destructor y (B.onCollide y x (B.onCollide x y w))).eraseAt listB j) r →
      P j w { r with log := collisionEvents x y false true ++ r.log })
    (hN : ∀ j w y r, (w.list listB)[j]? = some y → B.didCollide x y w = true →
      toDelete x (B.onCollide y x (B.onCollide x y w)) = false →
      toDelete y (B.onCollide y x (B.onCollide x y w)) = false →
      P (j + 1) (B.onCollide y x (B.onCollide x y w)) r →
      P j w { r with log := collisionEvents x y false false ++ r.log })
    (fuel j : Nat) (w : World H) (r : InnerLive H)
    (h : loopJLive B x listB fuel j w = some r) : P j w r := by
  induction fuel generalizing j w r with
  | zero => simp [loopJLive] at h
  | succ n ih =>
    unfold loopJLive at h
    cases hy : (w.list listB)[j]? with
    | none =>
      simp only [hy] at h
      cases h
      exact hend j w hy
    | some y =>
      simp only [hy] at h
      by_cases hc : B.didCollide x y w = true
      · by_cases hi : toDelete x (B.onCollide y x (B.onCollide x y w)) = true
        · simp only [hc, hi, if_true] at h
          cases h
          exact hI j w y hy hc hi
        · by_cases hj : toDelete y (B.onCollide y x (B.onCollide x y w)) = true
          · simp only [Bool.not_eq_true] at hi
            simp only [hc, hi, hj, if_true, Bool.false_eq_true, if_false] at h
            cases h2 : loopJLive B x listB n j
                ((B.destructor y (B.onCollide y x (B.onCollide x y w))).eraseAt listB j) with
            | none => simp [h2, innerAfter] at h
            | some r2 =>
              simp only [h2, innerAfter, Option.map_some', Option.some.injEq] at h
              subst h
              exact hJ j w y r2 hy hc hi hj (ih _ _ _ h2)
          · simp only [Bool.not_eq_true] at hi hj
            simp only [hc, hi, hj, if_true, Bool.false_eq_true, if_false] at h
            cases h2 : loopJLive B x listB n (j + 1) (B.onCollide y x (B.onCollide x y w)) with
            | none => simp [h2, innerAfter] at h
            | some r2 =>
              simp only [h2, innerAfter, Option.map_some', Option.some.injEq] at h
              subst h
              exact hN j w y r2 hy hc hi hj (ih _ _ _ h2)
      · simp only [Bool.not_eq_true] at hc
        simp only [hc, Bool.false_eq_true, if_false] at h
        cases h2 : loopJLive B x listB n (j + 1) w with
        | none => simp [h2, innerAfter] at h
        | some r2 =>
          simp only [h2, innerAfter, Option.map_some', Option.some.injEq] at h
          subst h
          exact hmiss j w y r2 hy hc (ih _ _ _ h2)

/-- Induction along a run of the outer loop of the self pass that returns. -/
theorem selfLoopILive_induction {H : Type} (B : Behaviour H) (list : Registry)
    (P : Nat → World H → World H × Trace → Prop)
    (hend : ∀ i w, (w.list list)[i]? = none → P i w (w, []))
    (hnext : ∀ i w x f r p, (w.list list)[i]? = some x →
      loopJLive B x list f (i + 1) w = some r → r.exit = Exit.next →
      P (i + 1) r.world p → P i w (p.1, r.log ++ p.2))
    (hrestart : ∀ i w x f r p, (w.list list)[i]? = some x →
      loopJLive B x list f (i + 1) w = some r → r.exit = Exit.restart →
      P i (r.world.eraseAt list i) p → P i w (p.1, r.log ++ p.2))
    (fuel i : Nat) (w : World H) (p : World H × Trace)
    (h : selfLoopILive B list fuel i w = some p) : P i w p := by
  induction fuel generalizing i w p with
  | zero => simp [selfLoopILive] at h
  | succ n ih =>
    unfold selfLoopILive at h
    cases hx : (w.list list)[i]? with
    | none =>
      simp only [hx] at h
      cases h
      exact hend i w hx
    | some x =>
      simp only [hx] at h
      cases hr : loopJLive B x list n (i + 1) w with
      | none => simp [hr] at h
      | some r =>
        simp only [hr] at h
        rcases Exit.next_or_restart r.exit with he | he
        · simp only [he] at h
          cases h2 : selfLoopILive B list n (i + 1) r.world with
          | none => simp [h2, logAfter] at h
          | some p2 =>
            simp only [h2, logAfter, Option.map_some', Option.some.injEq] at h
            subst h
            exact hnext i w x n r p2 hx hr he (ih _ _ _ h2)
        · simp only [he] at h
          cases h2 : selfLoopILive B list n i (r.world.eraseAt list i) with
          | none => simp [h2, logAfter] at h
          | some p2 =>
            simp only [h2, logAfter, Option.map_some', Option.some.injEq] at h
            subst h
            exact hrestart i w x n r p2 hx hr he (ih _ _ _ h2)

/-- Induction along a run of the outer loop of the cross pass that returns. -/
theorem crossLoopILive_induction {H : Type} (B : Behaviour H) (listA listB : Registry)
    (P : Nat → World H → World H × Trace → Prop)
    (hend : ∀ i w, (w.list listA)[i]? = none → P i w (w, []))
    (hnext : ∀ i w x f r p, (w.list listA)[i]? = some x →
      loopJLive B x listB f 0 w = some r → r.exit = Exit.next →
      P (i + 1) r.world p → P i w (p.1, r.log ++ p.2))
    (hrestart : ∀ i w x f r p, (w.list listA)[i]? = some x →
      loopJLive B x listB f 0 w = some r → r.exit = Exit.restart →
      P i (r.world.eraseAt listA i) p → P i w (p.1, r.log ++ p.2))
    (fuel i : Nat) (w : World H) (p : World H × Trace)
    (h : crossLoopILive B listA listB fuel i w = some p) : P i w p := by
  induction fuel generalizing i w p with
  | zero => simp [crossLoopILive] at h
  | succ n ih =>
    unfold crossLoopILive at h
    cases hx : (w.list listA)[i]? with
    | none =>
      simp only [hx] at h
      cases h
      exact hend i w hx
    | some x =>
      simp only [hx] at h
      cases hr : loopJLive B x listB n 0 w with
      | none => simp [hr] at h
      | some r =>
        simp only [hr] at h
        rcases Exit.next_or_restart r.exit with he | he
        · simp only [he] at h
          cases h2 : crossLoopILive B listA listB n (i + 1) r.world with
          | none => simp [h2, logAfter] at h
          | some p2 =>
            simp only [h2, logAfter, Option.map_some', Option.some.injEq] at h
            subst h
            exact hnext i w x n r p2 hx hr he (ih _ _ _ h2)
        · simp only [he] at h
          cases h2 : crossLoopILive B listA listB n i (r.world.eraseAt listA i) with
          | none => simp [h2, logAfter] at h
          | some p2 =>
            simp only [h2, logAfter, Option.map_some', Option.some.injEq] at h
            subst h
            exact hrestart i w x n r p2 hx hr he (ih _ _ _ h2)

/-- Induction along a run of the update loop that returns. -/
theorem updateLoopLive_induction {H : Type} (B : Behaviour H) (list : Registry)
    (P : Nat → World H → World H × Trace → Prop)
    (hend : ∀ i w, (w.list list)[i]? = none → P i w (w, []))
    (herase : ∀ i w e p, (w.list list)[i]? = some e → toDelete e (B.update e w) = true →
      P i ((B.destructor e (B.update e w)).eraseAt list i) p →
      P i w (p.1, [Event.update e, Event.toDelete e true, Event.delete e, Event.erase e] ++
        p.2))
    (hkeep : ∀ i w e p, (w.list list)[i]? = some e → toDelete e (B.update e w) = false →
      P (i + 1) (B.update e w) p →
      P i w (p.1, [Event.update e, Event.toDelete e false] ++ p.2))
    (fuel i : Nat) (w : World H) (p : World H × Trace)
    (h : updateLoopLive B list fuel i w = some p) : P i w p := by
  induction fuel generalizing i w p with
  | zero => simp [updateLoopLive] at h
  | succ n ih =>
    unfold updateLoopLive at h
    cases hx : (w.list list)[i]? with
    | none =>
      simp only [hx] at h
      cases h
      exact hend i w hx
    | some e =>
      simp only [hx] at h
      by_cases hd : toDelete e (B.update e w) = true
      · simp only [hd, if_true] at h
        cases h2 : updateLoopLive B list n i ((B.destructor e (B.update e w)).eraseAt list i) with
        | none => simp [h2, logAfter] at h
        | some p2 =>
          simp only [h2, logAfter, Option.map_some', Option.some.injEq] at h
          subst h
          exact herase i w e p2 hx hd (ih _ _ _ h2)
      · simp only [Bool.not_eq_true] at hd
        simp only [hd, Bool.false_eq_true, if_false] at h
        cases h2 : updateLoopLive B list n (i + 1) (B.update e w) with
        | none => simp [h2, logAfter] at h
        | some p2 =>
          simp only [h2, logAfter, Option.map_some', Option.some.injEq] at h
          subst h
          exact hkeep i w e p2 hx hd (ih _ _ _ h2)


/-! ## Theorems: no flagged entity after the passes of a tick -/

theorem Tame.getElem? {H : Type} {a : EntityId} {v v2 : World H} (ht : Tame a v v2)
    {r : Registry} {k : Nat} {e : EntityId} (h : (v.list r)[k]? = some e) :
    (v2.list r)[k]? = some e :=
  getElem?_of_front (ht.2.1 r) h

theorem sound_eraseAt {H : Type} {w : World H} (hs : Sound w) (r : Registry) (k : Nat) :
    Sound (w.eraseAt r k) :=
  Sound.of_sublist hs (fun r2 => list_eraseAt_sublist w r r2 k) (nextEntity_eraseAt w r k)

theorem cleanOutside_eraseAt {H : Type} {w : World H} (hs : Sound w) {r : Registry} {k : Nat}
    {y : EntityId} (hk : (w.list r)[k]? = some y) {D : EntityId → Prop}
    (h : CleanOutside (fun e => D e ∨ e = y) w) : CleanOutside D (w.eraseAt r k) := by
  intro r2 e he hn
  rw [deleteFlag_eraseAt]
  have hmem : e ∈ w.list r2 := (list_eraseAt_sublist w r r2 k).subset he
  refine h r2 e hmem ?_
  intro hd
  rcases hd with hd | hd
  · exact hn hd
  · by_cases hr : r2 = r
    · subst hr
      rw [World.list_eraseAt] at he
      exact not_mem_eraseIdx_of_nodup (hs.1.1 r2) hk (hd ▸ he)
    · exact hs.1.2 r2 r hr hmem (hd ▸ mem_of_getElem? hk)

theorem ne_of_positions {H : Type} {w : World H} (hs : Sound w) {ra rb : Registry}
    {i j : Nat} {x y : EntityId} (hx : (w.list ra)[i]? = some x)
    (hy : (w.list rb)[j]? = some y) (hij : ra = rb → i < j) : x ≠ y := by
  by_cases hr : ra = rb
  · subst hr
    exact ne_of_nodup_getElem? (hs.1.1 ra) hx hy (hij rfl)
  · intro hxy
    exact hs.1.2 ra rb hr (mem_of_getElem? hx) (hxy ▸ mem_of_getElem? hy)

theorem allClean_iff_cleanOutside {H : Type} (w : World H) :
    AllClean w ↔ CleanOutside (fun _ => False) w :=
  ⟨fun h r e he _ => h r e he, fun h r e he => h r e he (fun hf => hf)⟩

/-- The inner loop under tame methods, for `*i = x` at position `i` of the
registry at `ra` and `j` behind `i` or in another registry: when no member
is flagged at the start, the registries stay sound, `x` stays at its position,
and at the end no member is flagged, but `x` when the loop is left to erase
it. -/
theorem loopJLive_clean {H : Type} (B : Behaviour H)
    (hC : ∀ a b v, Tame a v (B.onCollide a b v))
    (hD : ∀ a v, Tame a v (B.destructor a v))
    (x : EntityId) (ra rb : Registry) (i : Nat) (fuel j : Nat) (w : World H)
    (r : InnerLive H) (h : loopJLive B x rb fuel j w = some r) :
    Sound w → AllClean w → (w.list ra)[i]? = some x → (ra = rb → i < j) →
      Sound r.world ∧ (r.world.list ra)[i]? = some x ∧
      (r.exit = Exit.next → AllClean r.world) ∧
      (r.exit = Exit.restart → CleanOutside (fun e => e = x) r.world) := by
  refine loopJLive_induction B x rb
    (fun j w r => Sound w → AllClean w → (w.list ra)[i]? = some x → (ra = rb → i < j) →
      Sound r.world ∧ (r.world.list ra)[i]? = some x ∧
      (r.exit = Exit.next → AllClean r.world) ∧
      (r.exit = Exit.restart → CleanOutside (fun e => e = x) r.world))
    ?_ ?_ ?_ ?_ ?_ fuel j w r h
  · intro j w _ hs hc hx _
    refine ⟨hs, hx, fun _ => hc, ?_⟩
    intro he
    cases he
  · intro j w y r _ _ ih hs hc hx hij
    exact ih hs hc hx (fun h => Nat.lt_succ_of_lt (hij h))
  · intro j w y hy _ hi hs hc hx hij
    have hxy := ne_of_positions hs hx hy hij
    have t1 := hC x y w
    have t2 := hC y x (B.onCollide x y w)
    have s2 : Sound (B.onCollide y x (B.onCollide x y w)) := t2.2.2.2 (t1.2.2.2 hs)
    have hx2 := t2.getElem? (t1.getElem? hx)
    have hy2 := t2.getElem? (t1.getElem? hy)
    have c2 : CleanOutside (fun e => e = x ∨ e = y) (B.onCollide y x (B.onCollide x y w)) :=
      t2.cleanOutside (Or.inr rfl)
        (t1.cleanOutside (Or.inl rfl)
          (((allClean_iff_cleanOutside w).mp hc).mono fun _ hf => hf.elim))
    refine ⟨?_, ?_, ?_, fun _ => ?_⟩
    · split
      · exact (hD x _).2.2.2 (sound_eraseAt ((hD y _).2.2.2 s2) rb j)
      · exact (hD x _).2.2.2 s2
    · split
      · refine (hD x _).getElem? ?_
        rw [getElem?_eraseAt_keep _ ra rb i j hij]
        exact (hD y _).getElem? hx2
      · exact (hD x _).getElem? hx2
    · intro he
      cases he
    · split
      · rename_i hj
        have c3 := (hD y _).cleanOutside (Or.inr rfl) c2
        have c4 : CleanOutside (fun e => e = x)
            ((B.destructor y (B.onCollide y x (B.onCollide x y w))).eraseAt rb j) :=
          cleanOutside_eraseAt ((hD y _).2.2.2 s2) ((hD y _).getElem? hy2) c3
        exact (hD x _).cleanOutside rfl c4
      · rename_i hj
        have c3 : CleanOutside (fun e => e = x) (B.onCollide y x (B.onCollide x y w)) := by
          refine c2.drop ?_
          intro e hd hn
          rcases hd with hd | hd
          · exact absurd hd hn
          · rw [hd]
            simpa [toDelete] using hj
        exact (hD x _).cleanOutside rfl c3
  · intro j w y r hy _ hi hj ih hs hc hx hij
    have hxy := ne_of_positions hs hx hy hij
    have t1 := hC x y w
    have t2 := hC y x (B.onCollide x y w)
    have t3 := hD y (B.onCollide y x (B.onCollide x y w))
    have s2 : Sound (B.onCollide y x (B.onCollide x y w)) := t2.2.2.2 (t1.2.2.2 hs)
    have hx2 := t2.getElem? (t1.getElem? hx)
    have hy2 := t2.getElem? (t1.getElem? hy)
    have c2 : CleanOutside (fun e => e = x ∨ e = y) (B.onCollide y x (B.onCollide x y w)) :=
      t2.cleanOutside (Or.inr rfl)
        (t1.cleanOutside (Or.inl rfl)
          (((allClean_iff_cleanOutside w).mp hc).mono fun _ hf => hf.elim))
    have hxf : (B.destructor y (B.onCollide y x (B.onCollide x y w))).deleteFlag x = false :=
      t3.1 x hxy (by simpa [toDelete] using hi)
    have c3 : CleanOutside (fun e => False ∨ e = y)
        (B.destructor y (B.onCollide y x (B.onCollide x y w))) := by
      refine (t3.cleanOutside (Or.inr rfl) c2).drop ?_
      intro e hd hn
      rcases hd with hd | hd
      · rw [hd]
        exact hxf
      · exact absurd (Or.inr hd) hn
    have c4 := cleanOutside_eraseAt (t3.2.2.2 s2) (t3.getElem? hy2) c3
    refine ih (sound_eraseAt (t3.2.2.2 s2) rb j) ((allClean_iff_cleanOutside _).mpr c4) ?_ hij
    rw [getElem?_eraseAt_keep _ ra rb i j hij]
    exact t3.getElem? hx2
  · intro j w y r hy _ hi hj ih hs hc hx hij
    have t1 := hC x y w
    have t2 := hC y x (B.onCollide x y w)
    have s2 : Sound (B.onCollide y x (B.onCollide x y w)) := t2.2.2.2 (t1.2.2.2 hs)
    have hx2 := t2.getElem? (t1.getElem? hx)
    have c2 : CleanOutside (fun e => e = x ∨ e = y) (B.onCollide y x (B.onCollide x y w)) :=
      t2.cleanOutside (Or.inr rfl)
        (t1.cleanOutside (Or.inl rfl)
          (((allClean_iff_cleanOutside w).mp hc).mono fun _ hf => hf.elim))
    have c3 : CleanOutside (fun _ => False) (B.onCollide y x (B.onCollide x y w)) := by
      refine c2.drop ?_
      intro e hd _
      rcases hd with hd | hd
      · rw [hd]
        simpa [toDelete] using hi
      · rw [hd]
        simpa [toDelete] using hj
    exact ih s2 ((allClean_iff_cleanOutside _).mpr c3) hx2
      (fun h => Nat.lt_succ_of_lt (hij h))

/-- The outer loop of the self pass under tame methods: sound registries
without a flagged member stay so. -/
theorem selfLoopILive_clean {H : Type} (B : Behaviour H)
    (hC : ∀ a b v, Tame a v (B.onCollide a b v))
    (hD : ∀ a v, Tame a v (B.destructor a v))
    (list : Registry) (fuel i : Nat) (w : World H) (p : World H × Trace)
    (h : selfLoopILive B list fuel i w = some p) :
    Sound w → AllClean w → Sound p.1 ∧ AllClean p.1 := by
  refine selfLoopILive_induction B list
    (fun _ w p => Sound w → AllClean w → Sound p.1 ∧ AllClean p.1) ?_ ?_ ?_ fuel i w p h
  · intro i w _ hs hc
    exact ⟨hs, hc⟩
  · intro i w x f r p hx hr he ih hs hc
    obtain ⟨j1, _, j3, _⟩ := loopJLive_clean B hC hD x list list i f (i + 1) w r hr hs hc hx
      (fun _ => Nat.lt_succ_self i)
    exact ih j1 (j3 he)
  · intro i w x f r p hx hr he ih hs hc
    obtain ⟨j1, j2, _, j4⟩ := loopJLive_clean B hC hD x list list i f (i + 1) w r hr hs hc hx
      (fun _ => Nat.lt_succ_self i)
    refine ih (sound_eraseAt j1 list i) ((allClean_iff_cleanOutside _).mpr ?_)
    exact cleanOutside_eraseAt j1 j2 ((j4 he).mono fun _ hd => Or.inr hd)

/-- The outer loop of the cross pass on two different registries under tame
methods: sound registries without a flagged member stay so. -/
theorem crossLoopILive_clean {H : Type} (B : Behaviour H)
    (hC : ∀ a b v, Tame a v (B.onCollide a b v))
    (hD : ∀ a v, Tame a v (B.destructor a v))
    (listA listB : Registry) (hne : listA ≠ listB) (fuel i : Nat) (w : World H)
    (p : World H × Trace) (h : crossLoopILive B listA listB fuel i w = some p) :
    Sound w → AllClean w → Sound p.1 ∧ AllClean p.1 := by
  refine crossLoopILive_induction B listA listB
    (fun _ w p => Sound w → AllClean w → Sound p.1 ∧ AllClean p.1) ?_ ?_ ?_ fuel i w p h
  · intro i w _ hs hc
    exact ⟨hs, hc⟩
  · intro i w x f r p hx hr he ih hs hc
    obtain ⟨j1, _, j3, _⟩ := loopJLive_clean B hC hD x listA listB i f 0 w r hr hs hc hx
      (fun h => absurd h hne)
    exact ih j1 (j3 he)
  · intro i w x f r p hx hr he ih hs hc
    obtain ⟨j1, j2, _, j4⟩ := loopJLive_clean B hC hD x listA listB i f 0 w r hr hs hc hx
      (fun h => absurd h hne)
    refine ih (sound_eraseAt j1 listA i) ((allClean_iff_cleanOutside _).mpr ?_)
    exact cleanOutside_eraseAt j1 j2 ((j4 he).mono fun _ hd => Or.inr hd)

/-- One `update()` or destructor call for the entity at position `i` of the
registry under update: the registries already updated and the part of the
registry before `i` stay without a flagged member. -/
theorem Tame.updateStep {H : Type} {a : EntityId} {v v2 : World H} (ht : Tame a v v2)
    (hs : Sound v) {r : Registry} {i : Nat} (ha : (v.list r)[i]? = some a)
    {S : Registry → Prop}
    (hS : ∀ r2, S r2 → r2 ≠ r → ∀ e ∈ v.list r2, v.deleteFlag e = false)
    (hB : ∀ k, k < i → ∀ e, (v.list r)[k]? = some e → v.deleteFlag e = false) :
    (∀ r2, S r2 → r2 ≠ r → ∀ e ∈ v2.list r2, v2.deleteFlag e = false) ∧
    (∀ k, k < i → ∀ e, (v2.list r)[k]? = some e → v2.deleteFlag e = false) := by
  have hs2 := ht.2.2.2 hs
  have ha2 := ht.getElem? ha
  refine ⟨?_, ?_⟩
  · intro r2 h2 hne e he
    have hea : e ≠ a := fun h => hs2.1.2 r2 r hne he (h ▸ mem_of_getElem? ha2)
    by_cases hm : e ∈ v.list r2
    · exact ht.1 e hea (hS r2 h2 hne e hm)
    · exact ht.2.2.1 r2 e he hm hea
  · intro k hk e he
    have hlt : k < (v.list r).length := by
      have := (List.getElem?_eq_some_iff.mp ha).1
      omega
    have hk2 : (v.list r)[k]? = some ((v.list r)[k]) := List.getElem?_eq_getElem hlt
    have he2 := ht.getElem? hk2
    rw [he] at he2
    have hee : e = (v.list r)[k] := Option.some.inj he2
    have hea : e ≠ a := by
      rw [hee]
      exact ne_of_nodup_getElem? (hs.1.1 r) hk2 ha hk
    exact ht.1 e hea (hB k hk e (hee ▸ hk2))

/-- The update loop under tame methods, from position `i` on: when the
registries in `S` and the part of the registry before `i` have no flagged
member, then at the end neither the registries in `S` nor the updated one
have a flagged member. -/
theorem updateLoopLive_clean {H : Type} (B : Behaviour H)
    (hU : ∀ a v, Tame a v (B.update a v))
    (hD : ∀ a v, Tame a v (B.destructor a v))
    (list : Registry) (S : Registry → Prop) (fuel i : Nat) (w : World H)
    (p : World H × Trace) (h : updateLoopLive B list fuel i w = some p) :
    Sound w →
    (∀ r2, S r2 → r2 ≠ list → ∀ e ∈ w.list r2, w.deleteFlag e = false) →
    (∀ k, k < i → ∀ e, (w.list list)[k]? = some e → w.deleteFlag e = false) →
      Sound p.1 ∧
      ∀ r2, (S r2 ∨ r2 = list) → ∀ e ∈ p.1.list r2, p.1.deleteFlag e = false := by
  refine updateLoopLive_induction B list
    (fun i w p => Sound w →
      (∀ r2, S r2 → r2 ≠ list → ∀ e ∈ w.list r2, w.deleteFlag e = false) →
      (∀ k, k < i → ∀ e, (w.list list)[k]? = some e → w.deleteFlag e = false) →
        Sound p.1 ∧
        ∀ r2, (S r2 ∨ r2 = list) → ∀ e ∈ p.1.list r2, p.1.deleteFlag e = false)
    ?_ ?_ ?_ fuel i w p h
  · intro i w hi hs hS hB
    refine ⟨hs, ?_⟩
    intro r2 hr e he
    by_cases hl : r2 = list
    · subst hl
      have he1 : e ∈ w.list r2 := he
      obtain ⟨k, hk, hek⟩ := List.mem_iff_getElem.mp he1
      have hki : k < i := by
        have := List.getElem?_eq_none_iff.mp hi
        omega
      exact hB k hki e (by rw [List.getElem?_eq_getElem hk, hek])
    · exact hS r2 (hr.resolve_right hl) hl e he
  · intro i w e p he _ ih hs hS hB
    have t1 := hU e w
    have t2 := hD e (B.update e w)
    obtain ⟨a1, b1⟩ := t1.updateStep hs he hS hB
    obtain ⟨a2, b2⟩ := t2.updateStep (t1.2.2.2 hs) (t1.getElem? he) a1 b1
    refine ih (sound_eraseAt (t2.2.2.2 (t1.2.2.2 hs)) list i) ?_ ?_
    · intro r2 h2 hne x hx
      rw [World.list_eraseAt_of_ne _ _ _ _ hne] at hx
      rw [deleteFlag_eraseAt]
      exact a2 r2 h2 hne x hx
    · intro k hk x hx
      rw [World.list_eraseAt, getElem?_eraseIdx_lt _ hk] at hx
      rw [deleteFlag_eraseAt]
      exact b2 k hk x hx
  · intro i w e p he hd ih hs hS hB
    have t1 := hU e w
    obtain ⟨a1, b1⟩ := t1.updateStep hs he hS hB
    refine ih (t1.2.2.2 hs) a1 ?_
    intro k hk x hx
    by_cases hki : k < i
    · exact b1 k hki x hx
    · have hkeq : k = i := by omega
      subst hkeq
      have := t1.getElem? he
      rw [hx] at this
      rw [Option.some.inj this]
      simpa [toDelete] using hd

/-- The update phase under tame methods leaves sound registries sound and
without a flagged member, whatever was flagged before. -/
theorem updatePhaseLive_clean {H : Type} (B : Behaviour H)
    (hU : ∀ a v, Tame a v (B.update a v))
    (hD : ∀ a v, Tame a v (B.destructor a v))
    (fuel : Nat) (w : World H) (u : World H × Trace)
    (h : updatePhaseLive B fuel w = some u) (hs : Sound w) :
    Sound u.1 ∧ AllClean u.1 := by
  simp only [updatePhaseLive, updateEntitiesLive, Option.bind_eq_some] at h
  obtain ⟨u1, h1, u2, h2, u3, h3, hu⟩ := h
  have hs0 : Sound { w with frameCount := w.frameCount + 1 } :=
    Sound.of_sublist hs (fun r => by cases r <;> exact List.Sublist.refl _) rfl
  obtain ⟨s1, c1⟩ := updateLoopLive_clean B hU hD Registry.wEntities (fun _ => False) fuel 0 _
    u1 h1 hs0 (fun _ hf => hf.elim) (fun k hk => absurd hk (Nat.not_lt_zero k))
  obtain ⟨s2, c2⟩ := updateLoopLive_clean B hU hD Registry.wWalls
    (fun r => False ∨ r = Registry.wEntities) fuel 0 _ u2 h2 s1 (fun r2 h2 _ => c1 r2 h2)
    (fun k hk => absurd hk (Nat.not_lt_zero k))
  obtain ⟨s3, c3⟩ := updateLoopLive_clean B hU hD Registry.wSoftEntities
    (fun r => (False ∨ r = Registry.wEntities) ∨ r = Registry.wWalls) fuel 0 _ u3 h3 s2
    (fun r2 h2 _ => c2 r2 h2) (fun k hk => absurd hk (Nat.not_lt_zero k))
  cases hu
  refine ⟨s3, ?_⟩
  intro r e he
  refine c3 r ?_ e he
  cases r
  · exact Or.inl (Or.inl (Or.inr rfl))
  · exact Or.inl (Or.inr rfl)
  · exact Or.inr rfl

theorem checkCollisionsLive_ok {H : Type} (B : Behaviour H) (listA listB : Registry)
    (fuel : Nat) (w : World H) (p : World H × Trace) :
    checkCollisionsLive B listA listB fuel w = some (Except.ok p) ↔
      listA ≠ listB ∧ crossLoopILive B listA listB fuel 0 w = some p := by
  unfold checkCollisionsLive
  by_cases h : listA = listB
  · simp [h]
  · simp [h]

theorem checkCollisionsLive_error {H : Type} (B : Behaviour H) (listA listB : Registry)
    (fuel : Nat) (w : World H) (a : Abort H) :
    checkCollisionsLive B listA listB fuel w = some (Except.error a) → listA = listB := by
  unfold checkCollisionsLive
  by_cases h : listA = listB
  · exact fun _ => h
  · simp [h]

theorem afterPass_ok {H : Type} (p : Option (Except (Abort H) (World H × Trace)))
    (f : World H × Trace → Option (Except (Abort H) (World H × Trace)))
    (c : World H × Trace) :
    afterPass p f = some (Except.ok c) ↔ ∃ r, p = some (Except.ok r) ∧ f r = some (Except.ok c) := by
  cases p with
  | none => simp [afterPass]
  | some e =>
    cases e with
    | error a => simp [afterPass]
    | ok r => simp [afterPass]

theorem afterPass_error {H : Type} (p : Option (Except (Abort H) (World H × Trace)))
    (f : World H × Trace → Option (Except (Abort H) (World H × Trace)))
    (a : Abort H) :
    afterPass p f = some (Except.error a) ↔
      p = some (Except.error a) ∨ ∃ r, p = some (Except.ok r) ∧ f r = some (Except.error a) := by
  cases p with
  | none => simp [afterPass]
  | some e =>
    cases e with
    | error a => simp [afterPass]
    | ok r => simp [afterPass]

/-- What the four passes of `animate()` are made of, when they return. -/
theorem collisionPhaseLive_ok {H : Type} (B : Behaviour H) (fuel : Nat) (w : World H)
    (c : World H × Trace) (h : collisionPhaseLive B fuel w = some (Except.ok c)) :
    ∃ c1 c2 c3 c4,
      selfLoopILive B Registry.wEntities fuel 0 w = some c1 ∧
      crossLoopILive B Registry.wEntities Registry.wWalls fuel 0 c1.1 = some c2 ∧
      crossLoopILive B Registry.wEntities Registry.wSoftEntities fuel 0 c2.1 = some c3 ∧
      crossLoopILive B Registry.wWalls Registry.wSoftEntities fuel 0 c3.1 = some c4 ∧
      c = (c4.1, c1.2 ++ c2.2 ++ c3.2 ++ c4.2) := by
  simp only [collisionPhaseLive, checkCollisionsSelfLive, Option.bind_eq_some, afterPass_ok,
    checkCollisionsLive_ok] at h
  obtain ⟨c1, h1, c2, ⟨_, h2⟩, c3, ⟨_, h3⟩, c4, ⟨_, h4⟩, hc⟩ := h
  simp only [Option.some.injEq, Except.ok.injEq] at hc
  exact ⟨c1, c2, c3, c4, h1, h2, h3, h4, hc.symm⟩

/-- The four passes of `animate()` never abort. -/
theorem collisionPhaseLive_no_abort {H : Type} (B : Behaviour H) (fuel : Nat) (w : World H)
    (a : Abort H) : collisionPhaseLive B fuel w ≠ some (Except.error a) := by
  intro h
  simp only [collisionPhaseLive, Option.bind_eq_some, afterPass_error, afterPass_ok] at h
  obtain ⟨c1, _, h⟩ := h
  rcases h with h | ⟨c2, _, h | ⟨c3, _, h | ⟨c4, _, h⟩⟩⟩
  · exact absurd (checkCollisionsLive_error B _ _ _ _ _ h) (by decide)
  · exact absurd (checkCollisionsLive_error B _ _ _ _ _ h) (by decide)
  · exact absurd (checkCollisionsLive_error B _ _ _ _ _ h) (by decide)
  · simp at h

/-! ## Theorems: an entity that flags itself in `onCollide` is called once -/

theorem NeverInserts.occurrences_le {H : Type} {g : EntityId} {v v2 : World H}
    (h : NeverInserts g v v2) (ha : g < v.nextEntity) :
    g < v2.nextEntity ∧ occurrences g v2 ≤ occurrences g v :=
  ⟨(h ha).1, occurrences_mono (h ha).2⟩

theorem occurrences_eraseAt_le {H : Type} (g : EntityId) (w : World H) (r : Registry)
    (k : Nat) : occurrences g (w.eraseAt r k) ≤ occurrences g w :=
  occurrences_mono fun r2 => List.Sublist.count_le (list_eraseAt_sublist w r r2 k) g

theorem occurrences_pos_of_getElem? {H : Type} {g : EntityId} {w : World H} {r : Registry}
    {k : Nat} (h : (w.list r)[k]? = some g) : 1 ≤ occurrences g w :=
  le_trans (List.count_pos_iff.mpr (mem_of_getElem? h)) (count_le_occurrences g w r)

theorem occurrences_eraseAt_zero {H : Type} {g : EntityId} {w : World H}
    (hone : occurrences g w ≤ 1) {r : Registry} {k : Nat} (h : (w.list r)[k]? = some g) :
    occurrences g (w.eraseAt r k) = 0 := by
  have h1 := count_eraseIdx_of_getElem? h
  rw [← World.list_eraseAt] at h1
  have hE := List.Sublist.count_le (list_eraseAt_sublist w r Registry.wEntities k) g
  have hW := List.Sublist.count_le (list_eraseAt_sublist w r Registry.wWalls k) g
  have hS := List.Sublist.count_le (list_eraseAt_sublist w r Registry.wSoftEntities k) g
  rw [occurrences_eq] at hone ⊢
  cases r <;> omega

theorem not_twice {H : Type} {g : EntityId} {w : World H} (hone : occurrences g w ≤ 1)
    {ra rb : Registry} {i j : Nat} (hx : (w.list ra)[i]? = some g)
    (hy : (w.list rb)[j]? = some g) (hij : ra = rb → i < j) : False := by
  by_cases hr : ra = rb
  · subst hr
    have h1 := two_le_count_of_getElem? hx hy (hij rfl)
    have h2 := count_le_occurrences g w ra
    omega
  · have h1 := List.count_pos_iff.mpr (mem_of_getElem? hx)
    have h2 := List.count_pos_iff.mpr (mem_of_getElem? hy)
    have h3 := count_add_le_occurrences g w ra rb hr
    omega

/-- The inner loop and an entity `g` that always leaves its own `onCollide`
flagged, for `*i = x` at position `i` of the registry at `ra` and `j` behind
`i` or in another registry, with `g` allocated and at most once in the
registries: `onCollide` is called on `g` at most once, the erase of `g` follows
before the next `didCollide`, and after a call `g` is in no registry, or is
`*i` and the loop is left to erase it. -/
theorem loopJLive_once {H : Type} (B : Behaviour H) (g : EntityId)
    (hsf : ∀ b v, toDelete g (B.onCollide g b v) = true)
    (hkeep : ∀ a b v, a ≠ g → g < v.nextEntity → toDelete g v = true →
      toDelete g (B.onCollide a b v) = true)
    (hinsC : ∀ a b v, NeverInserts g v (B.onCollide a b v))
    (hinsD : ∀ a v, NeverInserts g v (B.destructor a v))
    (happC : ∀ a b v, AppendsOnly v (B.onCollide a b v))
    (happD : ∀ a v, AppendsOnly v (B.destructor a v))
    (x : EntityId) (ra rb : Registry) (i : Nat) (fuel j : Nat) (w : World H)
    (r : InnerLive H) (h : loopJLive B x rb fuel j w = some r) :
    g < w.nextEntity → occurrences g w ≤ 1 → (w.list ra)[i]? = some x → (ra = rb → i < j) →
      g < r.world.nextEntity ∧ (r.world.list ra)[i]? = some x ∧
      occurrences g r.world ≤ occurrences g w ∧
      callsBy g r.log ≤ 1 ∧ CallThenErase g r.log ∧
      (1 ≤ callsBy g r.log →
        (g = x → r.exit = Exit.restart) ∧ (g ≠ x → occurrences g r.world = 0)) ∧
      (occurrences g w = 0 → callsBy g r.log = 0) := by
  refine loopJLive_induction B x rb
    (fun j w r => g < w.nextEntity → occurrences g w ≤ 1 → (w.list ra)[i]? = some x →
      (ra = rb → i < j) →
      g < r.world.nextEntity ∧ (r.world.list ra)[i]? = some x ∧
      occurrences g r.world ≤ occurrences g w ∧
      callsBy g r.log ≤ 1 ∧ CallThenErase g r.log ∧
      (1 ≤ callsBy g r.log →
        (g = x → r.exit = Exit.restart) ∧ (g ≠ x → occurrences g r.world = 0)) ∧
      (occurrences g w = 0 → callsBy g r.log = 0))
    ?_ ?_ ?_ ?_ ?_ fuel j w r h
  · intro j w _ ha _ hx _
    refine ⟨ha, hx, le_refl _, by simp [callsBy], CallThenErase.nil, ?_, fun _ => rfl⟩
    intro hc
    simp [callsBy] at hc
  · intro j w y r _ _ ih ha hone hx hij
    obtain ⟨i1, i2, i3, i4, i5, i6, i7⟩ := ih ha hone hx (fun h => Nat.lt_succ_of_lt (hij h))
    have hlog : callsBy g ([Event.didCollide x y false] ++ r.log) = callsBy g r.log := by
      rw [callsBy_append]
      simp [callsBy, Event.isCallBy]
    refine ⟨i1, i2, i3, ?_, ?_, ?_, ?_⟩
    · show callsBy g ([Event.didCollide x y false] ++ r.log) ≤ 1
      rw [hlog]
      exact i4
    · exact CallThenErase.other _ _ (by simp [Event.isCallBy]) i5
    · intro hc
      exact i6 (by rw [← hlog]; exact hc)
    · intro h0
      show callsBy g ([Event.didCollide x y false] ++ r.log) = 0
      rw [hlog]
      exact i7 h0
  · intro j w y hy _ hi ha hone hx hij
    obtain ⟨a1, o1⟩ := (hinsC x y w).occurrences_le ha
    obtain ⟨a2, o2⟩ := (hinsC y x _).occurrences_le a1
    have hx2 := getElem?_of_front (happC y x _ ra) (getElem?_of_front (happC x y w ra) hx)
    have hy2 := getElem?_of_front (happC y x _ rb) (getElem?_of_front (happC x y w rb) hy)
    have hxy : ¬ (x = g ∧ y = g) := fun hb =>
      not_twice hone (hb.1 ▸ hx) (hb.2 ▸ hy) hij
    have hlog : callsBy g (collisionEvents x y true
        (toDelete y (B.onCollide y x (B.onCollide x y w))) ++
        [Event.delete x, Event.erase x]) =
        (if x = g then 1 else 0) + (if y = g then 1 else 0) := by
      rw [callsBy_append, callsBy_collisionEvents]
      simp [callsBy, Event.isCallBy]
    have hworld : g < (B.destructor x
          (if toDelete y (B.onCollide y x (B.onCollide x y w)) = true then
            (B.destructor y (B.onCollide y x (B.onCollide x y w))).eraseAt rb j
          else B.onCollide y x (B.onCollide x y w))).nextEntity ∧
        ((B.destructor x
          (if toDelete y (B.onCollide y x (B.onCollide x y w)) = true then
            (B.destructor y (B.onCollide y x (B.onCollide x y w))).eraseAt rb j
          else B.onCollide y x (B.onCollide x y w))).list ra)[i]? = some x ∧
        occurrences g (B.destructor x
          (if toDelete y (B.onCollide y x (B.onCollide x y w)) = true then
            (B.destructor y (B.onCollide y x (B.onCollide x y w))).eraseAt rb j
          else B.onCollide y x (B.onCollide x y w))) ≤ occurrences g w ∧
        (y = g → toDelete y (B.onCollide y x (B.onCollide x y w)) = true →
          occurrences g (B.destructor x
            (if toDelete y (B.onCollide y x (B.onCollide x y w)) = true then
              (B.destructor y (B.onCollide y x (B.onCollide x y w))).eraseAt rb j
            else B.onCollide y x (B.onCollide x y w))) = 0) := by
      split
      · obtain ⟨a3, o3⟩ := (hinsD y _).occurrences_le a2
        have a4 : g < ((B.destructor y (B.onCollide y x (B.onCollide x y w))).eraseAt rb
            j).nextEntity := by
          rw [nextEntity_eraseAt]
          exact a3
        have o4 := occurrences_eraseAt_le g
          (B.destructor y (B.onCollide y x (B.onCollide x y w))) rb j
        obtain ⟨a5, o5⟩ := (hinsD x _).occurrences_le a4
        refine ⟨a5, ?_, by omega, ?_⟩
        · refine getElem?_of_front (happD x _ ra) ?_
          rw [getElem?_eraseAt_keep _ ra rb i j hij]
          exact getElem?_of_front (happD y _ ra) hx2
        · intro hyg _
          have hy3 := (getElem?_of_front (happD y _ rb) hy2).trans (congrArg some hyg)
          have := occurrences_eraseAt_zero (by omega) hy3
          omega
      · rename_i hj
        obtain ⟨a5, o5⟩ := (hinsD x _).occurrences_le a2
        exact ⟨a5, getElem?_of_front (happD x _ ra) hx2, by omega,
          fun _ hj2 => absurd hj2 hj⟩
    obtain ⟨w1, w2, w3, w4⟩ := hworld
    show _ ∧ _ ∧ _ ∧ callsBy g (collisionEvents x y true _ ++ _) ≤ 1 ∧
      CallThenErase g (collisionEvents x y true _ ++ _) ∧
      (1 ≤ callsBy g (collisionEvents x y true _ ++ _) → _) ∧
      (_ → callsBy g (collisionEvents x y true _ ++ _) = 0)
    rw [hlog]
    refine ⟨w1, w2, w3, ?_, ?_, ?_, ?_⟩
    · by_cases h1 : x = g <;> by_cases h2 : y = g
      · exact absurd ⟨h1, h2⟩ hxy
      · simp [h1, h2]
      · simp [h1, h2]
      · simp [h1, h2]
    · by_cases h1 : x = g
      · have h2 : y ≠ g := fun h2 => hxy ⟨h1, h2⟩
        subst h1
        exact callThenErase_first x y _ h2
      · by_cases h2 : y = g
        · have hdj : toDelete y (B.onCollide y x (B.onCollide x y w)) = true := by
            rw [h2]
            exact hsf x _
          rw [hdj]
          subst h2
          exact (callThenErase_second y x true h1).followedBy
            (CallThenErase.of_no_call (by simp [callsBy, Event.isCallBy]))
        · exact CallThenErase.of_no_call (by rw [hlog]; simp [h1, h2])
    · intro hc
      refine ⟨fun _ => rfl, ?_⟩
      intro hgx
      have h1 : x ≠ g := fun h => hgx h.symm
      have h2 : y = g := by
        by_contra h2
        simp [h1, h2] at hc
      exact w4 h2 (by rw [h2]; exact hsf x _)
    · intro h0
      have h1 : x ≠ g := by
        intro h1
        have := occurrences_pos_of_getElem? (h1 ▸ hx)
        omega
      have h2 : y ≠ g := by
        intro h2
        have := occurrences_pos_of_getElem? (h2 ▸ hy)
        omega
      simp [h1, h2]
  · intro j w y r hy _ hi hj ih ha hone hx hij
    obtain ⟨a1, o1⟩ := (hinsC x y w).occurrences_le ha
    obtain ⟨a2, o2⟩ := (hinsC y x _).occurrences_le a1
    obtain ⟨a3, o3⟩ := (hinsD y _).occurrences_le a2
    have hx2 := getElem?_of_front (happC y x _ ra) (getElem?_of_front (happC x y w ra) hx)
    have hy2 := getElem?_of_front (happC y x _ rb) (getElem?_of_front (happC x y w rb) hy)
    have hx3 := getElem?_of_front (happD y _ ra) hx2
    have hy3 := getElem?_of_front (happD y _ rb) hy2
    have hxy : ¬ (x = g ∧ y = g) := fun hb =>
      not_twice hone (hb.1 ▸ hx) (hb.2 ▸ hy) hij
    have h1 : x ≠ g := by
      intro h1
      have h2 : y ≠ g := fun h2 => hxy ⟨h1, h2⟩
      have := hkeep y x (B.onCollide x y w) h2 a1 (by rw [h1]; exact hsf y w)
      rw [← h1] at this
      rw [this] at hi
      cases hi
    have a4 : g < ((B.destructor y (B.onCollide y x (B.onCollide x y w))).eraseAt rb
        j).nextEntity := by
      rw [nextEntity_eraseAt]
      exact a3
    have o4 := occurrences_eraseAt_le g
      (B.destructor y (B.onCollide y x (B.onCollide x y w))) rb j
    have hx4 : (((B.destructor y (B.onCollide y x (B.onCollide x y w))).eraseAt rb j).list
        ra)[i]? = some x := by
      rw [getElem?_eraseAt_keep _ ra rb i j hij]
      exact hx3
    obtain ⟨i1, i2, i3, i4, i5, i6, i7⟩ := ih a4 (by omega) hx4 hij
    have hlog : callsBy g (collisionEvents x y false true ++ r.log) =
        (if y = g then 1 else 0) + callsBy g r.log := by
      rw [callsBy_append, callsBy_collisionEvents]
      simp [h1]
    dsimp only
    rw [hlog]
    by_cases h2 : y = g
    · have hz0 : occurrences g
          ((B.destructor y (B.onCollide y x (B.onCollide x y w))).eraseAt rb j) = 0 :=
        occurrences_eraseAt_zero (by omega) (hy3.trans (congrArg some h2))
      have hz : callsBy g r.log = 0 := i7 hz0
      refine ⟨i1, i2, by omega, by simp [h2, hz], ?_, ?_, ?_⟩
      · subst h2
        exact (callThenErase_second y x false h1).followedBy i5
      · intro _
        exact ⟨fun hgx => absurd hgx.symm h1, fun _ => by omega⟩
      · intro h0
        have := occurrences_pos_of_getElem? (h2 ▸ hy)
        omega
    · refine ⟨i1, i2, by omega, by simpa [h2] using i4, ?_, ?_, ?_⟩
      · exact (CallThenErase.of_no_call
          (by rw [callsBy_collisionEvents]; simp [h1, h2])).followedBy i5
      · intro hc
        exact i6 (by simpa [h2] using hc)
      · intro h0
        simpa [h2] using i7 (by omega)
  · intro j w y r hy _ hi hj ih ha hone hx hij
    obtain ⟨a1, o1⟩ := (hinsC x y w).occurrences_le ha
    obtain ⟨a2, o2⟩ := (hinsC y x _).occurrences_le a1
    have hx2 := getElem?_of_front (happC y x _ ra) (getElem?_of_front (happC x y w ra) hx)
    have hxy : ¬ (x = g ∧ y = g) := fun hb =>
      not_twice hone (hb.1 ▸ hx) (hb.2 ▸ hy) hij
    have h1 : x ≠ g := by
      intro h1
      have h2 : y ≠ g := fun h2 => hxy ⟨h1, h2⟩
      have := hkeep y x (B.onCollide x y w) h2 a1 (by rw [h1]; exact hsf y w)
      rw [← h1] at this
      rw [this] at hi
      cases hi
    have h2 : y ≠ g := by
      intro h2
      have := hsf x (B.onCollide x y w)
      rw [← h2] at this
      rw [this] at hj
      cases hj
    obtain ⟨i1, i2, i3, i4, i5, i6, i7⟩ := ih a2 (by omega) hx2
      (fun h => Nat.lt_succ_of_lt (hij h))
    have hlog : callsBy g (collisionEvents x y false false ++ r.log) = callsBy g r.log := by
      rw [callsBy_append, callsBy_collisionEvents]
      simp [h1, h2]
    dsimp only
    rw [hlog]
    refine ⟨i1, i2, by omega, i4, ?_, i6, ?_⟩
    · exact (CallThenErase.of_no_call
        (by rw [callsBy_collisionEvents]; simp [h1, h2])).followedBy i5
    · intro h0
      exact i7 (by omega)

/-- The outer loop of the self pass and an entity `g` that always leaves its
own `onCollide` flagged. -/
theorem selfLoopILive_once {H : Type} (B : Behaviour H) (g : EntityId)
    (hsf : ∀ b v, toDelete g (B.onCollide g b v) = true)
    (hkeep : ∀ a b v, a ≠ g → g < v.nextEntity → toDelete g v = true →
      toDelete g (B.onCollide a b v) = true)
    (hinsC : ∀ a b v, NeverInserts g v (B.onCollide a b v))
    (hinsD : ∀ a v, NeverInserts g v (B.destructor a v))
    (happC : ∀ a b v, AppendsOnly v (B.onCollide a b v))
    (happD : ∀ a v, AppendsOnly v (B.destructor a v))
    (list : Registry) (fuel i : Nat) (w : World H) (p : World H × Trace)
    (h : selfLoopILive B list fuel i w = some p) :
    g < w.nextEntity → occurrences g w ≤ 1 → OncePass g w p.1 p.2 := by
  refine selfLoopILive_induction B list
    (fun _ w p => g < w.nextEntity → occurrences g w ≤ 1 → OncePass g w p.1 p.2)
    ?_ ?_ ?_ fuel i w p h
  · intro i w _ ha _
    refine ⟨ha, le_refl _, by simp [callsBy], CallThenErase.nil, ?_, fun _ => rfl⟩
    intro hc
    simp [callsBy] at hc
  · intro i w x f r p hx hr he ih ha hone
    obtain ⟨j1, _, j3, j4, j5, j6, j7⟩ := loopJLive_once B g hsf hkeep hinsC hinsD happC happD
      x list list i f (i + 1) w r hr ha hone hx (fun _ => Nat.lt_succ_self i)
    have p1 : OncePass g w r.world r.log := by
      refine ⟨j1, j3, j4, j5, ?_, j7⟩
      intro hc
      refine (j6 hc).2 ?_
      intro hgx
      rw [(j6 hc).1 hgx] at he
      cases he
    exact p1.andThen (ih j1 (le_trans j3 hone))
  · intro i w x f r p hx hr he ih ha hone
    obtain ⟨j1, j2, j3, j4, j5, j6, j7⟩ := loopJLive_once B g hsf hkeep hinsC hinsD happC
      happD x list list i f (i + 1) w r hr ha hone hx (fun _ => Nat.lt_succ_self i)
    have o2 := occurrences_eraseAt_le g r.world list i
    have p1 : OncePass g w (r.world.eraseAt list i) r.log := by
      refine ⟨by rw [nextEntity_eraseAt]; exact j1, by omega, j4, j5, ?_, j7⟩
      intro hc
      by_cases hgx : g = x
      · exact occurrences_eraseAt_zero (by omega) (j2.trans (congrArg some hgx.symm))
      · have := (j6 hc).2 hgx
        omega
    exact p1.andThen (ih p1.1 (le_trans p1.2.1 hone))

/-- The outer loop of the cross pass on two different registries and an
entity `g` that always leaves its own `onCollide` flagged. -/
theorem crossLoopILive_once {H : Type} (B : Behaviour H) (g : EntityId)
    (hsf : ∀ b v, toDelete g (B.onCollide g b v) = true)
    (hkeep : ∀ a b v, a ≠ g → g < v.nextEntity → toDelete g v = true →
      toDelete g (B.onCollide a b v) = true)
    (hinsC : ∀ a b v, NeverInserts g v (B.onCollide a b v))
    (hinsD : ∀ a v, NeverInserts g v (B.destructor a v))
    (happC : ∀ a b v, AppendsOnly v (B.onCollide a b v))
    (happD : ∀ a v, AppendsOnly v (B.destructor a v))
    (listA listB : Registry) (hne : listA ≠ listB) (fuel i : Nat) (w : World H)
    (p : World H × Trace) (h : crossLoopILive B listA listB fuel i w = some p) :
    g < w.nextEntity → occurrences g w ≤ 1 → OncePass g w p.1 p.2 := by
  refine crossLoopILive_induction B listA listB
    (fun _ w p => g < w.nextEntity → occurrences g w ≤ 1 → OncePass g w p.1 p.2)
    ?_ ?_ ?_ fuel i w p h
  · intro i w _ ha _
    refine ⟨ha, le_refl _, by simp [callsBy], CallThenErase.nil, ?_, fun _ => rfl⟩
    intro hc
    simp [callsBy] at hc
  · intro i w x f r p hx hr he ih ha hone
    obtain ⟨j1, _, j3, j4, j5, j6, j7⟩ := loopJLive_once B g hsf hkeep hinsC hinsD happC happD
      x listA listB i f 0 w r hr ha hone hx (fun h => absurd h hne)
    have p1 : OncePass g w r.world r.log := by
      refine ⟨j1, j3, j4, j5, ?_, j7⟩
      intro hc
      refine (j6 hc).2 ?_
      intro hgx
      rw [(j6 hc).1 hgx] at he
      cases he
    exact p1.andThen (ih j1 (le_trans j3 hone))
  · intro i w x f r p hx hr he ih ha hone
    obtain ⟨j1, j2, j3, j4, j5, j6, j7⟩ := loopJLive_once B g hsf hkeep hinsC hinsD happC
      happD x listA listB i f 0 w r hr ha hone hx (fun h => absurd h hne)
    have o2 := occurrences_eraseAt_le g r.world listA i
    have p1 : OncePass g w (r.world.eraseAt listA i) r.log := by
      refine ⟨by rw [nextEntity_eraseAt]; exact j1, by omega, j4, j5, ?_, j7⟩
      intro hc
      by_cases hgx : g = x
      · exact occurrences_eraseAt_zero (by omega) (j2.trans (congrArg some hgx.symm))
      · have := (j6 hc).2 hgx
        omega
    exact p1.andThen (ih p1.1 (le_trans p1.2.1 hone))

/-- The method `GrenadeEntity::onCollide` inserts at the back of `wSoftEntities`
only. -/
theorem GrenadeEntity.onCollide_appendsOnly {H : Type} (self b : EntityId) (v : World H) :
    AppendsOnly v (GrenadeEntity.onCollide self b v) :=
  (GrenadeEntity.onCollide_tame self b v).2.1

/-- The method `GrenadeEntity::onCollide` leaves the flag of every other allocated
entity as it is. -/
theorem GrenadeEntity.onCollide_keeps {H : Type} (self b g : EntityId) (v : World H)
    (hg : g ≠ self) (ha : g < v.nextEntity) :
    toDelete g (GrenadeEntity.onCollide self b v) = toDelete g v := by
  have hne : g ≠ v.nextEntity := Nat.ne_of_lt ha
  simp [GrenadeEntity.onCollide, setDelete, addSoftEntity, setTranslate, newExplosion,
    toDelete, hg, hne]

/-! ## Theorems: the collision passes only remove, when nothing is inserted -/

theorem innerAfter_some {H : Type} (t : Trace) (r : InnerLive H) :
    innerAfter t (some r) = some { r with log := t ++ r.log } := rfl

theorem logAfter_some {H : Type} (t : Trace) (p : World H × Trace) :
    logAfter t (some p) = some (p.1, t ++ p.2) := rfl

/-- The inner loop returns when no method changes the registry it runs over
and the bound is at least the number of elements from `j` on, plus one. -/
theorem loopJLive_returns {H : Type} (B : Behaviour H) (x : EntityId) (rb : Registry)
    (hC : ∀ a b v, (B.onCollide a b v).list rb = v.list rb)
    (hD : ∀ a v, (B.destructor a v).list rb = v.list rb)
    (fuel j : Nat) (w : World H) (hf : (w.list rb).length - j + 1 ≤ fuel) :
    ∃ r, loopJLive B x rb fuel j w = some r := by
  induction fuel generalizing j w with
  | zero => omega
  | succ n ih =>
    unfold loopJLive
    cases hy : (w.list rb)[j]? with
    | none => exact ⟨_, rfl⟩
    | some y =>
      have hlt : j < (w.list rb).length := (List.getElem?_eq_some_iff.mp hy).1
      have hl2 : (B.onCollide y x (B.onCollide x y w)).list rb = w.list rb := by
        rw [hC, hC]
      simp only
      by_cases hc : B.didCollide x y w = true
      · by_cases hi : toDelete x (B.onCollide y x (B.onCollide x y w)) = true
        · simp only [hc, hi, if_true]
          exact ⟨_, rfl⟩
        · simp only [Bool.not_eq_true] at hi
          by_cases hj : toDelete y (B.onCollide y x (B.onCollide x y w)) = true
          · simp only [hc, hi, hj, if_true, Bool.false_eq_true, if_false]
            obtain ⟨r2, h2⟩ := ih j
              ((B.destructor y (B.onCollide y x (B.onCollide x y w))).eraseAt rb j)
              (by
                rw [World.list_eraseAt, List.length_eraseIdx, hD, hl2]
                simp only [hlt, if_true]
                omega)
            rw [h2]
            exact ⟨_, rfl⟩
          · simp only [Bool.not_eq_true] at hj
            simp only [hc, hi, hj, if_true, Bool.false_eq_true, if_false]
            obtain ⟨r2, h2⟩ := ih (j + 1) (B.onCollide y x (B.onCollide x y w))
              (by rw [hl2]; omega)
            rw [h2]
            exact ⟨_, rfl⟩
      · simp only [Bool.not_eq_true] at hc
        simp only [hc, Bool.false_eq_true, if_false]
        obtain ⟨r2, h2⟩ := ih (j + 1) w (by omega)
        rw [h2]
        exact ⟨_, rfl⟩

/-- What the inner loop does to the registries when no method changes them,
for `*i = x` at position `i` of the registry at `ra` and `j` behind `i` or in
another registry: the registry of `j` only loses elements, each after its flag
was read true; `x` stays at its position; `x` is to be erased only after its
flag was read true. -/
theorem loopJLive_removed {H : Type} (B : Behaviour H) (x : EntityId) (ra rb : Registry)
    (hC : ∀ a b v r, (r = ra ∨ r = rb) → (B.onCollide a b v).list r = v.list r)
    (hD : ∀ a v r, (r = ra ∨ r = rb) → (B.destructor a v).list r = v.list r)
    (i : Nat) (fuel j : Nat) (w : World H) (r : InnerLive H)
    (h : loopJLive B x rb fuel j w = some r) :
    (w.list ra)[i]? = some x → (ra = rb → i < j) →
      CollisionLog r.log ∧ (r.world.list rb).Sublist (w.list rb) ∧
      (∀ e ∈ w.list rb, e ∉ r.world.list rb → Event.toDelete e true ∈ r.log) ∧
      (r.exit = Exit.restart → Event.toDelete x true ∈ r.log) ∧
      (r.world.list ra)[i]? = some x ∧ (ra ≠ rb → r.world.list ra = w.list ra) := by
  have h2 : ∀ (y : EntityId) (v : World H) (r : Registry), (r = ra ∨ r = rb) →
      (B.onCollide y x (B.onCollide x y v)).list r = v.list r :=
    fun y v r hr => by rw [hC _ _ _ r hr, hC _ _ _ r hr]
  refine loopJLive_induction B x rb
    (fun j w r => (w.list ra)[i]? = some x → (ra = rb → i < j) →
      CollisionLog r.log ∧ (r.world.list rb).Sublist (w.list rb) ∧
      (∀ e ∈ w.list rb, e ∉ r.world.list rb → Event.toDelete e true ∈ r.log) ∧
      (r.exit = Exit.restart → Event.toDelete x true ∈ r.log) ∧
      (r.world.list ra)[i]? = some x ∧ (ra ≠ rb → r.world.list ra = w.list ra))
    ?_ ?_ ?_ ?_ ?_ fuel j w r h
  · intro j w _ hx _
    refine ⟨CollisionLog.nil, List.Sublist.refl _, fun e he hn => absurd he hn, ?_, hx,
      fun _ => rfl⟩
    intro he
    cases he
  · intro j w y r _ _ ih hx hij
    obtain ⟨i1, i2, i3, i4, i5, i6⟩ := ih hx (fun h => Nat.lt_succ_of_lt (hij h))
    refine ⟨CollisionLog.miss x y _ i1, i2, ?_, ?_, i5, i6⟩
    · intro e he hn
      exact List.mem_append_right _ (i3 e he hn)
    · intro he
      exact List.mem_append_right _ (i4 he)
  · intro j w y hy _ hi hx hij
    dsimp only
    have hlog : CollisionLog (collisionEvents x y true
        (toDelete y (B.onCollide y x (B.onCollide x y w))) ++
        [Event.delete x, Event.erase x]) :=
      collisionEvents_log x y true _
        (CollisionLog.delete x _ (CollisionLog.erase x _ CollisionLog.nil))
    have hfirst : Event.toDelete x true ∈ collisionEvents x y true
        (toDelete y (B.onCollide y x (B.onCollide x y w))) ++
        [Event.delete x, Event.erase x] :=
      List.mem_append_left _ (mem_collisionEvents_first x y true _)
    by_cases hj : toDelete y (B.onCollide y x (B.onCollide x y w)) = true
    · rw [if_pos hj]
      have hlb : (B.destructor x
          ((B.destructor y (B.onCollide y x (B.onCollide x y w))).eraseAt rb j)).list rb =
          (w.list rb).eraseIdx j := by
        rw [hD _ _ rb (Or.inr rfl), World.list_eraseAt, hD _ _ rb (Or.inr rfl),
          h2 y w rb (Or.inr rfl)]
      refine ⟨hlog, ?_, ?_, fun _ => hfirst, ?_, ?_⟩
      · rw [hlb]
        exact List.eraseIdx_sublist _ _
      · intro e he hn
        rw [hlb] at hn
        rcases mem_eraseIdx_or j he with h3 | h3
        · exact absurd h3 hn
        · rw [hy] at h3
          rw [← Option.some.inj h3]
          refine List.mem_append_left _ ?_
          have := mem_collisionEvents_second x y true
            (toDelete y (B.onCollide y x (B.onCollide x y w)))
          rw [hj] at this
          rw [hj]
          exact this
      · rw [hD _ _ ra (Or.inl rfl), getElem?_eraseAt_keep _ ra rb i j hij,
          hD _ _ ra (Or.inl rfl), h2 y w ra (Or.inl rfl)]
        exact hx
      · intro hne
        rw [hD _ _ ra (Or.inl rfl), World.list_eraseAt_of_ne _ _ _ _ hne,
          hD _ _ ra (Or.inl rfl), h2 y w ra (Or.inl rfl)]
    · rw [if_neg hj]
      have hlb : (B.destructor x (B.onCollide y x (B.onCollide x y w))).list rb =
          w.list rb := by
        rw [hD _ _ rb (Or.inr rfl), h2 y w rb (Or.inr rfl)]
      have hla : (B.destructor x (B.onCollide y x (B.onCollide x y w))).list ra =
          w.list ra := by
        rw [hD _ _ ra (Or.inl rfl), h2 y w ra (Or.inl rfl)]
      refine ⟨hlog, ?_, ?_, fun _ => hfirst, ?_, fun _ => hla⟩
      · rw [hlb]
      · intro e he hn
        rw [hlb] at hn
        exact absurd he hn
      · rw [hla]
        exact hx
  · intro j w y r hy _ hi hj ih hx hij
    dsimp only
    have hlb : ((B.destructor y (B.onCollide y x (B.onCollide x y w))).eraseAt rb j).list rb =
        (w.list rb).eraseIdx j := by
      rw [World.list_eraseAt, hD _ _ rb (Or.inr rfl), h2 y w rb (Or.inr rfl)]
    have hxa : (((B.destructor y (B.onCollide y x (B.onCollide x y w))).eraseAt rb j).list
        ra)[i]? = some x := by
      rw [getElem?_eraseAt_keep _ ra rb i j hij, hD _ _ ra (Or.inl rfl),
        h2 y w ra (Or.inl rfl)]
      exact hx
    obtain ⟨i1, i2, i3, i4, i5, i6⟩ := ih hxa hij
    rw [hlb] at i2 i3
    refine ⟨collisionEvents_log x y false true i1,
      i2.trans (List.eraseIdx_sublist _ _), ?_, ?_, i5, ?_⟩
    · intro e he hn
      rcases mem_eraseIdx_or j he with h3 | h3
      · exact List.mem_append_right _ (i3 e h3 hn)
      · rw [hy] at h3
        rw [← Option.some.inj h3]
        exact List.mem_append_left _ (mem_collisionEvents_second x y false true)
    · intro he
      exact List.mem_append_right _ (i4 he)
    · intro hne
      rw [i6 hne, World.list_eraseAt_of_ne _ _ _ _ hne, hD _ _ ra (Or.inl rfl),
        h2 y w ra (Or.inl rfl)]
  · intro j w y r hy _ hi hj ih hx hij
    dsimp only
    have hxa : ((B.onCollide y x (B.onCollide x y w)).list ra)[i]? = some x := by
      rw [h2 y w ra (Or.inl rfl)]
      exact hx
    obtain ⟨i1, i2, i3, i4, i5, i6⟩ := ih hxa (fun h => Nat.lt_succ_of_lt (hij h))
    rw [h2 y w rb (Or.inr rfl)] at i2 i3
    refine ⟨collisionEvents_log x y false false i1, i2, ?_, ?_, i5, ?_⟩
    · intro e he hn
      exact List.mem_append_right _ (i3 e he hn)
    · intro he
      exact List.mem_append_right _ (i4 he)
    · intro hne
      rw [i6 hne, h2 y w ra (Or.inl rfl)]

/-- The outer loop of the self pass when no method changes the registry: it
only loses elements, each after its flag was read true. -/
theorem selfLoopILive_removed {H : Type} (B : Behaviour H) (list : Registry)
    (hC : ∀ a b v, (B.onCollide a b v).list list = v.list list)
    (hD : ∀ a v, (B.destructor a v).list list = v.list list)
    (fuel i : Nat) (w : World H) (p : World H × Trace)
    (h : selfLoopILive B list fuel i w = some p) :
    CollisionLog p.2 ∧ (p.1.list list).Sublist (w.list list) ∧
    ∀ e ∈ w.list list, e ∉ p.1.list list → Event.toDelete e true ∈ p.2 := by
  have hC2 : ∀ a b v r, (r = list ∨ r = list) → (B.onCollide a b v).list r = v.list r :=
    fun a b v r hr => by rcases hr with rfl | rfl <;> exact hC a b v
  have hD2 : ∀ a v r, (r = list ∨ r = list) → (B.destructor a v).list r = v.list r :=
    fun a v r hr => by rcases hr with rfl | rfl <;> exact hD a v
  refine selfLoopILive_induction B list
    (fun _ w p => CollisionLog p.2 ∧ (p.1.list list).Sublist (w.list list) ∧
      ∀ e ∈ w.list list, e ∉ p.1.list list → Event.toDelete e true ∈ p.2)
    ?_ ?_ ?_ fuel i w p h
  · intro i w _
    exact ⟨CollisionLog.nil, List.Sublist.refl _, fun e he hn => absurd he hn⟩
  · intro i w x f r p hx hr _ ih
    obtain ⟨j1, j2, j3, _, _, _⟩ := loopJLive_removed B x list list hC2 hD2 i f (i + 1) w r hr
      hx (fun _ => Nat.lt_succ_self i)
    obtain ⟨i1, i2, i3⟩ := ih
    refine ⟨j1.append i1, i2.trans j2, ?_⟩
    intro e he hn
    by_cases hm : e ∈ r.world.list list
    · exact List.mem_append_right _ (i3 e hm hn)
    · exact List.mem_append_left _ (j3 e he hm)
  · intro i w x f r p hx hr he ih
    obtain ⟨j1, j2, j3, j4, j5, _⟩ := loopJLive_removed B x list list hC2 hD2 i f (i + 1) w r
      hr hx (fun _ => Nat.lt_succ_self i)
    obtain ⟨i1, i2, i3⟩ := ih
    rw [World.list_eraseAt] at i2 i3
    refine ⟨j1.append i1, (i2.trans (List.eraseIdx_sublist _ _)).trans j2, ?_⟩
    intro e he2 hn
    by_cases hm : e ∈ r.world.list list
    · rcases mem_eraseIdx_or i hm with h3 | h3
      · exact List.mem_append_right _ (i3 e h3 hn)
      · rw [j5] at h3
        rw [← Option.some.inj h3]
        exact List.mem_append_left _ (j4 he)
    · exact List.mem_append_left _ (j3 e he2 hm)

/-- The outer loop of the cross pass on two different registries when no
method changes them: both only lose elements, each after its flag was read
true. -/
theorem crossLoopILive_removed {H : Type} (B : Behaviour H) (listA listB : Registry)
    (hne : listA ≠ listB)
    (hC : ∀ a b v r, (r = listA ∨ r = listB) → (B.onCollide a b v).list r = v.list r)
    (hD : ∀ a v r, (r = listA ∨ r = listB) → (B.destructor a v).list r = v.list r)
    (fuel i : Nat) (w : World H) (p : World H × Trace)
    (h : crossLoopILive B listA listB fuel i w = some p) :
    CollisionLog p.2 ∧
    (p.1.list listA).Sublist (w.list listA) ∧ (p.1.list listB).Sublist (w.list listB) ∧
    (∀ e ∈ w.list listA, e ∉ p.1.list listA → Event.toDelete e true ∈ p.2) ∧
    (∀ e ∈ w.list listB, e ∉ p.1.list listB → Event.toDelete e true ∈ p.2) := by
  refine crossLoopILive_induction B listA listB
    (fun _ w p => CollisionLog p.2 ∧
      (p.1.list listA).Sublist (w.list listA) ∧ (p.1.list listB).Sublist (w.list listB) ∧
      (∀ e ∈ w.list listA, e ∉ p.1.list listA → Event.toDelete e true ∈ p.2) ∧
      (∀ e ∈ w.list listB, e ∉ p.1.list listB → Event.toDelete e true ∈ p.2))
    ?_ ?_ ?_ fuel i w p h
  · intro i w _
    exact ⟨CollisionLog.nil, List.Sublist.refl _, List.Sublist.refl _,
      fun e he hn => absurd he hn, fun e he hn => absurd he hn⟩
  · intro i w x f r p hx hr _ ih
    obtain ⟨j1, j2, j3, _, _, j6⟩ := loopJLive_removed B x listA listB hC hD i f 0 w r hr hx
      (fun h => absurd h hne)
    obtain ⟨i1, i2, i3, i4, i5⟩ := ih
    rw [j6 hne] at i2 i4
    refine ⟨j1.append i1, i2, i3.trans j2, ?_, ?_⟩
    · intro e he hn
      exact List.mem_append_right _ (i4 e he hn)
    · intro e he hn
      by_cases hm : e ∈ r.world.list listB
      · exact List.mem_append_right _ (i5 e hm hn)
      · exact List.mem_append_left _ (j3 e he hm)
  · intro i w x f r p hx hr he ih
    obtain ⟨j1, j2, j3, j4, j5, j6⟩ := loopJLive_removed B x listA listB hC hD i f 0 w r hr hx
      (fun h => absurd h hne)
    obtain ⟨i1, i2, i3, i4, i5⟩ := ih
    rw [World.list_eraseAt, j6 hne] at i2 i4
    rw [World.list_eraseAt_of_ne _ _ _ _ (Ne.symm hne)] at i3 i5
    refine ⟨j1.append i1, i2.trans (List.eraseIdx_sublist _ _), i3.trans j2, ?_, ?_⟩
    · intro e he2 hn
      rcases mem_eraseIdx_or i he2 with h3 | h3
      · exact List.mem_append_right _ (i4 e h3 hn)
      · rw [hx] at h3
        rw [← Option.some.inj h3]
        exact List.mem_append_left _ (j4 he)
    · intro e he2 hn
      by_cases hm : e ∈ r.world.list listB
      · exact List.mem_append_right _ (i5 e hm hn)
      · exact List.mem_append_left _ (j3 e he2 hm)

/-- The outer loop of the self pass returns when no method changes the
registry and the bound is at least the number of elements from `i` on, plus
one. -/
theorem selfLoopILive_returns {H : Type} (B : Behaviour H) (list : Registry)
    (hC : ∀ a b v, (B.onCollide a b v).list list = v.list list)
    (hD : ∀ a v, (B.destructor a v).list list = v.list list)
    (fuel i : Nat) (w : World H) (hf : (w.list list).length - i + 1 ≤ fuel) :
    ∃ p, selfLoopILive B list fuel i w = some p := by
  have hC2 : ∀ a b v r, (r = list ∨ r = list) → (B.onCollide a b v).list r = v.list r :=
    fun a b v r hr => by rcases hr with rfl | rfl <;> exact hC a b v
  have hD2 : ∀ a v r, (r = list ∨ r = list) → (B.destructor a v).list r = v.list r :=
    fun a v r hr => by rcases hr with rfl | rfl <;> exact hD a v
  induction fuel generalizing i w with
  | zero => omega
  | succ n ih =>
    unfold selfLoopILive
    cases hx : (w.list list)[i]? with
    | none => exact ⟨_, rfl⟩
    | some x =>
      have hlt : i < (w.list list).length := (List.getElem?_eq_some_iff.mp hx).1
      obtain ⟨r, hr⟩ := loopJLive_returns B x list hC hD n (i + 1) w (by omega)
      obtain ⟨_, j2, _, _, j5, _⟩ := loopJLive_removed B x list list hC2 hD2 i n (i + 1) w r
        hr hx (fun _ => Nat.lt_succ_self i)
      have hlen := j2.length_le
      have hlt2 : i < (r.world.list list).length := (List.getElem?_eq_some_iff.mp j5).1
      simp only [hr]
      rcases Exit.next_or_restart r.exit with he | he
      · simp only [he]
        obtain ⟨p, hp⟩ := ih (i + 1) r.world (by omega)
        rw [hp]
        exact ⟨_, rfl⟩
      · simp only [he]
        obtain ⟨p, hp⟩ := ih i (r.world.eraseAt list i) (by
          rw [World.list_eraseAt, List.length_eraseIdx]
          simp only [hlt2, if_true]
          omega)
        rw [hp]
        exact ⟨_, rfl⟩

/-- The outer loop of the cross pass on two different registries returns when
no method changes them and the bound is at least the number of elements of
`listA` from `i` on, plus the size of `listB`, plus one. -/
theorem crossLoopILive_returns {H : Type} (B : Behaviour H) (listA listB : Registry)
    (hne : listA ≠ listB)
    (hC : ∀ a b v r, (r = listA ∨ r = listB) → (B.onCollide a b v).list r = v.list r)
    (hD : ∀ a v r, (r = listA ∨ r = listB) → (B.destructor a v).list r = v.list r)
    (fuel i : Nat) (w : World H)
    (hf : (w.list listA).length - i + (w.list listB).length + 1 ≤ fuel) :
    ∃ p, crossLoopILive B listA listB fuel i w = some p := by
  induction fuel generalizing i w with
  | zero => omega
  | succ n ih =>
    unfold crossLoopILive
    cases hx : (w.list listA)[i]? with
    | none => exact ⟨_, rfl⟩
    | some x =>
      have hlt : i < (w.list listA).length := (List.getElem?_eq_some_iff.mp hx).1
      obtain ⟨r, hr⟩ := loopJLive_returns B x listB (fun a b v => hC a b v listB (Or.inr rfl))
        (fun a v => hD a v listB (Or.inr rfl)) n 0 w (by omega)
      obtain ⟨_, j2, _, _, j5, j6⟩ := loopJLive_removed B x listA listB hC hD i n 0 w r hr hx
        (fun h => absurd h hne)
      have hlen := j2.length_le
      have hla := j6 hne
      simp only [hr]
      rcases Exit.next_or_restart r.exit with he | he
      · simp only [he]
        obtain ⟨p, hp⟩ := ih (i + 1) r.world (by rw [hla]; omega)
        rw [hp]
        exact ⟨_, rfl⟩
      · simp only [he]
        obtain ⟨p, hp⟩ := ih i (r.world.eraseAt listA i) (by
          rw [World.list_eraseAt, World.list_eraseAt_of_ne _ _ _ _ (Ne.symm hne),
            List.length_eraseIdx, hla]
          simp only [hlt, if_true]
          omega)
        rw [hp]
        exact ⟨_, rfl⟩

/-- C15 (amended): when no `onCollide` call and no destructor changes the registries
a pass runs over, the pass only removes. With a bound on the steps of at least
the size of the registries plus one, `checkCollisionsSelf` returns, and
`checkCollisions` on two different registries returns; the registry left (each
of the two) is a subsequence of the registry before the pass; an entity is
missing from it only if its delete flag was read true; every read of a delete
flag follows directly on the two `onCollide` calls of a collision that entity
took part in; so an entity that took part in no collision, or whose flag was
never read true, is still in its registry. -/
theorem passes_only_remove (H : Type) (B : Behaviour H) (listA listB : Registry)
    (fuel : Nat) (w : World H) (hne : listA ≠ listB)
    (hC : ∀ a b v r, (r = listA ∨ r = listB) → (B.onCollide a b v).list r = v.list r)
    (hD : ∀ a v r, (r = listA ∨ r = listB) → (B.destructor a v).list r = v.list r)
    (hf : (w.list listA).length + (w.list listB).length + 1 ≤ fuel) :
    (∃ p, checkCollisionsSelfLive B listA fuel w = some p ∧
      OnlyRemoves (w.list listA) (p.1.list listA) p.2 ∧ FlagReadsFollowCollisions p.2) ∧
    (∃ p, checkCollisionsLive B listA listB fuel w = some (Except.ok p) ∧
      OnlyRemoves (w.list listA) (p.1.list listA) p.2 ∧
      OnlyRemoves (w.list listB) (p.1.list listB) p.2 ∧
      FlagReadsFollowCollisions p.2) := by
  constructor
  · obtain ⟨p, hp⟩ := selfLoopILive_returns B listA (fun a b v => hC a b v listA (Or.inl rfl))
      (fun a v => hD a v listA (Or.inl rfl)) fuel 0 w (by omega)
    obtain ⟨h1, h2, h3⟩ := selfLoopILive_removed B listA
      (fun a b v => hC a b v listA (Or.inl rfl)) (fun a v => hD a v listA (Or.inl rfl))
      fuel 0 w p hp
    exact ⟨p, hp, onlyRemoves_of h1 h2 h3, h1.flag_reads⟩
  · obtain ⟨p, hp⟩ := crossLoopILive_returns B listA listB hne hC hD fuel 0 w (by omega)
    obtain ⟨h1, h2, h3, h4, h5⟩ := crossLoopILive_removed B listA listB hne hC hD fuel 0 w p hp
    exact ⟨p, (checkCollisionsLive_ok B listA listB fuel w p).mpr ⟨hne, hp⟩,
      onlyRemoves_of h1 h2 h4, onlyRemoves_of h1 h3 h5, h1.flag_reads⟩


/-! ## Theorems: the result of a pass does not depend on the bound -/

theorem loopJLive_fuel {H : Type} (B : Behaviour H) (x : EntityId) (rb : Registry)
    (n m j : Nat) (w : World H) (r : InnerLive H) (hnm : n ≤ m)
    (h : loopJLive B x rb n j w = some r) : loopJLive B x rb m j w = some r := by
  induction n generalizing m j w r with
  | zero => simp [loopJLive] at h
  | succ n ih =>
    cases m with
    | zero => omega
    | succ m =>
      have hle : n ≤ m := by omega
      unfold loopJLive at h ⊢
      cases hy : (w.list rb)[j]? with
      | none =>
        simp only [hy] at h ⊢
        exact h
      | some y =>
        simp only [hy] at h ⊢
        by_cases hc : B.didCollide x y w = true
        · by_cases hi : toDelete x (B.onCollide y x (B.onCollide x y w)) = true
          · simp only [hc, hi, if_true] at h ⊢
            exact h
          · simp only [Bool.not_eq_true] at hi
            by_cases hj : toDelete y (B.onCollide y x (B.onCollide x y w)) = true
            · simp only [hc, hi, hj, if_true, Bool.false_eq_true, if_false] at h ⊢
              cases h2 : loopJLive B x rb n j
                  ((B.destructor y (B.onCollide y x (B.onCollide x y w))).eraseAt rb j) with
              | none => simp [h2, innerAfter] at h
              | some r2 =>
                rw [h2] at h
                rw [ih m _ _ r2 hle h2]
                exact h
            · simp only [Bool.not_eq_true] at hj
              simp only [hc, hi, hj, if_true, Bool.false_eq_true, if_false] at h ⊢
              cases h2 : loopJLive B x rb n (j + 1) (B.onCollide y x (B.onCollide x y w)) with
              | none => simp [h2, innerAfter] at h
              | some r2 =>
                rw [h2] at h
                rw [ih m _ _ r2 hle h2]
                exact h
        · simp only [Bool.not_eq_true] at hc
          simp only [hc, Bool.false_eq_true, if_false] at h ⊢
          cases h2 : loopJLive B x rb n (j + 1) w with
          | none => simp [h2, innerAfter] at h
          | some r2 =>
            rw [h2] at h
            rw [ih m _ _ r2 hle h2]
            exact h

theorem selfLoopILive_fuel {H : Type} (B : Behaviour H) (list : Registry)
    (n m i : Nat) (w : World H) (p : World H × Trace) (hnm : n ≤ m)
    (h : selfLoopILive B list n i w = some p) : selfLoopILive B list m i w = some p := by
  induction n generalizing m i w p with
  | zero => simp [selfLoopILive] at h
  | succ n ih =>
    cases m with
    | zero => omega
    | succ m =>
      have hle : n ≤ m := by omega
      unfold selfLoopILive at h ⊢
      cases hx : (w.list list)[i]? with
      | none =>
        simp only [hx] at h ⊢
        exact h
      | some x =>
        simp only [hx] at h ⊢
        cases hr : loopJLive B x list n (i + 1) w with
        | none => simp [hr] at h
        | some r =>
          simp only [hr] at h
          simp only [loopJLive_fuel B x list n m (i + 1) w r hle hr]
          rcases Exit.next_or_restart r.exit with he | he
          · simp only [he] at h ⊢
            cases h2 : selfLoopILive B list n (i + 1) r.world with
            | none => simp [h2, logAfter] at h
            | some p2 =>
              rw [h2] at h
              rw [ih m _ _ p2 hle h2]
              exact h
          · simp only [he] at h ⊢
            cases h2 : selfLoopILive B list n i (r.world.eraseAt list i) with
            | none => simp [h2, logAfter] at h
            | some p2 =>
              rw [h2] at h
              rw [ih m _ _ p2 hle h2]
              exact h

theorem crossLoopILive_fuel {H : Type} (B : Behaviour H) (listA listB : Registry)
    (n m i : Nat) (w : World H) (p : World H × Trace) (hnm : n ≤ m)
    (h : crossLoopILive B listA listB n i w = some p) :
    crossLoopILive B listA listB m i w = some p := by
  induction n generalizing m i w p with
  | zero => simp [crossLoopILive] at h
  | succ n ih =>
    cases m with
    | zero => omega
    | succ m =>
      have hle : n ≤ m := by omega
      unfold crossLoopILive at h ⊢
      cases hx : (w.list listA)[i]? with
      | none =>
        simp only [hx] at h ⊢
        exact h
      | some x =>
        simp only [hx] at h ⊢
        cases hr : loopJLive B x listB n 0 w with
        | none => simp [hr] at h
        | some r =>
          simp only [hr] at h
          simp only [loopJLive_fuel B x listB n m 0 w r hle hr]
          rcases Exit.next_or_restart r.exit with he | he
          · simp only [he] at h ⊢
            cases h2 : crossLoopILive B listA listB n (i + 1) r.world with
            | none => simp [h2, logAfter] at h
            | some p2 =>
              rw [h2] at h
              rw [ih m _ _ p2 hle h2]
              exact h
          · simp only [he] at h ⊢
            cases h2 : crossLoopILive B listA listB n i (r.world.eraseAt listA i) with
            | none => simp [h2, logAfter] at h
            | some p2 =>
              rw [h2] at h
              rw [ih m _ _ p2 hle h2]
              exact h

theorem updateLoopLive_fuel {H : Type} (B : Behaviour H) (list : Registry)
    (n m i : Nat) (w : World H) (p : World H × Trace) (hnm : n ≤ m)
    (h : updateLoopLive B list n i w = some p) : updateLoopLive B list m i w = some p := by
  induction n generalizing m i w p with
  | zero => simp [updateLoopLive] at h
  | succ n ih =>
    cases m with
    | zero => omega
    | succ m =>
      have hle : n ≤ m := by omega
      unfold updateLoopLive at h ⊢
      cases hx : (w.list list)[i]? with
      | none =>
        simp only [hx] at h ⊢
        exact h
      | some e =>
        simp only [hx] at h ⊢
        by_cases hd : toDelete e (B.update e w) = true
        · simp only [hd, if_true] at h ⊢
          cases h2 : updateLoopLive B list n i
              ((B.destructor e (B.update e w)).eraseAt list i) with
          | none => simp [h2, logAfter] at h
          | some p2 =>
            rw [h2] at h
            rw [ih m _ _ p2 hle h2]
            exact h
        · simp only [Bool.not_eq_true] at hd
          simp only [hd, Bool.false_eq_true, if_false] at h ⊢
          cases h2 : updateLoopLive B list n (i + 1) (B.update e w) with
          | none => simp [h2, logAfter] at h
          | some p2 =>
            rw [h2] at h
            rw [ih m _ _ p2 hle h2]
            exact h

theorem checkCollisionsLive_fuel {H : Type} (B : Behaviour H) (listA listB : Registry)
    (n m : Nat) (w : World H) (e : Except (Abort H) (World H × Trace)) (hnm : n ≤ m)
    (h : checkCollisionsLive B listA listB n w = some e) :
    checkCollisionsLive B listA listB m w = some e := by
  unfold checkCollisionsLive at h ⊢
  by_cases hl : listA = listB
  · simp only [hl, if_true] at h ⊢
    exact h
  · simp only [hl, if_false] at h ⊢
    cases h2 : crossLoopILive B listA listB n 0 w with
    | none => simp [h2] at h
    | some p =>
      rw [h2] at h
      rw [crossLoopILive_fuel B listA listB n m 0 w p hnm h2]
      exact h

theorem afterPass_some {H : Type} (p : Option (Except (Abort H) (World H × Trace)))
    (f : World H × Trace → Option (Except (Abort H) (World H × Trace)))
    (e : Except (Abort H) (World H × Trace)) (h : afterPass p f = some e) :
    (∃ a, p = some (Except.error a) ∧ e = Except.error a) ∨
    (∃ r, p = some (Except.ok r) ∧ f r = some e) := by
  cases p with
  | none => simp [afterPass] at h
  | some q =>
    cases q with
    | error a =>
      simp only [afterPass, Option.some.injEq] at h
      exact Or.inl ⟨a, rfl, h.symm⟩
    | ok r => exact Or.inr ⟨r, rfl, h⟩

theorem afterPass_fuel {H : Type} (p q : Option (Except (Abort H) (World H × Trace)))
    (f g : World H × Trace → Option (Except (Abort H) (World H × Trace)))
    (e : Except (Abort H) (World H × Trace))
    (hp : ∀ e2, p = some e2 → q = some e2) (hf : ∀ r e2, f r = some e2 → g r = some e2)
    (h : afterPass p f = some e) : afterPass q g = some e := by
  rcases afterPass_some p f e h with ⟨a, h1, h2⟩ | ⟨r, h1, h2⟩
  · rw [hp _ h1, h2]
    rfl
  · rw [hp _ h1]
    exact hf r e h2

theorem updatePhaseLive_fuel {H : Type} (B : Behaviour H) (n m : Nat) (w : World H)
    (u : World H × Trace) (hnm : n ≤ m) (h : updatePhaseLive B n w = some u) :
    updatePhaseLive B m w = some u := by
  simp only [updatePhaseLive, updateEntitiesLive, Option.bind_eq_some] at h ⊢
  obtain ⟨u1, h1, u2, h2, u3, h3, hu⟩ := h
  exact ⟨u1, updateLoopLive_fuel B _ n m 0 _ u1 hnm h1,
    u2, updateLoopLive_fuel B _ n m 0 _ u2 hnm h2,
    u3, updateLoopLive_fuel B _ n m 0 _ u3 hnm h3, hu⟩

theorem collisionPhaseLive_fuel {H : Type} (B : Behaviour H) (n m : Nat) (w : World H)
    (e : Except (Abort H) (World H × Trace)) (hnm : n ≤ m)
    (h : collisionPhaseLive B n w = some e) : collisionPhaseLive B m w = some e := by
  simp only [collisionPhaseLive, checkCollisionsSelfLive, Option.bind_eq_some] at h ⊢
  obtain ⟨c1, h1, h⟩ := h
  refine ⟨c1, selfLoopILive_fuel B _ n m 0 w c1 hnm h1, ?_⟩
  refine afterPass_fuel _ _ _ _ e (fun e2 => checkCollisionsLive_fuel B _ _ n m _ e2 hnm) ?_ h
  intro c2 e2 h
  refine afterPass_fuel _ _ _ _ e2 (fun e3 => checkCollisionsLive_fuel B _ _ n m _ e3 hnm) ?_ h
  intro c3 e3 h
  refine afterPass_fuel _ _ _ _ e3 (fun e4 => checkCollisionsLive_fuel B _ _ n m _ e4 hnm) ?_ h
  intro c4 e4 h
  exact h

/-- What `animate()` returns within a bound on the steps of the loops, it
returns within every greater bound. -/
theorem animateLive_fuel {H : Type} (B : Behaviour H) (n m : Nat) (w : World H)
    (e : Except (Abort H) (World H × Trace)) (hnm : n ≤ m)
    (h : animateLive B n w = some e) : animateLive B m w = some e := by
  simp only [animateLive, Option.bind_eq_some] at h ⊢
  obtain ⟨u, hu, h⟩ := h
  refine ⟨u, updatePhaseLive_fuel B n m w u hnm hu, ?_⟩
  exact afterPass_fuel _ _ _ _ e (fun e2 => collisionPhaseLive_fuel B n m _ e2 hnm)
    (fun _ _ h2 => h2) h


/-! ## Theorems: the passes return when nothing is inserted -/

theorem updateLoopLive_returns {H : Type} (B : Behaviour H) (list : Registry)
    (hU : ∀ a v, (B.update a v).list list = v.list list)
    (hD : ∀ a v, (B.destructor a v).list list = v.list list)
    (fuel i : Nat) (w : World H) (hf : (w.list list).length - i + 1 ≤ fuel) :
    ∃ p, updateLoopLive B list fuel i w = some p := by
  induction fuel generalizing i w with
  | zero => omega
  | succ n ih =>
    unfold updateLoopLive
    cases hx : (w.list list)[i]? with
    | none => exact ⟨_, rfl⟩
    | some e =>
      have hlt : i < (w.list list).length := (List.getElem?_eq_some_iff.mp hx).1
      simp only
      by_cases hd : toDelete e (B.update e w) = true
      · simp only [hd, if_true]
        obtain ⟨p, hp⟩ := ih i ((B.destructor e (B.update e w)).eraseAt list i) (by
          rw [World.list_eraseAt, List.length_eraseIdx, hD, hU]
          simp only [hlt, if_true]
          omega)
        rw [hp]
        exact ⟨_, rfl⟩
      · simp only [Bool.not_eq_true] at hd
        simp only [hd, Bool.false_eq_true, if_false]
        obtain ⟨p, hp⟩ := ih (i + 1) (B.update e w) (by rw [hU]; omega)
        rw [hp]
        exact ⟨_, rfl⟩

/-- The update loop only removes from the registries when no method changes
them. -/
theorem updateLoopLive_shrinks {H : Type} (B : Behaviour H) (list : Registry)
    (hU : ∀ a v r, (B.update a v).list r = v.list r)
    (hD : ∀ a v r, (B.destructor a v).list r = v.list r)
    (fuel i : Nat) (w : World H) (p : World H × Trace)
    (h : updateLoopLive B list fuel i w = some p) :
    ∀ r, (p.1.list r).Sublist (w.list r) := by
  refine updateLoopLive_induction B list (fun _ w p => ∀ r, (p.1.list r).Sublist (w.list r))
    ?_ ?_ ?_ fuel i w p h
  · intro i w _ r
    exact List.Sublist.refl _
  · intro i w e p _ _ ih r
    refine (ih r).trans ?_
    have := list_eraseAt_sublist (B.destructor e (B.update e w)) list r i
    rw [hD, hU] at this
    exact this
  · intro i w e p _ _ ih r
    have := ih r
    rw [hU] at this
    exact this

/-- The inner loop only removes from the registries when no method changes
them. -/
theorem loopJLive_shrinks {H : Type} (B : Behaviour H) (x : EntityId) (rb : Registry)
    (hC : ∀ a b v r, (B.onCollide a b v).list r = v.list r)
    (hD : ∀ a v r, (B.destructor a v).list r = v.list r)
    (fuel j : Nat) (w : World H) (r : InnerLive H) (h : loopJLive B x rb fuel j w = some r) :
    ∀ r2, (r.world.list r2).Sublist (w.list r2) := by
  refine loopJLive_induction B x rb (fun _ w r => ∀ r2, (r.world.list r2).Sublist (w.list r2))
    ?_ ?_ ?_ ?_ ?_ fuel j w r h
  · intro j w _ r2
    exact List.Sublist.refl _
  · intro j w y r _ _ ih r2
    exact ih r2
  · intro j w y _ _ _ r2
    dsimp only
    split
    · have := list_eraseAt_sublist (B.destructor y (B.onCollide y x (B.onCollide x y w))) rb
        r2 j
      rw [hD, hC, hC] at this
      rw [hD]
      exact this
    · rw [hD, hC, hC]
  · intro j w y r _ _ _ _ ih r2
    refine (ih r2).trans ?_
    have := list_eraseAt_sublist (B.destructor y (B.onCollide y x (B.onCollide x y w))) rb
      r2 j
    rw [hD, hC, hC] at this
    exact this
  · intro j w y r _ _ _ _ ih r2
    have := ih r2
    rw [hC, hC] at this
    exact this

theorem selfLoopILive_shrinks {H : Type} (B : Behaviour H) (list : Registry)
    (hC : ∀ a b v r, (B.onCollide a b v).list r = v.list r)
    (hD : ∀ a v r, (B.destructor a v).list r = v.list r)
    (fuel i : Nat) (w : World H) (p : World H × Trace)
    (h : selfLoopILive B list fuel i w = some p) :
    ∀ r, (p.1.list r).Sublist (w.list r) := by
  refine selfLoopILive_induction B list (fun _ w p => ∀ r, (p.1.list r).Sublist (w.list r))
    ?_ ?_ ?_ fuel i w p h
  · intro i w _ r
    exact List.Sublist.refl _
  · intro i w x f r p _ hr _ ih r2
    exact (ih r2).trans (loopJLive_shrinks B x list hC hD f (i + 1) w r hr r2)
  · intro i w x f r p _ hr _ ih r2
    exact ((ih r2).trans (list_eraseAt_sublist r.world list r2 i)).trans
      (loopJLive_shrinks B x list hC hD f (i + 1) w r hr r2)

theorem crossLoopILive_shrinks {H : Type} (B : Behaviour H) (listA listB : Registry)
    (hC : ∀ a b v r, (B.onCollide a b v).list r = v.list r)
    (hD : ∀ a v r, (B.destructor a v).list r = v.list r)
    (fuel i : Nat) (w : World H) (p : World H × Trace)
    (h : crossLoopILive B listA listB fuel i w = some p) :
    ∀ r, (p.1.list r).Sublist (w.list r) := by
  refine crossLoopILive_induction B listA listB
    (fun _ w p => ∀ r, (p.1.list r).Sublist (w.list r)) ?_ ?_ ?_ fuel i w p h
  · intro i w _ r
    exact List.Sublist.refl _
  · intro i w x f r p _ hr _ ih r2
    exact (ih r2).trans (loopJLive_shrinks B x listB hC hD f 0 w r hr r2)
  · intro i w x f r p _ hr _ ih r2
    exact ((ih r2).trans (list_eraseAt_sublist r.world listA r2 i)).trans
      (loopJLive_shrinks B x listB hC hD f 0 w r hr r2)

/-- When no method changes a registry, `animate()` returns within every bound
on the steps of the loops that is greater than the size of the three
registries together. -/
theorem animateLive_returns {H : Type} (B : Behaviour H)
    (hU : ∀ a v r, (B.update a v).list r = v.list r)
    (hC : ∀ a b v r, (B.onCollide a b v).list r = v.list r)
    (hD : ∀ a v r, (B.destructor a v).list r = v.list r)
    (fuel : Nat) (w : World H)
    (hf : (w.list Registry.wEntities).length + (w.list Registry.wWalls).length +
      (w.list Registry.wSoftEntities).length + 1 ≤ fuel) :
    ∃ u c r, updatePhaseLive B fuel w = some u ∧
      collisionPhaseLive B fuel u.1 = some (Except.ok c) ∧
      animateLive B fuel w = some (Except.ok r) := by
  have hw0 : ∀ r, ({ w with frameCount := w.frameCount + 1 } : World H).list r = w.list r :=
    fun r => by cases r <;> rfl
  obtain ⟨u1, h1⟩ := updateLoopLive_returns B Registry.wEntities (fun a v => hU a v _)
    (fun a v => hD a v _) fuel 0 { w with frameCount := w.frameCount + 1 }
    (by rw [hw0]; omega)
  have s1 := updateLoopLive_shrinks B _ hU hD fuel 0 _ u1 h1
  have l1 := fun r => (s1 r).length_le
  simp only [hw0] at l1
  obtain ⟨u2, h2⟩ := updateLoopLive_returns B Registry.wWalls (fun a v => hU a v _)
    (fun a v => hD a v _) fuel 0 u1.1 (by have := l1 Registry.wWalls; omega)
  have s2 := updateLoopLive_shrinks B _ hU hD fuel 0 _ u2 h2
  have l2 := fun r => le_trans (s2 r).length_le (l1 r)
  obtain ⟨u3, h3⟩ := updateLoopLive_returns B Registry.wSoftEntities (fun a v => hU a v _)
    (fun a v => hD a v _) fuel 0 u2.1 (by have := l2 Registry.wSoftEntities; omega)
  have s3 := updateLoopLive_shrinks B _ hU hD fuel 0 _ u3 h3
  have l3 := fun r => le_trans (s3 r).length_le (l2 r)
  obtain ⟨c1, k1⟩ := selfLoopILive_returns B Registry.wEntities (fun a b v => hC a b v _)
    (fun a v => hD a v _) fuel 0 u3.1 (by have := l3 Registry.wEntities; omega)
  have t1 := selfLoopILive_shrinks B _ hC hD fuel 0 _ c1 k1
  have m1 := fun r => le_trans (t1 r).length_le (l3 r)
  obtain ⟨c2, k2⟩ := crossLoopILive_returns B Registry.wEntities Registry.wWalls (by decide)
    (fun a b v r _ => hC a b v r) (fun a v r _ => hD a v r) fuel 0 c1.1
    (by have := m1 Registry.wEntities; have := m1 Registry.wWalls; omega)
  have t2 := crossLoopILive_shrinks B _ _ hC hD fuel 0 _ c2 k2
  have m2 := fun r => le_trans (t2 r).length_le (m1 r)
  obtain ⟨c3, k3⟩ := crossLoopILive_returns B Registry.wEntities Registry.wSoftEntities
    (by decide) (fun a b v r _ => hC a b v r) (fun a v r _ => hD a v r) fuel 0 c2.1
    (by have := m2 Registry.wEntities; have := m2 Registry.wSoftEntities; omega)
  have t3 := crossLoopILive_shrinks B _ _ hC hD fuel 0 _ c3 k3
  have m3 := fun r => le_trans (t3 r).length_le (m2 r)
  obtain ⟨c4, k4⟩ := crossLoopILive_returns B Registry.wWalls Registry.wSoftEntities
    (by decide) (fun a b v r _ => hC a b v r) (fun a v r _ => hD a v r) fuel 0 c3.1
    (by have := m3 Registry.wWalls; have := m3 Registry.wSoftEntities; omega)
  have hu : updatePhaseLive B fuel w = some (u3.1, u1.2 ++ u2.2 ++ u3.2) := by
    simp only [updatePhaseLive, updateEntitiesLive, h1, h2, h3, Option.some_bind]
  have hc : collisionPhaseLive B fuel u3.1 =
      some (Except.ok (c4.1, c1.2 ++ c2.2 ++ c3.2 ++ c4.2)) := by
    simp only [collisionPhaseLive, checkCollisionsSelfLive, checkCollisionsLive, k1, k2, k3, k4,
      Option.some_bind, Option.map_some', afterPass, reduceCtorEq, if_false]
  have han : animateLive B fuel w = some (Except.ok
      ({ (B.levelEnd (B.sceneUpdate c4.1)).2 with
          MOUSE_EDGE_LEFT := false, MOUSE_EDGE_RIGHT := false },
        (u1.2 ++ u2.2 ++ u3.2) ++ (c1.2 ++ c2.2 ++ c3.2 ++ c4.2) ++
          [Event.sceneUpdate, Event.levelEnd])) := by
    simp only [animateLive, hu, hc, Option.some_bind, afterPass]
  exact ⟨_, _, _, hu, hc, han⟩

/-- When no `onCollide` call and no destructor changes a registry, the four
collision passes of `animate()` return within every bound on the steps of the
loops that is greater than the size of the three registries together. -/
theorem collisionPhaseLive_returns {H : Type} (B : Behaviour H)
    (hC : ∀ a b v r, (B.onCollide a b v).list r = v.list r)
    (hD : ∀ a v r, (B.destructor a v).list r = v.list r)
    (fuel : Nat) (w : World H)
    (hf : (w.list Registry.wEntities).length + (w.list Registry.wWalls).length +
      (w.list Registry.wSoftEntities).length + 1 ≤ fuel) :
    ∃ c, collisionPhaseLive B fuel w = some (Except.ok c) := by
  obtain ⟨c1, k1⟩ := selfLoopILive_returns B Registry.wEntities (fun a b v => hC a b v _)
    (fun a v => hD a v _) fuel 0 w (by omega)
  have t1 := selfLoopILive_shrinks B _ hC hD fuel 0 _ c1 k1
  have m1 := fun r => (t1 r).length_le
  obtain ⟨c2, k2⟩ := crossLoopILive_returns B Registry.wEntities Registry.wWalls (by decide)
    (fun a b v r _ => hC a b v r) (fun a v r _ => hD a v r) fuel 0 c1.1
    (by have := m1 Registry.wEntities; have := m1 Registry.wWalls; omega)
  have t2 := crossLoopILive_shrinks B _ _ hC hD fuel 0 _ c2 k2
  have m2 := fun r => le_trans (t2 r).length_le (m1 r)
  obtain ⟨c3, k3⟩ := crossLoopILive_returns B Registry.wEntities Registry.wSoftEntities
    (by decide) (fun a b v r _ => hC a b v r) (fun a v r _ => hD a v r) fuel 0 c2.1
    (by have := m2 Registry.wEntities; have := m2 Registry.wSoftEntities; omega)
  have t3 := crossLoopILive_shrinks B _ _ hC hD fuel 0 _ c3 k3
  have m3 := fun r => le_trans (t3 r).length_le (m2 r)
  obtain ⟨c4, k4⟩ := crossLoopILive_returns B Registry.wWalls Registry.wSoftEntities
    (by decide) (fun a b v r _ => hC a b v r) (fun a v r _ => hD a v r) fuel 0 c3.1
    (by have := m3 Registry.wWalls; have := m3 Registry.wSoftEntities; omega)
  refine ⟨(c4.1, c1.2 ++ c2.2 ++ c3.2 ++ c4.2), ?_⟩
  simp only [collisionPhaseLive, checkCollisionsSelfLive, checkCollisionsLive, k1, k2, k3, k4,
    Option.some_bind, Option.map_some', afterPass, reduceCtorEq, if_false]

/-! ## Theorems: the tick on the registries of the world -/

/-- C12: when the methods of the entities are tame (`update()`, `onCollide` and
the destructor of an entity flag no other entity, change the registries by
insertions at the back only, and insert unflagged, newly allocated entities),
then on sound registries of the world, whatever delete flags are set at the
start of the tick, and with any bound on the steps of the loops: when the
update phase of `animate()` returns, no registry has a flagged member; when
the four collision passes then return, no registry has a flagged member; they
never abort; each single collision pass that returns keeps registries without a
flagged member so; and the world `animate()` returns has no flagged member
when the scene's update and level-end check flag none. What `animate()`
returns does not depend on the bound; and it does return, within every bound
greater than the size of the three registries together, when no method
changes a registry. -/
theorem no_flagged_entity_after_passes (H : Type) (B : Behaviour H) (fuel : Nat)
    (w : World H)
    (hU : ∀ a v, Tame a v (B.update a v))
    (hC : ∀ a b v, Tame a v (B.onCollide a b v))
    (hD : ∀ a v, Tame a v (B.destructor a v))
    (hs : Sound w) :
    (∀ u, updatePhaseLive B fuel w = some u →
      Sound u.1 ∧ AllClean u.1 ∧
      (∀ c, collisionPhaseLive B fuel u.1 = some (Except.ok c) → Sound c.1 ∧ AllClean c.1) ∧
      (∀ a, collisionPhaseLive B fuel u.1 ≠ some (Except.error a))) ∧
    (∀ v list p, Sound v → AllClean v → checkCollisionsSelfLive B list fuel v = some p →
      Sound p.1 ∧ AllClean p.1) ∧
    (∀ v listA listB p, Sound v → AllClean v →
      checkCollisionsLive B listA listB fuel v = some (Except.ok p) →
      Sound p.1 ∧ AllClean p.1) ∧
    (∀ r, animateLive B fuel w = some (Except.ok r) →
      (∀ v, AllClean v → AllClean (B.levelEnd (B.sceneUpdate v)).2) → AllClean r.1) ∧
    (∀ m e, fuel ≤ m → animateLive B fuel w = some e → animateLive B m w = some e) ∧
    ((∀ a v r, (B.update a v).list r = v.list r) →
      (∀ a b v r, (B.onCollide a b v).list r = v.list r) →
      (∀ a v r, (B.destructor a v).list r = v.list r) →
      (w.list Registry.wEntities).length + (w.list Registry.wWalls).length +
        (w.list Registry.wSoftEntities).length + 1 ≤ fuel →
      ∃ r, animateLive B fuel w = some (Except.ok r)) := by
  have hself : ∀ v list p, Sound v → AllClean v →
      checkCollisionsSelfLive B list fuel v = some p → Sound p.1 ∧ AllClean p.1 :=
    fun v list p hv hc hp => selfLoopILive_clean B hC hD list fuel 0 v p hp hv hc
  have hcross : ∀ v listA listB p, Sound v → AllClean v →
      checkCollisionsLive B listA listB fuel v = some (Except.ok p) →
      Sound p.1 ∧ AllClean p.1 := by
    intro v listA listB p hv hc hp
    obtain ⟨hne, hp2⟩ := (checkCollisionsLive_ok B listA listB fuel v p).mp hp
    exact crossLoopILive_clean B hC hD listA listB hne fuel 0 v p hp2 hv hc
  have hphase : ∀ v c, Sound v → AllClean v →
      collisionPhaseLive B fuel v = some (Except.ok c) → Sound c.1 ∧ AllClean c.1 := by
    intro v c hv hc hp
    obtain ⟨c1, c2, c3, c4, h1, h2, h3, h4, rfl⟩ := collisionPhaseLive_ok B fuel v c hp
    obtain ⟨s1, a1⟩ := selfLoopILive_clean B hC hD _ fuel 0 v c1 h1 hv hc
    obtain ⟨s2, a2⟩ := crossLoopILive_clean B hC hD _ _ (by decide) fuel 0 _ c2 h2 s1 a1
    obtain ⟨s3, a3⟩ := crossLoopILive_clean B hC hD _ _ (by decide) fuel 0 _ c3 h3 s2 a2
    exact crossLoopILive_clean B hC hD _ _ (by decide) fuel 0 _ c4 h4 s3 a3
  refine ⟨?_, hself, hcross, ?_, fun m e hm he => animateLive_fuel B fuel m w e hm he, ?_⟩
  · intro u hu
    obtain ⟨s0, a0⟩ := updatePhaseLive_clean B hU hD fuel w u hu hs
    exact ⟨s0, a0, fun c hc => hphase u.1 c s0 a0 hc,
      fun a => collisionPhaseLive_no_abort B fuel u.1 a⟩
  · intro r hr hscene
    simp only [animateLive, Option.bind_eq_some, afterPass_ok] at hr
    obtain ⟨u, hu, c, hc, hr⟩ := hr
    obtain ⟨s0, a0⟩ := updatePhaseLive_clean B hU hD fuel w u hu hs
    obtain ⟨_, a1⟩ := hphase u.1 c s0 a0 hc
    simp only [Option.some.injEq, Except.ok.injEq] at hr
    subst hr
    intro r2 e he
    have he2 : e ∈ (B.levelEnd (B.sceneUpdate c.1)).2.list r2 := by
      cases r2 <;> exact he
    exact hscene c.1 a1 r2 e he2
  · intro h1 h2 h3 hf
    obtain ⟨_, _, r, _, _, hr⟩ := animateLive_returns B h1 h2 h3 fuel w hf
    exact ⟨r, hr⟩

/-- C16: let `g` be an entity whose `onCollide` always leaves it flagged, whose
flag no `onCollide` of another entity clears, and which no method inserts into
a registry; let the methods change the registries by insertions at the back
only; let `g` be allocated and at most once in the three registries of the
world. Then, with any bound on the steps of the loops, in a `checkCollisionsSelf`
call, in a `checkCollisions` call and in the four collision passes of `animate()`
that return: `onCollide` is called on `g` at most once; each call is followed by
the `erase` of `g` before `didCollide` is evaluated again; and after a call `g`
is in no registry. What the four passes return does not depend on the
bound, and they return within every bound greater than the size of the three
registries together when no `onCollide` call and no destructor changes a
registry. -/
theorem self_flagging_entity_called_once (H : Type) (B : Behaviour H) (g : EntityId)
    (fuel : Nat) (w : World H)
    (hsf : ∀ b v, toDelete g (B.onCollide g b v) = true)
    (hkeep : ∀ a b v, a ≠ g → g < v.nextEntity → toDelete g v = true →
      toDelete g (B.onCollide a b v) = true)
    (hinsC : ∀ a b v, NeverInserts g v (B.onCollide a b v))
    (hinsD : ∀ a v, NeverInserts g v (B.destructor a v))
    (happC : ∀ a b v, AppendsOnly v (B.onCollide a b v))
    (happD : ∀ a v, AppendsOnly v (B.destructor a v))
    (ha : g < w.nextEntity) (hone : occurrences g w ≤ 1) :
    (∀ list p, checkCollisionsSelfLive B list fuel w = some p →
      callsBy g p.2 ≤ 1 ∧ ErasedAtOnce g p.2 ∧ (1 ≤ callsBy g p.2 → ∀ r, g ∉ p.1.list r)) ∧
    (∀ listA listB p, checkCollisionsLive B listA listB fuel w = some (Except.ok p) →
      callsBy g p.2 ≤ 1 ∧ ErasedAtOnce g p.2 ∧ (1 ≤ callsBy g p.2 → ∀ r, g ∉ p.1.list r)) ∧
    (∀ c, collisionPhaseLive B fuel w = some (Except.ok c) →
      callsBy g c.2 ≤ 1 ∧ ErasedAtOnce g c.2 ∧ (1 ≤ callsBy g c.2 → ∀ r, g ∉ c.1.list r)) ∧
    (∀ m e, fuel ≤ m → collisionPhaseLive B fuel w = some e →
      collisionPhaseLive B m w = some e) ∧
    ((∀ a b v r, (B.onCollide a b v).list r = v.list r) →
      (∀ a v r, (B.destructor a v).list r = v.list r) →
      (w.list Registry.wEntities).length + (w.list Registry.wWalls).length +
        (w.list Registry.wSoftEntities).length + 1 ≤ fuel →
      ∃ c, collisionPhaseLive B fuel w = some (Except.ok c)) := by
  have key : ∀ (v u : World H) (t : Trace), OncePass g v u t →
      callsBy g t ≤ 1 ∧ ErasedAtOnce g t ∧ (1 ≤ callsBy g t → ∀ r, g ∉ u.list r) :=
    fun v u t hp => ⟨hp.2.2.1, hp.2.2.2.1.erasedAtOnce,
      fun hc r => not_mem_of_occurrences_zero (hp.2.2.2.2.1 hc) r⟩
  refine ⟨?_, ?_, ?_, fun m e hm he => collisionPhaseLive_fuel B fuel m w e hm he,
    fun h1 h2 hf => collisionPhaseLive_returns B h1 h2 fuel w hf⟩
  · intro list p hp
    exact key _ _ _ (selfLoopILive_once B g hsf hkeep hinsC hinsD happC happD list fuel 0 w p
      hp ha hone)
  · intro listA listB p hp
    obtain ⟨hne, hp2⟩ := (checkCollisionsLive_ok B listA listB fuel w p).mp hp
    exact key _ _ _ (crossLoopILive_once B g hsf hkeep hinsC hinsD happC happD listA listB hne
      fuel 0 w p hp2 ha hone)
  · intro c hc
    obtain ⟨c1, c2, c3, c4, h1, h2, h3, h4, rfl⟩ := collisionPhaseLive_ok B fuel w c hc
    have p1 := selfLoopILive_once B g hsf hkeep hinsC hinsD happC happD _ fuel 0 w c1 h1 ha
      hone
    have p2 := crossLoopILive_once B g hsf hkeep hinsC hinsD happC happD _ _ (by decide)
      fuel 0 _ c2 h2 p1.1 (le_trans p1.2.1 hone)
    have p12 := p1.andThen p2
    have p3 := crossLoopILive_once B g hsf hkeep hinsC hinsD happC happD _ _ (by decide)
      fuel 0 _ c3 h3 p12.1 (le_trans p12.2.1 hone)
    have p123 := p12.andThen p3
    have p4 := crossLoopILive_once B g hsf hkeep hinsC hinsD happC happD _ _ (by decide)
      fuel 0 _ c4 h4 p123.1 (le_trans p123.2.1 hone)
    exact key _ _ _ (p123.andThen p4)



/-! ## Theorems: the two embeddings of the passes agree -/

theorem World.setList_list {H : Type} (w : World H) (r : Registry) :
    w.setList r (w.list r) = w := by
  cases r <;> rfl

theorem World.setList_setList {H : Type} (w : World H) (r : Registry) (l1 l2 : List EntityId) :
    (w.setList r l1).setList r l2 = w.setList r l2 := by
  cases r <;> rfl

theorem World.setList_comm {H : Type} (w : World H) (r1 r2 : Registry)
    (l1 l2 : List EntityId) (h : r1 ≠ r2) :
    (w.setList r1 l1).setList r2 l2 = (w.setList r2 l2).setList r1 l1 := by
  cases r1 <;> cases r2 <;> first | exact absurd rfl h | rfl

theorem loopJLive_end {H : Type} (B : Behaviour H) (x : EntityId) (rb : Registry)
    (n j : Nat) (w : World H) (hy : (w.list rb)[j]? = none) :
    loopJLive B x rb (n + 1) j w = some ⟨Exit.next, w, []⟩ := by
  unfold loopJLive
  simp only [hy]

theorem loopJLive_miss {H : Type} (B : Behaviour H) (x : EntityId) (rb : Registry)
    (n j : Nat) (w : World H) (y : EntityId) (hy : (w.list rb)[j]? = some y)
    (hc : B.didCollide x y w = false) :
    loopJLive B x rb (n + 1) j w =
      innerAfter [Event.didCollide x y false] (loopJLive B x rb n (j + 1) w) := by
  conv_lhs => unfold loopJLive
  simp only [hy, hc, Bool.false_eq_true, if_false]

theorem loopJLive_hitI {H : Type} (B : Behaviour H) (x : EntityId) (rb : Registry)
    (n j : Nat) (w : World H) (y : EntityId) (hy : (w.list rb)[j]? = some y)
    (hc : B.didCollide x y w = true)
    (hi : toDelete x (B.onCollide y x (B.onCollide x y w)) = true) :
    loopJLive B x rb (n + 1) j w =
      some ⟨Exit.restart,
        B.destructor x
          (if toDelete y (B.onCollide y x (B.onCollide x y w)) = true then
            (B.destructor y (B.onCollide y x (B.onCollide x y w))).eraseAt rb j
          else B.onCollide y x (B.onCollide x y w)),
        collisionEvents x y true (toDelete y (B.onCollide y x (B.onCollide x y w))) ++
          [Event.delete x, Event.erase x]⟩ := by
  conv_lhs => unfold loopJLive
  simp only [hy, hc, hi, if_true]

theorem loopJLive_hitJ {H : Type} (B : Behaviour H) (x : EntityId) (rb : Registry)
    (n j : Nat) (w : World H) (y : EntityId) (hy : (w.list rb)[j]? = some y)
    (hc : B.didCollide x y w = true)
    (hi : toDelete x (B.onCollide y x (B.onCollide x y w)) = false)
    (hj : toDelete y (B.onCollide y x (B.onCollide x y w)) = true) :
    loopJLive B x rb (n + 1) j w =
      innerAfter (collisionEvents x y false true)
        (loopJLive B x rb n j
          ((B.destructor y (B.onCollide y x (B.onCollide x y w))).eraseAt rb j)) := by
  conv_lhs => unfold loopJLive
  simp only [hy, hc, hi, hj, if_true, Bool.false_eq_true, if_false]

theorem loopJLive_hitN {H : Type} (B : Behaviour H) (x : EntityId) (rb : Registry)
    (n j : Nat) (w : World H) (y : EntityId) (hy : (w.list rb)[j]? = some y)
    (hc : B.didCollide x y w = true)
    (hi : toDelete x (B.onCollide y x (B.onCollide x y w)) = false)
    (hj : toDelete y (B.onCollide y x (B.onCollide x y w)) = false) :
    loopJLive B x rb (n + 1) j w =
      innerAfter (collisionEvents x y false false)
        (loopJLive B x rb n (j + 1) (B.onCollide y x (B.onCollide x y w))) := by
  conv_lhs => unfold loopJLive
  simp only [hy, hc, hi, hj, if_true, Bool.false_eq_true, if_false]

theorem getElem?_front_mid (front mid rest : List EntityId) (y : EntityId) :
    (front ++ (mid ++ y :: rest))[front.length + mid.length]? = some y := by
  rw [← List.append_assoc]
  have : front.length + mid.length = (front ++ mid).length := by simp
  rw [this, List.getElem?_append_right (le_refl _)]
  simp

theorem getElem?_front_end (front mid : List EntityId) :
    (front ++ mid)[front.length + mid.length]? = none := by
  apply List.getElem?_eq_none
  simp

theorem eraseIdx_mid (mid rest : List EntityId) (y : EntityId) :
    (mid ++ y :: rest).eraseIdx mid.length = mid ++ rest := by
  rw [List.eraseIdx_append_of_length_le (le_refl _)]
  simp

/-- The inner loop on the registries of the world is the inner loop on the
held range, when the methods commute with the way `s` stores the range in the
world: they neither read nor write the registry. `front` is the part of the
registry before the range. -/
theorem loopJLive_eq_loopJ {H : Type} (B : Behaviour H) (x : EntityId) (rb : Registry)
    (s : List EntityId → World H → World H) (front : List EntityId)
    (hlist : ∀ l v, (s l v).list rb = front ++ l)
    (herase : ∀ l v k, (s l v).eraseAt rb (front.length + k) = s (l.eraseIdx k) v)
    (hflag : ∀ l v, (s l v).deleteFlag = v.deleteFlag)
    (hdc : ∀ a b l v, B.didCollide a b (s l v) = B.didCollide a b v)
    (hoc : ∀ a b l v, B.onCollide a b (s l v) = s l (B.onCollide a b v))
    (hde : ∀ a l v, B.destructor a (s l v) = s l (B.destructor a v))
    (mid rest : List EntityId) (w : World H) :
    ∀ fuel, rest.length + 1 ≤ fuel →
      loopJLive B x rb fuel (front.length + mid.length) (s (mid ++ rest) w) =
        some ⟨(loopJ B x mid rest w).exit,
          s (loopJ B x mid rest w).list (loopJ B x mid rest w).world,
          (loopJ B x mid rest w).log⟩ := by
  have htd : ∀ e l v, toDelete e (s l v) = toDelete e v := fun e l v => by
    simp only [toDelete, hflag]
  have h2 : ∀ y l v, B.onCollide y x (B.onCollide x y (s l v)) =
      s l (B.onCollide y x (B.onCollide x y v)) := fun y l v => by rw [hoc, hoc]
  refine loopJ_induction B x
    (fun mid rest w r => ∀ fuel, rest.length + 1 ≤ fuel →
      loopJLive B x rb fuel (front.length + mid.length) (s (mid ++ rest) w) =
        some ⟨r.exit, s r.list r.world, r.log⟩)
    ?_ ?_ ?_ ?_ ?_ mid rest w
  · intro mid w fuel hf
    obtain ⟨n, rfl⟩ : ∃ n, fuel = n + 1 := ⟨fuel - 1, by omega⟩
    rw [loopJLive_end]
    · simp
    · rw [hlist, List.append_nil]
      exact getElem?_front_end front mid
  · intro mid y rest w r hc ih fuel hf
    obtain ⟨n, rfl⟩ : ∃ n, fuel = n + 1 := ⟨fuel - 1, by simp at hf; omega⟩
    have hy : ((s (mid ++ y :: rest) w).list rb)[front.length + mid.length]? = some y := by
      rw [hlist]
      exact getElem?_front_mid front mid rest y
    rw [loopJLive_miss B x rb n _ _ y hy (by rw [hdc]; exact hc)]
    have := ih n (by simp at hf; omega)
    simp only [List.length_append, List.length_singleton, List.append_assoc,
      List.singleton_append, ← Nat.add_assoc] at this
    rw [this]
    rfl
  · intro mid y rest w hc hi fuel hf
    obtain ⟨n, rfl⟩ : ∃ n, fuel = n + 1 := ⟨fuel - 1, by simp at hf; omega⟩
    have hy : ((s (mid ++ y :: rest) w).list rb)[front.length + mid.length]? = some y := by
      rw [hlist]
      exact getElem?_front_mid front mid rest y
    rw [loopJLive_hitI B x rb n _ _ y hy (by rw [hdc]; exact hc)
      (by rw [h2, htd]; exact hi)]
    simp only [h2, htd]
    by_cases hj : toDelete y (B.onCollide y x (B.onCollide x y w)) = true
    · simp only [hj, if_true, hde, herase, eraseIdx_mid]
    · simp only [hj, Bool.false_eq_true, if_false, hde]
  · intro mid y rest w r hc hi hj ih fuel hf
    obtain ⟨n, rfl⟩ : ∃ n, fuel = n + 1 := ⟨fuel - 1, by simp at hf; omega⟩
    have hy : ((s (mid ++ y :: rest) w).list rb)[front.length + mid.length]? = some y := by
      rw [hlist]
      exact getElem?_front_mid front mid rest y
    rw [loopJLive_hitJ B x rb n _ _ y hy (by rw [hdc]; exact hc)
      (by rw [h2, htd]; exact hi) (by rw [h2, htd]; exact hj)]
    rw [h2, hde, herase, eraseIdx_mid]
    rw [ih n (by simp at hf; omega)]
    rfl
  · intro mid y rest w r hc hi hj ih fuel hf
    obtain ⟨n, rfl⟩ : ∃ n, fuel = n + 1 := ⟨fuel - 1, by simp at hf; omega⟩
    have hy : ((s (mid ++ y :: rest) w).list rb)[front.length + mid.length]? = some y := by
      rw [hlist]
      exact getElem?_front_mid front mid rest y
    rw [loopJLive_hitN B x rb n _ _ y hy (by rw [hdc]; exact hc)
      (by rw [h2, htd]; exact hi) (by rw [h2, htd]; exact hj)]
    rw [h2]
    have := ih n (by simp at hf; omega)
    simp only [List.length_append, List.length_singleton, List.append_assoc,
      List.singleton_append, ← Nat.add_assoc] at this
    rw [this]
    rfl

theorem crossLoopILive_nil {H : Type} (B : Behaviour H) (ra rb : Registry)
    (n i : Nat) (w : World H) (hx : (w.list ra)[i]? = none) :
    crossLoopILive B ra rb (n + 1) i w = some (w, []) := by
  unfold crossLoopILive
  simp only [hx]

theorem crossLoopILive_next {H : Type} (B : Behaviour H) (ra rb : Registry)
    (n i : Nat) (w : World H) (x : EntityId) (r : InnerLive H)
    (hx : (w.list ra)[i]? = some x) (hr : loopJLive B x rb n 0 w = some r)
    (he : r.exit = Exit.next) :
    crossLoopILive B ra rb (n + 1) i w =
      logAfter r.log (crossLoopILive B ra rb n (i + 1) r.world) := by
  conv_lhs => unfold crossLoopILive
  simp only [hx, hr, he]

theorem crossLoopILive_restart {H : Type} (B : Behaviour H) (ra rb : Registry)
    (n i : Nat) (w : World H) (x : EntityId) (r : InnerLive H)
    (hx : (w.list ra)[i]? = some x) (hr : loopJLive B x rb n 0 w = some r)
    (he : r.exit = Exit.restart) :
    crossLoopILive B ra rb (n + 1) i w =
      logAfter r.log (crossLoopILive B ra rb n i (r.world.eraseAt ra i)) := by
  conv_lhs => unfold crossLoopILive
  simp only [hx, hr, he]

theorem getElem?_kept_end (kept : List EntityId) : (kept ++ [])[kept.length]? = none := by
  simp

theorem getElem?_kept_head (kept l : List EntityId) (x : EntityId) :
    (kept ++ x :: l)[kept.length]? = some x := by
  rw [List.getElem?_append_right (le_refl _)]
  simp

theorem eraseIdx_kept (kept l : List EntityId) (x : EntityId) :
    (kept ++ x :: l).eraseIdx kept.length = kept ++ l := by
  rw [List.eraseIdx_append_of_length_le (le_refl _)]
  simp

/-- The outer loop of the cross pass on the registries of the world is the
outer loop on the held registries, when the methods neither read nor write
the two registries. `kept` is the part of `listA` before `i`. -/
theorem crossLoopILive_eq_crossLoopI {H : Type} (B : Behaviour H) (ra rb : Registry)
    (hne : ra ≠ rb) (hA : Ignores B ra) (hB : Ignores B rb) (la : List EntityId) :
    ∀ (lb : List EntityId) (w : World H) (kept : List EntityId) (fuel : Nat),
      la.length + lb.length + 1 ≤ fuel →
      crossLoopILive B ra rb fuel kept.length ((w.setList ra (kept ++ la)).setList rb lb) =
        some
          (((crossLoopI B la lb w).world.setList ra
              (kept ++ (crossLoopI B la lb w).listA)).setList rb (crossLoopI B la lb w).listB,
            (crossLoopI B la lb w).log) := by
  induction la with
  | nil =>
    intro lb w kept fuel hf
    obtain ⟨n, rfl⟩ : ∃ n, fuel = n + 1 := ⟨fuel - 1, by omega⟩
    rw [crossLoopILive_nil]
    · rfl
    · rw [World.list_setList_of_ne _ _ _ _ hne, World.list_setList]
      exact getElem?_kept_end kept
  | cons x ta ih =>
    intro lb w kept fuel hf
    obtain ⟨n, rfl⟩ : ∃ n, fuel = n + 1 := ⟨fuel - 1, by omega⟩
    simp only [List.length_cons] at hf
    have hx : (((w.setList ra (kept ++ x :: ta)).setList rb lb).list ra)[kept.length]? =
        some x := by
      rw [World.list_setList_of_ne _ _ _ _ hne, World.list_setList]
      exact getElem?_kept_head kept ta x
    have hin := loopJLive_eq_loopJ B x rb
      (fun l v => (v.setList ra (kept ++ x :: ta)).setList rb l) []
      (fun l v => by rw [World.list_setList]; rfl)
      (fun l v k => by
        simp only [World.eraseAt, World.list_setList, World.setList_setList,
          List.length_nil, Nat.zero_add])
      (fun l v => by simp only [deleteFlag_setList])
      (fun a b l v => by rw [hB.2.1, hA.2.1])
      (fun a b l v => by rw [hB.2.2.1, hA.2.2.1])
      (fun a l v => by rw [hB.2.2.2, hA.2.2.2])
      [] lb w n (by omega)
    simp only [List.length_nil, Nat.add_zero, List.nil_append] at hin
    have hsub : (loopJ B x [] lb w).list.length ≤ lb.length :=
      (loopJ_list_sublist B x lb w).length_le
    rcases Exit.next_or_restart (loopJ B x [] lb w).exit with he | he
    · rw [crossLoopILive_next B ra rb n _ _ x _ hx hin he, crossLoopI_next B x ta lb w he]
      have := ih (loopJ B x [] lb w).list (loopJ B x [] lb w).world (kept ++ [x]) n
        (by omega)
      simp only [List.length_append, List.length_singleton, List.append_assoc,
        List.singleton_append] at this
      dsimp only
      rw [this]
      rfl
    · rw [crossLoopILive_restart B ra rb n _ _ x _ hx hin he,
        crossLoopI_restart B x ta lb w he]
      have := ih (loopJ B x [] lb w).list (loopJ B x [] lb w).world kept n (by omega)
      dsimp only
      have hw : (((loopJ B x [] lb w).world.setList ra (kept ++ x :: ta)).setList rb
          (loopJ B x [] lb w).list).eraseAt ra kept.length =
          ((loopJ B x [] lb w).world.setList ra (kept ++ ta)).setList rb
            (loopJ B x [] lb w).list := by
        simp only [World.eraseAt, World.list_setList_of_ne _ _ _ _ hne,
          World.list_setList, eraseIdx_kept]
        rw [World.setList_comm _ rb ra _ _ (Ne.symm hne), World.setList_setList]
      rw [hw, this]
      rfl

/-- The function `checkCollisions` on the registries of the world returns, and
returns what the function on the held registries returns, when the methods
neither read nor write the two registries and the fuel covers the two
registries. -/
theorem checkCollisionsLive_eq_checkCollisions {H : Type} (B : Behaviour H)
    (ra rb : Registry) (hA : Ignores B ra) (hB : Ignores B rb) (w : World H) (fuel : Nat)
    (hf : (w.list ra).length + (w.list rb).length + 1 ≤ fuel) :
    checkCollisionsLive B ra rb fuel w = some (checkCollisions B ra rb w) := by
  by_cases hne : ra = rb
  · simp only [checkCollisionsLive, checkCollisions, hne, if_true]
  · have := crossLoopILive_eq_crossLoopI B ra rb hne hA hB (w.list ra) (w.list rb) w [] fuel hf
    simp only [List.nil_append, List.length_nil] at this
    have hw : (w.setList ra (w.list ra)).setList rb (w.list rb) = w := by
      rw [World.setList_list]
      exact World.setList_list w rb
    rw [hw] at this
    simp only [checkCollisionsLive, checkCollisions, hne, if_false, this, Option.map_some']

theorem selfLoopILive_nil {H : Type} (B : Behaviour H) (list : Registry)
    (n i : Nat) (w : World H) (hx : (w.list list)[i]? = none) :
    selfLoopILive B list (n + 1) i w = some (w, []) := by
  unfold selfLoopILive
  simp only [hx]

theorem selfLoopILive_next {H : Type} (B : Behaviour H) (list : Registry)
    (n i : Nat) (w : World H) (x : EntityId) (r : InnerLive H)
    (hx : (w.list list)[i]? = some x) (hr : loopJLive B x list n (i + 1) w = some r)
    (he : r.exit = Exit.next) :
    selfLoopILive B list (n + 1) i w =
      logAfter r.log (selfLoopILive B list n (i + 1) r.world) := by
  conv_lhs => unfold selfLoopILive
  simp only [hx, hr, he]

theorem selfLoopILive_restart {H : Type} (B : Behaviour H) (list : Registry)
    (n i : Nat) (w : World H) (x : EntityId) (r : InnerLive H)
    (hx : (w.list list)[i]? = some x) (hr : loopJLive B x list n (i + 1) w = some r)
    (he : r.exit = Exit.restart) :
    selfLoopILive B list (n + 1) i w =
      logAfter r.log (selfLoopILive B list n i (r.world.eraseAt list i)) := by
  conv_lhs => unfold selfLoopILive
  simp only [hx, hr, he]

theorem eraseIdx_after_head (kept l : List EntityId) (x : EntityId) (k : Nat) :
    (kept ++ x :: l).eraseIdx ((kept ++ [x]).length + k) = kept ++ x :: l.eraseIdx k := by
  have h : kept ++ x :: l = (kept ++ [x]) ++ l := by simp
  rw [h, List.eraseIdx_append_of_length_le (Nat.le_add_right _ _)]
  simp

/-- The outer loop of the self pass on the registry of the world is the outer
loop on the held registry, when the methods neither read nor write the
registry. `kept` is the part of the registry before `i`. -/
theorem selfLoopILive_eq_selfLoopI {H : Type} (B : Behaviour H) (list : Registry)
    (hA : Ignores B list) (f : Nat) :
    ∀ (l : List EntityId) (w : World H) (kept : List EntityId) (fuel : Nat),
      l.length + 1 ≤ fuel → l.length ≤ f →
      selfLoopILive B list fuel kept.length (w.setList list (kept ++ l)) =
        some ((selfLoopI B f l w).world.setList list (kept ++ (selfLoopI B f l w).list),
          (selfLoopI B f l w).log) := by
  induction f with
  | zero =>
    intro l w kept fuel hf hl
    obtain ⟨n, rfl⟩ : ∃ n, fuel = n + 1 := ⟨fuel - 1, by omega⟩
    have hnil : l = [] := List.length_eq_zero.mp (Nat.le_zero.mp hl)
    subst hnil
    rw [selfLoopILive_nil, selfLoopI_zero]
    rw [World.list_setList]
    exact getElem?_kept_end kept
  | succ f ih =>
    intro l w kept fuel hf hl
    obtain ⟨n, rfl⟩ : ∃ n, fuel = n + 1 := ⟨fuel - 1, by omega⟩
    cases l with
    | nil =>
      rw [selfLoopILive_nil, selfLoopI_nil]
      rw [World.list_setList]
      exact getElem?_kept_end kept
    | cons x tl =>
      simp only [List.length_cons] at hf hl
      have hx : ((w.setList list (kept ++ x :: tl)).list list)[kept.length]? = some x := by
        rw [World.list_setList]
        exact getElem?_kept_head kept tl x
      have hin := loopJLive_eq_loopJ B x list
        (fun l v => v.setList list (kept ++ x :: l)) (kept ++ [x])
        (fun l v => by rw [World.list_setList]; simp)
        (fun l v k => by
          simp only [World.eraseAt, World.list_setList, World.setList_setList,
            eraseIdx_after_head])
        (fun l v => by simp only [deleteFlag_setList])
        (fun a b l v => by rw [hA.2.1])
        (fun a b l v => by rw [hA.2.2.1])
        (fun a l v => by rw [hA.2.2.2])
        [] tl w n (by omega)
      simp only [List.length_nil, Nat.add_zero, List.nil_append, List.length_append,
        List.length_singleton] at hin
      have hsub : (loopJ B x [] tl w).list.length ≤ tl.length :=
        (loopJ_list_sublist B x tl w).length_le
      rcases Exit.next_or_restart (loopJ B x [] tl w).exit with he | he
      · rw [selfLoopILive_next B list n _ _ x _ hx hin he, selfLoopI_next B f x tl w he]
        have := ih (loopJ B x [] tl w).list (loopJ B x [] tl w).world (kept ++ [x]) n
          (by omega) (by omega)
        simp only [List.length_append, List.length_singleton, List.append_assoc,
          List.singleton_append] at this
        dsimp only
        rw [this]
        rfl
      · rw [selfLoopILive_restart B list n _ _ x _ hx hin he,
          selfLoopI_restart B f x tl w he]
        have := ih (loopJ B x [] tl w).list (loopJ B x [] tl w).world kept n
          (by omega) (by omega)
        dsimp only
        have hw : ((loopJ B x [] tl w).world.setList list
            (kept ++ x :: (loopJ B x [] tl w).list)).eraseAt list kept.length =
            (loopJ B x [] tl w).world.setList list (kept ++ (loopJ B x [] tl w).list) := by
          simp only [World.eraseAt, World.list_setList, eraseIdx_kept, World.setList_setList]
        rw [hw, this]
        rfl

/-- The function `checkCollisionsSelf` on the registry of the world returns,
and returns what the function on the held registry returns, when the methods
neither read nor write the registry and the fuel covers the registry. -/
theorem checkCollisionsSelfLive_eq_checkCollisionsSelf {H : Type} (B : Behaviour H)
    (list : Registry) (hA : Ignores B list) (w : World H) (fuel : Nat)
    (hf : (w.list list).length + 1 ≤ fuel) :
    checkCollisionsSelfLive B list fuel w = some (checkCollisionsSelf B list w) := by
  have := selfLoopILive_eq_selfLoopI B list hA (w.list list).length (w.list list) w [] fuel
    hf (le_refl _)
  simp only [List.nil_append, List.length_nil, World.setList_list] at this
  simp only [checkCollisionsSelfLive, checkCollisionsSelf, this]

theorem updateLoopLive_nil {H : Type} (B : Behaviour H) (list : Registry)
    (n i : Nat) (w : World H) (hx : (w.list list)[i]? = none) :
    updateLoopLive B list (n + 1) i w = some (w, []) := by
  unfold updateLoopLive
  simp only [hx]

theorem updateLoopLive_erase {H : Type} (B : Behaviour H) (list : Registry)
    (n i : Nat) (w : World H) (e : EntityId) (hx : (w.list list)[i]? = some e)
    (hd : toDelete e (B.update e w) = true) :
    updateLoopLive B list (n + 1) i w =
      logAfter [Event.update e, Event.toDelete e true, Event.delete e, Event.erase e]
        (updateLoopLive B list n i ((B.destructor e (B.update e w)).eraseAt list i)) := by
  conv_lhs => unfold updateLoopLive
  simp only [hx, hd, if_true]

theorem updateLoopLive_keep {H : Type} (B : Behaviour H) (list : Registry)
    (n i : Nat) (w : World H) (e : EntityId) (hx : (w.list list)[i]? = some e)
    (hd : toDelete e (B.update e w) = false) :
    updateLoopLive B list (n + 1) i w =
      logAfter [Event.update e, Event.toDelete e false]
        (updateLoopLive B list n (i + 1) (B.update e w)) := by
  conv_lhs => unfold updateLoopLive
  simp only [hx, hd, Bool.false_eq_true, if_false]

/-- The loop of the update pass on the registry of the world is the loop on
the held registry, when the methods neither read nor write the registry.
`kept` is the part of the registry before `i`. -/
theorem updateLoopLive_eq_updateLoop {H : Type} (B : Behaviour H) (list : Registry)
    (hA : Ignores B list) (l : List EntityId) :
    ∀ (w : World H) (kept : List EntityId) (fuel : Nat), l.length + 1 ≤ fuel →
      updateLoopLive B list fuel kept.length (w.setList list (kept ++ l)) =
        some ((updateLoop B l w).world.setList list (kept ++ (updateLoop B l w).list),
          (updateLoop B l w).log) := by
  induction l with
  | nil =>
    intro w kept fuel hf
    obtain ⟨n, rfl⟩ : ∃ n, fuel = n + 1 := ⟨fuel - 1, by omega⟩
    rw [updateLoopLive_nil]
    · rfl
    · rw [World.list_setList]
      exact getElem?_kept_end kept
  | cons e tl ih =>
    intro w kept fuel hf
    obtain ⟨n, rfl⟩ : ∃ n, fuel = n + 1 := ⟨fuel - 1, by omega⟩
    simp only [List.length_cons] at hf
    have hx : ((w.setList list (kept ++ e :: tl)).list list)[kept.length]? = some e := by
      rw [World.list_setList]
      exact getElem?_kept_head kept tl e
    have hu : B.update e (w.setList list (kept ++ e :: tl)) =
        (B.update e w).setList list (kept ++ e :: tl) := hA.1 _ _ _
    by_cases hd : toDelete e (B.update e w) = true
    · rw [updateLoopLive_erase B list n _ _ e hx
        (by rw [hu]; simpa only [toDelete, deleteFlag_setList] using hd)]
      rw [hu, hA.2.2.2]
      have hw : ((B.destructor e (B.update e w)).setList list (kept ++ e :: tl)).eraseAt list
          kept.length = (B.destructor e (B.update e w)).setList list (kept ++ tl) := by
        simp only [World.eraseAt, World.list_setList, eraseIdx_kept, World.setList_setList]
      rw [hw, ih _ kept n (by omega)]
      simp only [updateLoop, hd, if_true, Scan.after, logAfter, Option.map_some']
    · simp only [Bool.not_eq_true] at hd
      rw [updateLoopLive_keep B list n _ _ e hx
        (by rw [hu]; simpa only [toDelete, deleteFlag_setList] using hd)]
      rw [hu]
      have := ih (B.update e w) (kept ++ [e]) n (by omega)
      simp only [List.length_append, List.length_singleton, List.append_assoc,
        List.singleton_append] at this
      rw [this]
      simp only [updateLoop, hd, Bool.false_eq_true, if_false, logAfter, Option.map_some']

/-- The function `updateEntities` on the registry of the world returns, and
returns what the function on the held registry returns, when the methods
neither read nor write the registry and the fuel covers the registry. -/
theorem updateEntitiesLive_eq_updateEntities {H : Type} (B : Behaviour H)
    (list : Registry) (hA : Ignores B list) (w : World H) (fuel : Nat)
    (hf : (w.list list).length + 1 ≤ fuel) :
    updateEntitiesLive B list fuel w = some (updateEntities B list w) := by
  have := updateLoopLive_eq_updateLoop B list hA (w.list list) w [] fuel hf
  simp only [List.nil_append, List.length_nil, World.setList_list] at this
  simp only [updateEntitiesLive, updateEntities, this]

theorem Ignores.update_list {H : Type} (B : Behaviour H) (r : Registry) (h : Ignores B r)
    (a : EntityId) (v : World H) : (B.update a v).list r = v.list r := by
  have := congrArg (fun x => x.list r) (h.1 a v (v.list r))
  simp only [World.setList_list, World.list_setList] at this
  exact this

theorem Ignores.onCollide_list {H : Type} (B : Behaviour H) (r : Registry) (h : Ignores B r)
    (a b : EntityId) (v : World H) : (B.onCollide a b v).list r = v.list r := by
  have := congrArg (fun x => x.list r) (h.2.2.1 a b v (v.list r))
  simp only [World.setList_list, World.list_setList] at this
  exact this

theorem Ignores.destructor_list {H : Type} (B : Behaviour H) (r : Registry) (h : Ignores B r)
    (a : EntityId) (v : World H) : (B.destructor a v).list r = v.list r := by
  have := congrArg (fun x => x.list r) (h.2.2.2 a v (v.list r))
  simp only [World.setList_list, World.list_setList] at this
  exact this

/-- The function `animate()` on the registries of the world returns, and
returns what the function on the held registries returns, when the methods
of the entities neither read nor write a registry and the fuel covers the
three registries. -/
theorem animateLive_eq_animate {H : Type} (B : Behaviour H) (hI : ∀ r, Ignores B r)
    (fuel : Nat) (w : World H)
    (hf : (w.list Registry.wEntities).length + (w.list Registry.wWalls).length +
      (w.list Registry.wSoftEntities).length + 1 ≤ fuel) :
    animateLive B fuel w = some (animate B w) := by
  have hU : ∀ a v r, (B.update a v).list r = v.list r :=
    fun a v r => Ignores.update_list B r (hI r) a v
  have hC : ∀ a b v r, (B.onCollide a b v).list r = v.list r :=
    fun a b v r => Ignores.onCollide_list B r (hI r) a b v
  have hD : ∀ a v r, (B.destructor a v).list r = v.list r :=
    fun a v r => Ignores.destructor_list B r (hI r) a v
  have hw0 : ∀ r, ({ w with frameCount := w.frameCount + 1 } : World H).list r = w.list r :=
    fun r => by cases r <;> rfl
  have h1 := updateEntitiesLive_eq_updateEntities B Registry.wEntities (hI _)
    { w with frameCount := w.frameCount + 1 } fuel (by rw [hw0]; omega)
  generalize hu1 : updateEntities B Registry.wEntities
    { w with frameCount := w.frameCount + 1 } = u1 at h1
  have s1 := updateLoopLive_shrinks B _ hU hD fuel 0 _ _ h1
  have l1 := fun r => (s1 r).length_le
  simp only [hw0] at l1
  have h2 := updateEntitiesLive_eq_updateEntities B Registry.wWalls (hI _) u1.1 fuel
    (by have := l1 Registry.wWalls; omega)
  generalize hu2 : updateEntities B Registry.wWalls u1.1 = u2 at h2
  have s2 := updateLoopLive_shrinks B _ hU hD fuel 0 _ _ h2
  have l2 := fun r => le_trans (s2 r).length_le (l1 r)
  have h3 := updateEntitiesLive_eq_updateEntities B Registry.wSoftEntities (hI _) u2.1 fuel
    (by have := l2 Registry.wSoftEntities; omega)
  generalize hu3 : updateEntities B Registry.wSoftEntities u2.1 = u3 at h3
  have s3 := updateLoopLive_shrinks B _ hU hD fuel 0 _ _ h3
  have l3 := fun r => le_trans (s3 r).length_le (l2 r)
  have k1 := checkCollisionsSelfLive_eq_checkCollisionsSelf B Registry.wEntities (hI _) u3.1
    fuel (by have := l3 Registry.wEntities; omega)
  generalize hc1 : checkCollisionsSelf B Registry.wEntities u3.1 = c1 at k1
  have t1 := selfLoopILive_shrinks B _ hC hD fuel 0 _ _ k1
  have m1 := fun r => le_trans (t1 r).length_le (l3 r)
  have k2 := checkCollisionsLive_eq_checkCollisions B Registry.wEntities Registry.wWalls
    (hI _) (hI _) c1.1 fuel
    (by have := m1 Registry.wEntities; have := m1 Registry.wWalls; omega)
  have o2 := checkCollisions_ok B Registry.wEntities Registry.wWalls (by decide) c1.1
  generalize hc2 : (((crossLoopI B (c1.1.list Registry.wEntities) (c1.1.list Registry.wWalls)
    c1.1).world.setList Registry.wEntities (crossLoopI B (c1.1.list Registry.wEntities)
    (c1.1.list Registry.wWalls) c1.1).listA).setList Registry.wWalls (crossLoopI B
    (c1.1.list Registry.wEntities) (c1.1.list Registry.wWalls) c1.1).listB,
    (crossLoopI B (c1.1.list Registry.wEntities) (c1.1.list Registry.wWalls) c1.1).log) = c2
    at o2
  rw [o2] at k2
  have t2 := crossLoopILive_shrinks B _ _ hC hD fuel 0 _ _
    ((checkCollisionsLive_ok B _ _ fuel _ _).mp k2).2
  have m2 := fun r => le_trans (t2 r).length_le (m1 r)
  have k3 := checkCollisionsLive_eq_checkCollisions B Registry.wEntities
    Registry.wSoftEntities (hI _) (hI _) c2.1 fuel
    (by have := m2 Registry.wEntities; have := m2 Registry.wSoftEntities; omega)
  have o3 := checkCollisions_ok B Registry.wEntities Registry.wSoftEntities (by decide) c2.1
  generalize hc3 : (((crossLoopI B (c2.1.list Registry.wEntities)
    (c2.1.list Registry.wSoftEntities) c2.1).world.setList Registry.wEntities (crossLoopI B
    (c2.1.list Registry.wEntities) (c2.1.list Registry.wSoftEntities) c2.1).listA).setList
    Registry.wSoftEntities (crossLoopI B (c2.1.list Registry.wEntities)
    (c2.1.list Registry.wSoftEntities) c2.1).listB,
    (crossLoopI B (c2.1.list Registry.wEntities) (c2.1.list Registry.wSoftEntities)
    c2.1).log) = c3 at o3
  rw [o3] at k3
  have t3 := crossLoopILive_shrinks B _ _ hC hD fuel 0 _ _
    ((checkCollisionsLive_ok B _ _ fuel _ _).mp k3).2
  have m3 := fun r => le_trans (t3 r).length_le (m2 r)
  have k4 := checkCollisionsLive_eq_checkCollisions B Registry.wWalls
    Registry.wSoftEntities (hI _) (hI _) c3.1 fuel
    (by have := m3 Registry.wWalls; have := m3 Registry.wSoftEntities; omega)
  simp only [animateLive, updatePhaseLive, collisionPhaseLive, h1, h2, h3, k1, k2, k3, k4,
    Option.some_bind, afterPass, animate, bind, Except.bind, pure, Except.pure,
    hu1, hu2, hu3, hc1, o2, o3]
  cases checkCollisions B Registry.wWalls Registry.wSoftEntities c3.1 with
  | error a => rfl
  | ok c4 => simp only [List.append_assoc]

theorem setDelete_setList {H : Type} (e : EntityId) (w : World H) (r : Registry)
    (l : List EntityId) : setDelete e (w.setList r l) = (setDelete e w).setList r l := by
  cases r <;> rfl

/-- The methods of the scenario neither read nor write a registry. -/
theorem scenarioBehaviour_ignores (fragile : List EntityId) (r : Registry) :
    Ignores (scenarioBehaviour fragile) r := by
  refine ⟨?_, ?_, ?_, ?_⟩
  · intro a v l
    by_cases h : a ∈ fragile
    · simp only [scenarioBehaviour, h, if_true, setDelete_setList]
    · simp only [scenarioBehaviour, h, if_false]
  · intro a b v l
    rfl
  · intro a b v l
    by_cases h : a ∈ fragile
    · simp only [scenarioBehaviour, h, if_true, setDelete_setList]
    · simp only [scenarioBehaviour, h, if_false]
  · intro a v l
    rfl

/-- On the scenario the two embeddings of `animate()` give the same tick. -/
theorem animateLive_scenario :
    animateLive (scenarioBehaviour [2, 10]) 10 scenarioWorld =
      some (animate (scenarioBehaviour [2, 10]) scenarioWorld) :=
  animateLive_eq_animate (scenarioBehaviour [2, 10]) (scenarioBehaviour_ignores [2, 10]) 10
    scenarioWorld (by decide)


/-! ## Scenarios: further theorems at concrete inputs -/

theorem flaggedGrenadeWorld_sound : Sound flaggedGrenadeWorld := by
  refine ⟨⟨?_, ?_⟩, ?_⟩
  · intro r
    cases r <;> decide
  · intro r1 r2 hne e h1 h2
    cases r1 <;> cases r2 <;>
      first
      | exact hne rfl
      | exact (by decide : ∀ a ∈ flaggedGrenadeWorld.wEntities,
          a ∉ flaggedGrenadeWorld.wWalls) e h1 h2
      | exact (by decide : ∀ a ∈ flaggedGrenadeWorld.wEntities,
          a ∉ flaggedGrenadeWorld.wWalls) e h2 h1
      | exact (by decide : ∀ a ∈ flaggedGrenadeWorld.wEntities,
          a ∉ flaggedGrenadeWorld.wSoftEntities) e h1 h2
      | exact (by decide : ∀ a ∈ flaggedGrenadeWorld.wEntities,
          a ∉ flaggedGrenadeWorld.wSoftEntities) e h2 h1
      | exact (by decide : ∀ a ∈ flaggedGrenadeWorld.wWalls,
          a ∉ flaggedGrenadeWorld.wSoftEntities) e h1 h2
      | exact (by decide : ∀ a ∈ flaggedGrenadeWorld.wWalls,
          a ∉ flaggedGrenadeWorld.wSoftEntities) e h2 h1
  · intro r
    cases r <;> decide

/-- C12, at a concrete input: a grenade, a wall that is flagged when the tick
starts, and a soft entity. The update phase removes the wall; in
`checkCollisions(wEntities, wSoftEntities)` the grenade collides with entity 50,
inserts the explosion 100 into the registry under scan and is erased; the
explosion stays in the registry. -/
theorem no_flagged_entity_after_passes_witness :
    Sound flaggedGrenadeWorld ∧
    toDelete 11 flaggedGrenadeWorld = true ∧
    (∃ r, animateLive grenadeBehaviour 10 flaggedGrenadeWorld = some (Except.ok r) ∧
      r.1.wEntities = [] ∧ r.1.wWalls = [] ∧ r.1.wSoftEntities = [50, 100]) ∧
    ((∀ u, updatePhaseLive grenadeBehaviour 10 flaggedGrenadeWorld = some u →
      Sound u.1 ∧ AllClean u.1 ∧
      (∀ c, collisionPhaseLive grenadeBehaviour 10 u.1 = some (Except.ok c) →
        Sound c.1 ∧ AllClean c.1) ∧
      (∀ a, collisionPhaseLive grenadeBehaviour 10 u.1 ≠ some (Except.error a))) ∧
    (∀ v list p, Sound v → AllClean v →
      checkCollisionsSelfLive grenadeBehaviour list 10 v = some p →
      Sound p.1 ∧ AllClean p.1) ∧
    (∀ v listA listB p, Sound v → AllClean v →
      checkCollisionsLive grenadeBehaviour listA listB 10 v = some (Except.ok p) →
      Sound p.1 ∧ AllClean p.1) ∧
    (∀ r, animateLive grenadeBehaviour 10 flaggedGrenadeWorld = some (Except.ok r) →
      (∀ v, AllClean v →
        AllClean (grenadeBehaviour.levelEnd (grenadeBehaviour.sceneUpdate v)).2) →
      AllClean r.1) ∧
    (∀ m e, 10 ≤ m → animateLive grenadeBehaviour 10 flaggedGrenadeWorld = some e →
      animateLive grenadeBehaviour m flaggedGrenadeWorld = some e) ∧
    ((∀ a v r, (grenadeBehaviour.update a v).list r = v.list r) →
      (∀ a b v r, (grenadeBehaviour.onCollide a b v).list r = v.list r) →
      (∀ a v r, (grenadeBehaviour.destructor a v).list r = v.list r) →
      (flaggedGrenadeWorld.list Registry.wEntities).length +
        (flaggedGrenadeWorld.list Registry.wWalls).length +
        (flaggedGrenadeWorld.list Registry.wSoftEntities).length + 1 ≤ 10 →
      ∃ r, animateLive grenadeBehaviour 10 flaggedGrenadeWorld = some (Except.ok r))) :=
  ⟨flaggedGrenadeWorld_sound, by decide, ⟨_, rfl, by decide, by decide, by decide⟩,
    no_flagged_entity_after_passes Unit grenadeBehaviour 10 flaggedGrenadeWorld
      (fun a v => Tame.idle a v)
      (fun a b v => by
        by_cases h : a = 1
        · simpa [grenadeBehaviour, h] using GrenadeEntity.onCollide_tame 1 b v
        · simpa [grenadeBehaviour, h] using Tame.idle a v)
      (fun a v => Tame.idle a v)
      flaggedGrenadeWorld_sound⟩

/-- C16, at a concrete input: two grenades and one soft entity. In
`checkCollisions(wEntities, wSoftEntities)` grenade 1 collides with entity 50,
inserts the explosion 100 into the registry under scan and is erased; grenade 2
then collides with that explosion, inserts the explosion 101 and is erased:
one `onCollide` call on each grenade. -/
theorem self_flagging_entity_called_once_witness :
    occurrences 2 twoGrenadeWorld = 1 ∧
    (∃ p, checkCollisionsLive twoGrenadeBehaviour Registry.wEntities Registry.wSoftEntities 10
        twoGrenadeWorld = some (Except.ok p) ∧
      p.2 = [Event.didCollide 1 50 true, Event.onCollide 1 50, Event.onCollide 50 1,
        Event.toDelete 1 true, Event.toDelete 50 false, Event.delete 1, Event.erase 1,
        Event.didCollide 2 50 false,
        Event.didCollide 2 100 true, Event.onCollide 2 100, Event.onCollide 100 2,
        Event.toDelete 2 true, Event.toDelete 100 false, Event.delete 2, Event.erase 2] ∧
      callsBy 2 p.2 = 1 ∧ p.1.wEntities = [] ∧ p.1.wSoftEntities = [50, 100, 101]) ∧
    ((∀ list p, checkCollisionsSelfLive twoGrenadeBehaviour list 10 twoGrenadeWorld = some p →
      callsBy 2 p.2 ≤ 1 ∧ ErasedAtOnce 2 p.2 ∧ (1 ≤ callsBy 2 p.2 → ∀ r, 2 ∉ p.1.list r)) ∧
    (∀ listA listB p,
      checkCollisionsLive twoGrenadeBehaviour listA listB 10 twoGrenadeWorld =
        some (Except.ok p) →
      callsBy 2 p.2 ≤ 1 ∧ ErasedAtOnce 2 p.2 ∧ (1 ≤ callsBy 2 p.2 → ∀ r, 2 ∉ p.1.list r)) ∧
    (∀ c, collisionPhaseLive twoGrenadeBehaviour 10 twoGrenadeWorld = some (Except.ok c) →
      callsBy 2 c.2 ≤ 1 ∧ ErasedAtOnce 2 c.2 ∧ (1 ≤ callsBy 2 c.2 → ∀ r, 2 ∉ c.1.list r)) ∧
    (∀ m e, 10 ≤ m → collisionPhaseLive twoGrenadeBehaviour 10 twoGrenadeWorld = some e →
      collisionPhaseLive twoGrenadeBehaviour m twoGrenadeWorld = some e) ∧
    ((∀ a b v r, (twoGrenadeBehaviour.onCollide a b v).list r = v.list r) →
      (∀ a v r, (twoGrenadeBehaviour.destructor a v).list r = v.list r) →
      (twoGrenadeWorld.list Registry.wEntities).length +
        (twoGrenadeWorld.list Registry.wWalls).length +
        (twoGrenadeWorld.list Registry.wSoftEntities).length + 1 ≤ 10 →
      ∃ c, collisionPhaseLive twoGrenadeBehaviour 10 twoGrenadeWorld = some (Except.ok c))) :=
  ⟨by decide, ⟨_, rfl, by decide, by decide, by decide, by decide⟩,
    self_flagging_entity_called_once Unit twoGrenadeBehaviour 2 10 twoGrenadeWorld
      (fun b v => (GrenadeEntity.onCollide_spec 2 b v).2.2.1)
      (fun a b v h ha hf => by
        by_cases h1 : a = 1
        · subst h1
          show toDelete 2 (GrenadeEntity.onCollide 1 b v) = true
          rw [GrenadeEntity.onCollide_keeps 1 b 2 v (by decide) ha]
          exact hf
        · have : ¬ (a = 1 ∨ a = 2) := fun hc => hc.elim h1 h
          simpa [twoGrenadeBehaviour, this] using hf)
      (fun a b v => by
        by_cases h1 : a = 1 ∨ a = 2
        · simpa [twoGrenadeBehaviour, h1] using GrenadeEntity.onCollide_neverInserts 2 a b v
        · simpa [twoGrenadeBehaviour, h1] using NeverInserts.unchanged 2 v)
      (fun _ v => NeverInserts.unchanged 2 v)
      (fun a b v => by
        by_cases h1 : a = 1 ∨ a = 2
        · simpa [twoGrenadeBehaviour, h1] using GrenadeEntity.onCollide_appendsOnly a b v
        · simp only [twoGrenadeBehaviour, h1, if_false]
          exact fun r => List.prefix_refl (v.list r))
      (fun _ v r => List.prefix_refl (v.list r))
      (by decide) (by decide)⟩

/-- C15 (counterexample): a grenade, entity 1, and a soft entity, 50, that
collide. `checkCollisions(wEntities, wSoftEntities)` returns with the explosion 100,
which `GrenadeEntity::onCollide` inserted during the pass, in `wSoftEntities`: the
registry left, `[50, 100]`, is no subsequence of the registry before the pass,
`[50]`. -/
theorem pass_keeps_inserted_entity :
    grenadeSoftWorld.list Registry.wSoftEntities = [50] ∧
    ∃ p, checkCollisionsLive grenadeBehaviour Registry.wEntities Registry.wSoftEntities 10
        grenadeSoftWorld = some (Except.ok p) ∧
      p.1.list Registry.wSoftEntities = [50, 100] ∧
      ¬ (p.1.list Registry.wSoftEntities).Sublist
        (grenadeSoftWorld.list Registry.wSoftEntities) ∧
      ¬ OnlyRemoves (grenadeSoftWorld.list Registry.wSoftEntities)
        (p.1.list Registry.wSoftEntities) p.2 := by
  refine ⟨rfl, _, rfl, rfl, ?_, ?_⟩
  · intro h
    exact absurd h.length_le (by decide)
  · intro h
    exact absurd h.1.length_le (by decide)

theorem scenarioBehaviour_onCollide_list (fragile : List EntityId) (a b : EntityId)
    (v : World Unit) (r : Registry) :
    ((scenarioBehaviour fragile).onCollide a b v).list r = v.list r := by
  simp only [scenarioBehaviour]
  split
  · cases r <;> rfl
  · rfl

/-- C15 (amended), at a concrete input: entities 1, 2, 3 and walls 10, 11 of
which 2 and 10 flag themselves when they collide. -/
theorem passes_only_remove_witness :
    (∃ p, checkCollisionsSelfLive (scenarioBehaviour [2, 10]) Registry.wEntities 10
        scenarioWorld = some p ∧ p.1.list Registry.wEntities = [1, 3]) ∧
    (∃ p, checkCollisionsLive (scenarioBehaviour [2, 10]) Registry.wEntities Registry.wWalls 10
        scenarioWorld = some (Except.ok p) ∧
      p.1.list Registry.wEntities = [1, 3] ∧ p.1.list Registry.wWalls = [11]) ∧
    ((∃ p, checkCollisionsSelfLive (scenarioBehaviour [2, 10]) Registry.wEntities 10
        scenarioWorld = some p ∧
      OnlyRemoves (scenarioWorld.list Registry.wEntities) (p.1.list Registry.wEntities) p.2 ∧
      FlagReadsFollowCollisions p.2) ∧
    (∃ p, checkCollisionsLive (scenarioBehaviour [2, 10]) Registry.wEntities Registry.wWalls 10
        scenarioWorld = some (Except.ok p) ∧
      OnlyRemoves (scenarioWorld.list Registry.wEntities) (p.1.list Registry.wEntities) p.2 ∧
      OnlyRemoves (scenarioWorld.list Registry.wWalls) (p.1.list Registry.wWalls) p.2 ∧
      FlagReadsFollowCollisions p.2)) :=
  ⟨⟨_, rfl, by decide⟩, ⟨_, rfl, by decide, by decide⟩,
    passes_only_remove Unit (scenarioBehaviour [2, 10]) Registry.wEntities Registry.wWalls 10
      scenarioWorld (by decide)
      (fun a b v r _ => scenarioBehaviour_onCollide_list [2, 10] a b v r)
      (fun _ _ _ _ => rfl) (by decide)⟩


end Game
